import Mathlib

/-! # Lexical analysis layer of `bm`

A shallow embedding of `src/library/tokenizer.c` (the Generic Tokenizer) and
`src/library/bang_lexer.c` (the Structured Lexer), followed by theorems about
the embedded functions.

Conventions of the embedding.

* A C `char` is a `Char`; the `<ctype.h>` predicates are those of the "C"
  locale, so every character outside ASCII belongs to no class.
* A pointer into a character buffer is a `Nat` (an address); `NULL` is `0`.
  A `String_View` carries the address of its first character together with
  the `count` characters stored there.
* A C function that mutates `*tokenizer` / `*lexer` becomes a function from
  the state before the call to an `Outcome` holding the state after it.
* `exit(1)` after an `fprintf(stderr, ...)` becomes `Outcome.fatal`, a failed
  `assert` becomes `Outcome.assert_failed`.
* `size_t` counters (`row`, `n`, `index`) are `Nat`: they are bounded by the
  length of the buffer, which itself fits in a `size_t`.
-/

namespace BM

/-! ## `<ctype.h>` in the "C" locale -/

/-- The C library predicate `isspace`: space, `\t`, `\n`, `\v`, `\f`, `\r`. -/
def isspace (x : Char) : Bool :=
  x.toNat == 32 || (9 ≤ x.toNat && x.toNat ≤ 13)

/-- The C library predicate `isdigit`. -/
def isdigit (x : Char) : Bool :=
  48 ≤ x.toNat && x.toNat ≤ 57

/-- The C library predicate `isalpha`. -/
def isalpha (x : Char) : Bool :=
  (65 ≤ x.toNat && x.toNat ≤ 90) || (97 ≤ x.toNat && x.toNat ≤ 122)

/-- The C library predicate `isalnum`. -/
def isalnum (x : Char) : Bool :=
  isalpha x || isdigit x

/-! ## Source View -/

/-- Modelled from the spec: the type `String_View` of `sv.h`, which is not
among the sources: "an immutable, non-owning window over a contiguous
character buffer", `{ pointer-to-data, remaining-length }`.  `data` is the
address of the first character and `chars` are the `count` characters found
there. -/
structure String_View where
  data : Nat
  chars : List Char
deriving DecidableEq, Repr

/-- The field `count` of a view. -/
def String_View.count (sv : String_View) : Nat := sv.chars.length

/-- Modelled from the spec: `sv_trim_left` of `sv.h`: "`trim_left` drops
leading whitespace". -/
def sv_trim_left (sv : String_View) : String_View :=
  { data := sv.data + (sv.chars.takeWhile isspace).length,
    chars := sv.chars.dropWhile isspace }

/-- Modelled from the spec: `sv_chop_left` of `sv.h`: "`chop_left(n)` removes
and returns the first `n` elements, requires `n ≤ length`".  The result is the
chopped view paired with the shrunk view; `none` is a violated requirement. -/
def sv_chop_left (sv : String_View) (n : Nat) : Option (String_View × String_View) :=
  if n ≤ sv.count then
    some ({ data := sv.data, chars := sv.chars.take n },
          { data := sv.data + n, chars := sv.chars.drop n })
  else none

/-- Modelled from the spec: `sv_chop_left_while` of `sv.h`:
"`chop_left_while(pred)` removes and returns the maximal leading run
satisfying `pred`, may return an empty view". -/
def sv_chop_left_while (sv : String_View) (p : Char → Bool) : String_View × String_View :=
  ({ data := sv.data, chars := sv.chars.takeWhile p },
   { data := sv.data + (sv.chars.takeWhile p).length, chars := sv.chars.dropWhile p })

/-- Modelled from the spec: `sv_starts_with` of `sv.h`: "`starts_with(prefix)`
is a pure boolean prefix comparison". -/
def sv_starts_with (sv expected : String_View) : Bool :=
  expected.chars.isPrefixOf sv.chars

/-- First offset of `c` in a list of characters, if any. -/
def index_of (c : Char) : List Char → Option Nat
  | [] => none
  | x :: xs => if x = c then some 0 else (index_of c xs).map (· + 1)

/-- Modelled from the spec: `sv_index_of` of `sv.h`: "`index_of(char)` returns
the first matching offset or not found". -/
def sv_index_of (sv : String_View) (c : Char) : Option Nat :=
  index_of c sv.chars

/-- Modelled from the spec: `sv_eq` of `sv.h`, the byte-for-byte comparison of
two views: same length and same characters. -/
def sv_eq (a b : String_View) : Bool :=
  decide (a.chars = b.chars)

/-- Modelled from the spec: `sv_chop_by_delim` of `sv.h`: "splitting the
buffer on `\n`".  The result is the text before the first delimiter (the
whole view when there is none) paired with the view shrunk past that text and
past the delimiter itself. -/
def sv_chop_by_delim (sv : String_View) (delim : Char) : String_View × String_View :=
  let i := (sv.chars.takeWhile (fun x => x != delim)).length
  ({ data := sv.data, chars := sv.chars.take i },
   if i < sv.count then { data := sv.data + (i + 1), chars := sv.chars.drop (i + 1) }
   else { data := sv.data + i, chars := sv.chars.drop i })

/-- Modelled from the spec: the macro `SV` of `sv.h`, a view of a string
literal; the address of the literal plays no part. -/
def SV (s : String) : String_View := { data := 0, chars := s.toList }

/-! ## Outcomes -/

/-- What a call of an analyzer function does: it returns true with a token,
returns false, terminates the process after one diagnostic, or violates an
assertion.  `fatal status loc msg` records `exit(status)` after writing the
location `loc` followed by the text `msg` to the error stream. -/
inductive Outcome (L S T : Type) where
  | token (t : T) (s : S)
  | no_token (s : S)
  | fatal (status : Nat) (loc : L) (msg : String)
  | assert_failed
deriving DecidableEq, Repr

/-! ## Generic Tokenizer (`tokenizer.c`) -/

/-- Modelled from the spec: the enum `Token_Kind` of `tokenizer.h`, which is
not among the sources; one constructor per enumerator that `tokenizer.c`
assigns. -/
inductive Token_Kind where
  | STR | CHAR | PLUS | MINUS | MULT | DIV | MOD | NUMBER | NAME
  | OPEN_PAREN | CLOSING_PAREN | OPEN_CURLY | CLOSING_CURLY | COMMA
  | GT | LT | EQ | EE | FROM | TO | IF
deriving DecidableEq, Repr, Inhabited

/-- Modelled from the spec: the struct `Token` of `tokenizer.h`:
`{ kind, text }`; the location is supplied by the caller per call. -/
structure Token where
  kind : Token_Kind
  text : String_View
deriving DecidableEq, Repr

/-- Modelled from the spec: the struct `File_Location` of the caller, which
is not among the sources; the tokenizer only passes it on to diagnostics. -/
structure File_Location where
  file_path : String
  line_number : Nat
deriving DecidableEq, Repr

/-- Modelled from the spec: the struct `Tokenizer` of `tokenizer.h`:
`{ source, peek_buffer }` with the flag `peek_buffer_full`. -/
structure Tokenizer where
  source : String_View
  peek_buffer : Token
  peek_buffer_full : Bool
deriving DecidableEq, Repr

/-- The outcomes of the functions of the Generic Tokenizer. -/
abbrev Tokenizer_Outcome := Outcome File_Location Tokenizer Token

/-- The function `is_name` of `tokenizer.c`. -/
def is_name (x : Char) : Bool :=
  isalnum x || x == '_'

/-- The function `is_number` of `tokenizer.c`. -/
def is_number (x : Char) : Bool :=
  isalnum x || x == '.'

/-- The common tail of `tokenizer_peek`: the token is stored in the peek
buffer, the buffer is marked full and the token is returned. -/
def tokenizer_store (source : String_View) (token : Token) : Tokenizer_Outcome :=
  .token token { source := source, peek_buffer := token, peek_buffer_full := true }

/-- The statement pair `token.kind = kind; token.text = sv_chop_left(&source, n);`
followed by the common tail of `tokenizer_peek`. -/
def tokenizer_chop (source : String_View) (kind : Token_Kind) (n : Nat) : Tokenizer_Outcome :=
  match sv_chop_left source n with
  | none => .assert_failed
  | some (text, source1) => tokenizer_store source1 { kind := kind, text := text }

/-- The cases `'"'` and `'\''` of `tokenizer_peek`: the opening quote is
chopped, the closing one is searched, the text between them is the token. -/
def tokenizer_quoted (source : String_View) (q : Char) (kind : Token_Kind)
    (location : File_Location) (msg : String) : Tokenizer_Outcome :=
  match sv_chop_left source 1 with
  | none => .assert_failed
  | some (_, source1) =>
    match sv_index_of source1 q with
    | some index =>
      match sv_chop_left source1 index with
      | none => .assert_failed
      | some (text, source2) =>
        match sv_chop_left source2 1 with
        | none => .assert_failed
        | some (_, source3) => tokenizer_store source3 { kind := kind, text := text }
    | none => .fatal 1 location msg

/-- The cases of the `switch` of `tokenizer_peek` whose body is
`token.kind = K; token.text = sv_chop_left(&tokenizer->source, 1);`, in the
order of the source: the case label and the kind `K`. -/
def tokenizer_single_chars : List (Char × Token_Kind) :=
  [ ('(', .OPEN_PAREN), (')', .CLOSING_PAREN), ('{', .OPEN_CURLY), ('}', .CLOSING_CURLY),
    ('/', .DIV), (',', .COMMA), ('%', .MOD), ('>', .GT), ('<', .LT),
    ('*', .MULT), ('+', .PLUS), ('-', .MINUS) ]

/-- The `default:` case of the `switch` of `tokenizer_peek` together with the
common tail behind it. -/
def tokenizer_default (source : String_View) (c : Char)
    (location : File_Location) : Tokenizer_Outcome :=
  if isalpha c then
    let chopped := sv_chop_left_while source is_name
    let text := chopped.1
    if sv_eq text (SV "to") then tokenizer_store chopped.2 { kind := .TO, text := text }
    else if sv_eq text (SV "from") then tokenizer_store chopped.2 { kind := .FROM, text := text }
    else if sv_eq text (SV "if") then tokenizer_store chopped.2 { kind := .IF, text := text }
    else tokenizer_store chopped.2 { kind := .NAME, text := text }
  else if isdigit c then
    let chopped := sv_chop_left_while source is_number
    tokenizer_store chopped.2 { kind := .NUMBER, text := chopped.1 }
  else
    .fatal 1 location (": ERROR: Unknown token starts with " ++ String.singleton c ++ "\n")

/-- The `switch (*tokenizer->source.data)` of `tokenizer_peek` together with
the common tail behind it; `source` is the trimmed, non-empty view, `c` its
first character and `rest` the characters after it. -/
def tokenizer_switch (source : String_View) (c : Char) (rest : List Char)
    (location : File_Location) : Tokenizer_Outcome :=
  match tokenizer_single_chars.lookup c with
  | some kind => tokenizer_chop source kind 1
  | none =>
    if c = '=' then
      if source.count ≤ 1 ∨ rest.head? ≠ some '=' then tokenizer_chop source .EQ 1
      else tokenizer_chop source .EE 2
    else if c = '"' then
      tokenizer_quoted source '"' .STR location ": ERROR: Could not find closing \"\n"
    else if c = '\'' then
      tokenizer_quoted source '\'' .CHAR location ": ERROR: Could not find closing '\n"
    else tokenizer_default source c location

/-- The function `tokenizer_peek` of `tokenizer.c`. -/
def tokenizer_peek (tokenizer : Tokenizer) (location : File_Location) : Tokenizer_Outcome :=
  if tokenizer.peek_buffer_full then
    .token tokenizer.peek_buffer tokenizer
  else
    let source := sv_trim_left tokenizer.source
    match source.chars with
    | [] => .no_token { tokenizer with source := source }
    | c :: rest => tokenizer_switch source c rest location

/-- The function `tokenizer_next` of `tokenizer.c`. -/
def tokenizer_next (tokenizer : Tokenizer) (location : File_Location) : Tokenizer_Outcome :=
  match tokenizer_peek tokenizer location with
  | .token token tokenizer1 => .token token { tokenizer1 with peek_buffer_full := false }
  | other => other

/-- The function `tokenizer_from_sv` of `tokenizer.c`; the fields not named are zeroed. -/
def tokenizer_from_sv (source : String_View) : Tokenizer :=
  { source := source, peek_buffer := { kind := default, text := { data := 0, chars := [] } },
    peek_buffer_full := false }

/-! ## Structured Lexer (`bang_lexer.c`) -/

/-- Modelled from the spec: the enum `Bang_Token_Kind` of `bang_lexer.h`,
which is not among the sources; the eight kinds of the table
`token_kind_names` (`COUNT_BANG_TOKEN_KINDS == 8`). -/
inductive Bang_Token_Kind where
  | NAME | OPEN_PAREN | CLOSE_PAREN | OPEN_CURLY | CLOSE_CURLY
  | SEMICOLON | COLON | LIT_STR
deriving DecidableEq, Repr, Inhabited

/-- Modelled from the spec: the struct `Bang_Loc` of `bang_lexer.h`:
`{ file_path, row, column }`. -/
structure Bang_Loc where
  row : Nat
  col : Nat
  file_path : String
deriving DecidableEq, Repr

/-- Modelled from the spec: the struct `Bang_Token` of `bang_lexer.h`:
`{ kind, text, location }`. -/
structure Bang_Token where
  kind : Bang_Token_Kind
  text : String_View
  loc : Bang_Loc
deriving DecidableEq, Repr

/-- Modelled from the spec: the struct `Bang_Lexer` of `bang_lexer.h`:
`{ content, line, line_start, row, file_path, peek_buffer }` with the flag
`peek_buffer_full`. -/
structure Bang_Lexer where
  content : String_View
  line : String_View
  line_start : Nat
  file_path : String
  row : Nat
  peek_buffer : Bang_Token
  peek_buffer_full : Bool
deriving DecidableEq, Repr

/-- The outcomes of the functions of the Structured Lexer. -/
abbrev Bang_Outcome := Outcome Bang_Loc Bang_Lexer Bang_Token

/-- The struct `Hardcoded_Token` of `bang_lexer.c`. -/
structure Hardcoded_Token where
  text : String_View
  kind : Bang_Token_Kind
deriving DecidableEq, Repr

/-- The table `hardcoded_bang_tokens` of `bang_lexer.c`. -/
def hardcoded_bang_tokens : List Hardcoded_Token :=
  [ { kind := .OPEN_PAREN,  text := SV "(" },
    { kind := .CLOSE_PAREN, text := SV ")" },
    { kind := .OPEN_CURLY,  text := SV "\x7b" },
    { kind := .CLOSE_CURLY, text := SV "\x7d" },
    { kind := .SEMICOLON,   text := SV ";" },
    { kind := .COLON,       text := SV ":" } ]

/-- The table `token_kind_names` and the function `bang_token_kind_name` of
`bang_lexer.c`. -/
def bang_token_kind_name : Bang_Token_Kind → String
  | .NAME => "name"
  | .OPEN_PAREN => "("
  | .CLOSE_PAREN => ")"
  | .OPEN_CURLY => "\x7b"
  | .CLOSE_CURLY => "\x7d"
  | .SEMICOLON => ";"
  | .COLON => ":"
  | .LIT_STR => "string literal"

/-- The function `bang_lexer_from_sv` of `bang_lexer.c`; the fields not named
are zeroed. -/
def bang_lexer_from_sv (content : String_View) (file_path : String) : Bang_Lexer :=
  { content := content, file_path := file_path,
    line := { data := 0, chars := [] }, line_start := 0, row := 0,
    peek_buffer := { kind := default, text := { data := 0, chars := [] },
                     loc := { row := 0, col := 0, file_path := "" } },
    peek_buffer_full := false }

/-- The function `bang_lexer_next_line` of `bang_lexer.c`. -/
def bang_lexer_next_line (lexer : Bang_Lexer) : Bang_Lexer :=
  let (line, content) := sv_chop_by_delim lexer.content '\n'
  { lexer with content := content, line := line, row := lexer.row + 1, line_start := line.data }

/-- The function `bang_lexer_loc` of `bang_lexer.c`; `none` is the failed assertion
`line_start <= line.data`. -/
def bang_lexer_loc (lexer : Bang_Lexer) : Option Bang_Loc :=
  if lexer.line_start ≤ lexer.line.data then
    some { row := lexer.row, col := lexer.line.data - lexer.line_start + 1,
           file_path := lexer.file_path }
  else none

/-- The function `bang_lexer_spit_token` of `bang_lexer.c`; `none` is a failed assertion. -/
def bang_lexer_spit_token (lexer : Bang_Lexer) (token_kind : Bang_Token_Kind)
    (token_size : Nat) : Option (Bang_Token × Bang_Lexer) :=
  if ¬ token_size ≤ lexer.line.count then none
  else if lexer.peek_buffer_full then none
  else
    match bang_lexer_loc lexer with
    | none => none
    | some loc =>
      match sv_chop_left lexer.line token_size with
      | none => none
      | some (text, line) =>
        let token : Bang_Token := { kind := token_kind, loc := loc, text := text }
        some (token, { lexer with line := line, peek_buffer := token, peek_buffer_full := true })

/-- The function `bang_is_name` of `bang_lexer.c`. -/
def bang_is_name (x : Char) : Bool :=
  ('a' ≤ x && x ≤ 'z') || ('A' ≤ x && x ≤ 'Z') || ('0' ≤ x && x ≤ '9') || x == '_'

/-- The loop `while (n < count && p(data[n])) n += 1` run from the start of
`chars`: the number of iterations. -/
def scan_while (p : Char → Bool) : List Char → Nat
  | [] => 0
  | x :: xs => if p x then scan_while p xs + 1 else 0

/-- The loop of `bang_lexer_peek` that skips exhausted and comment lines:
`while ((line.count == 0 || *line.data == '#') && content.count > 0)`.  Every
iteration shrinks `content`, so `content.count` iterations always suffice
(`bang_lexer_skip_lines_done`). -/
def bang_lexer_skip_lines : Nat → Bang_Lexer → Bang_Lexer
  | 0, lexer => lexer
  | fuel + 1, lexer =>
    if (lexer.line.count == 0 || lexer.line.chars.head? == some '#')
        && decide (lexer.content.count > 0) then
      let lexer1 := bang_lexer_next_line lexer
      bang_lexer_skip_lines fuel { lexer1 with line := sv_trim_left lexer1.line }
    else lexer

/-- The call of `bang_lexer_spit_token` in `bang_lexer_peek`, whose result is
stored in `*token` before `return true`. -/
def bang_lexer_spit (lexer : Bang_Lexer) (token_kind : Bang_Token_Kind)
    (token_size : Nat) : Bang_Outcome :=
  match bang_lexer_spit_token lexer token_kind token_size with
  | none => .assert_failed
  | some (token, lexer1) => .token token lexer1

/-- A fatal diagnostic of the Structured Lexer at the current location. -/
def bang_lexer_fatal (lexer : Bang_Lexer) (msg : String) : Bang_Outcome :=
  match bang_lexer_loc lexer with
  | none => .assert_failed
  | some loc => .fatal 1 loc msg

/-- The classification part of `bang_lexer_peek` (hardcoded tokens, name
token, string literal, unknown token); `lexer.line` is trimmed and not empty,
`c` is its first character and `rest` the characters after it. -/
def bang_lexer_classify (lexer : Bang_Lexer) (c : Char) (rest : List Char) : Bang_Outcome :=
  match hardcoded_bang_tokens.find? (fun h => sv_starts_with lexer.line h.text) with
  | some h => bang_lexer_spit lexer h.kind h.text.count
  | none =>
    if scan_while bang_is_name lexer.line.chars > 0 then
      bang_lexer_spit lexer .NAME (scan_while bang_is_name lexer.line.chars)
    else if c = '"' then
      let n := 1 + scan_while (fun x => x != '"') rest
      if n ≥ lexer.line.count then
        bang_lexer_fatal lexer ": ERROR: unclosed string literal"
      else if lexer.line.chars.get? n ≠ some '"' then .assert_failed
      else bang_lexer_spit lexer .LIT_STR (n + 1)
    else
      bang_lexer_fatal lexer
        (": ERROR: unknown token starts with `" ++ String.singleton c ++ "`\n")

/-- The part of `bang_lexer_peek` headed `Extracting next token`: the current
line is trimmed and exhausted or comment lines are skipped. -/
def bang_lexer_extract (lexer : Bang_Lexer) : Bang_Lexer :=
  bang_lexer_skip_lines lexer.content.count { lexer with line := sv_trim_left lexer.line }

/-- The function `bang_lexer_peek` of `bang_lexer.c`. -/
def bang_lexer_peek (lexer : Bang_Lexer) : Bang_Outcome :=
  if lexer.peek_buffer_full then
    .token lexer.peek_buffer lexer
  else
    match (bang_lexer_extract lexer).line.chars with
    | [] => .no_token (bang_lexer_extract lexer)
    | c :: rest => bang_lexer_classify (bang_lexer_extract lexer) c rest

/-- The function `bang_lexer_next` of `bang_lexer.c`. -/
def bang_lexer_next (lexer : Bang_Lexer) : Bang_Outcome :=
  match bang_lexer_peek lexer with
  | .token token lexer1 => .token token { lexer1 with peek_buffer_full := false }
  | other => other


/-! ## Auxiliary definitions for the statements -/

/-- The token and the state that `bang_lexer_spit_token` produces. -/
def spit_result (lexer : Bang_Lexer) (kind : Bang_Token_Kind) (n : Nat) :
    Bang_Token × Bang_Lexer :=
  let token : Bang_Token :=
    { kind := kind,
      text := { data := lexer.line.data, chars := lexer.line.chars.take n },
      loc := { row := lexer.row, col := lexer.line.data - lexer.line_start + 1,
               file_path := lexer.file_path } }
  (token, { lexer with line := { data := lexer.line.data + n, chars := lexer.line.chars.drop n },
                       peek_buffer := token, peek_buffer_full := true })

/-- The keyword token of the input `to x`. -/
def ex_token : Token := { kind := .TO, text := ⟨0, ['t', 'o']⟩ }

/-- The tokenizer on `to x` after one `tokenizer_peek`. -/
def ex_tokenizer_peeked : Tokenizer :=
  { source := ⟨2, [' ', 'x']⟩, peek_buffer := ex_token, peek_buffer_full := true }

/-- The first token of the input `(a)`. -/
def ex_bang_token : Bang_Token :=
  { kind := .OPEN_PAREN, text := ⟨0, ['(']⟩, loc := ⟨1, 1, "a.bang"⟩ }

/-- The lexer on `(a)` after one `bang_lexer_peek`. -/
def ex_lexer_peeked : Bang_Lexer :=
  { bang_lexer_from_sv ⟨3, []⟩ "a.bang" with
    line := ⟨1, ['a', ')']⟩, row := 1, peek_buffer := ex_bang_token, peek_buffer_full := true }

/-- One round of the skipping loop: the next line is fetched and trimmed. -/
def next_trimmed_line (lexer : Bang_Lexer) : Bang_Lexer :=
  { bang_lexer_next_line lexer with line := sv_trim_left (bang_lexer_next_line lexer).line }

/-- The tokens that successive calls of `tokenizer_next` return, at most
`fuel` of them, until a call does not return a token. -/
def tokenizer_tokens : Nat → Tokenizer → File_Location → List Token
  | 0, _, _ => []
  | fuel + 1, tokenizer, location =>
    match tokenizer_next tokenizer location with
    | .token token tokenizer1 => token :: tokenizer_tokens fuel tokenizer1 location
    | _ => []

/-- The two calls a parser makes on a lexer. -/
inductive Lexer_Call where
  | peek
  | next
deriving DecidableEq, Repr

/-- The state of a lexer after a sequence of `peek` / `next` calls; `none`
when one of the calls does not return (fatal diagnostic or failed assertion). -/
def bang_lexer_run : List Lexer_Call → Bang_Lexer → Option Bang_Lexer
  | [], lexer => some lexer
  | call :: calls, lexer =>
    match (match call with
           | .peek => bang_lexer_peek lexer
           | .next => bang_lexer_next lexer) with
    | .token _ lexer1 => bang_lexer_run calls lexer1
    | .no_token lexer1 => bang_lexer_run calls lexer1
    | _ => none

/-- The row of the character at `offset` of the buffer: 1 plus the number of
newline characters that precede it. -/
def row_of (buf : List Char) (offset : Nat) : Nat :=
  1 + (buf.take offset).count '\n'

/-- The column of the character at `offset` of the buffer: 1 plus the number
of characters between the start of its physical line (the position behind
the last newline before `offset`, or the start of the buffer) and `offset`. -/
def col_of (buf : List Char) (offset : Nat) : Nat :=
  1 + ((buf.take offset).reverse.takeWhile (fun x => x != '\n')).length

/-- A token is located in the buffer stored at address `base`: its text is a
non-empty slice of the buffer and its location is the row and column of the
first character of that slice. -/
def Token_Located (base : Nat) (buf : List Char) (t : Bang_Token) : Prop :=
  base ≤ t.text.data ∧ t.text.chars ≠ [] ∧
  (buf.drop (t.text.data - base)).take t.text.chars.length = t.text.chars ∧
  t.loc.row = row_of buf (t.text.data - base) ∧
  t.loc.col = col_of buf (t.text.data - base)

/-- How the views of a lexer lie in the buffer stored at address `base`.
Either no line was fetched yet, or the buffer is `pre ++ mid ++ line ++ tail`
where `pre` are the physical lines before the current one, `mid` is the
consumed part of the current line, `line` its unconsumed part and `tail` is
empty or a newline followed by `content`. -/
def Lexer_Shape (base : Nat) (buf : List Char) (lx : Bang_Lexer) : Prop :=
  (lx.row = 0 ∧ lx.line = ⟨0, []⟩ ∧ lx.line_start = 0 ∧ lx.content = ⟨base, buf⟩) ∨
  ∃ pre mid tail, buf = pre ++ mid ++ lx.line.chars ++ tail ∧
    pre.reverse.takeWhile (fun x => x != '\n') = [] ∧
    (∀ x ∈ mid, (x != '\n') = true) ∧ (∀ x ∈ lx.line.chars, (x != '\n') = true) ∧
    lx.row = 1 + pre.count '\n' ∧
    lx.line_start = base + pre.length ∧
    lx.line.data = base + pre.length + mid.length ∧
    lx.content.data + lx.content.chars.length = base + buf.length ∧
    (tail = [] ∧ lx.content.chars = [] ∨ tail = '\n' :: lx.content.chars)

/-- The invariant of a lexer on the buffer stored at `base`: its views lie in
the buffer and a buffered token is located in the buffer. -/
def Lexer_Inv (base : Nat) (buf : List Char) (lx : Bang_Lexer) : Prop :=
  Lexer_Shape base buf lx ∧ (lx.peek_buffer_full = true → Token_Located base buf lx.peek_buffer)

/-! ## Expectation helpers (`bang_lexer.c`, `tokenizer.c`) -/

/-- Modelled from the spec: the macros `SV_Fmt` and `SV_Arg` of `sv.h`, which
is not among the sources.  A view is written with `%.*s`, its count being the
precision, so `fprintf` writes the characters of the view up to its first NUL
byte, if it has one. -/
def sv_fmt (sv : String_View) : String :=
  String.mk (sv.chars.takeWhile (fun x => x != '\x00'))

/-- The function `bang_lexer_expect_token` of `bang_lexer.c`. -/
def bang_lexer_expect_token (lexer : Bang_Lexer) (expected_kind : Bang_Token_Kind) :
    Bang_Outcome :=
  match bang_lexer_next lexer with
  | .no_token lexer1 =>
    bang_lexer_fatal lexer1
      (": ERROR: expected token `" ++ bang_token_kind_name expected_kind ++
        "` but reached the end of the file\n")
  | .token token lexer1 =>
    if token.kind ≠ expected_kind then
      .fatal 1 token.loc
        (": ERROR expected token `" ++ bang_token_kind_name expected_kind ++
          "` but got `" ++ bang_token_kind_name token.kind ++ "`\n")
    else .token token lexer1
  | other => other

/-- The function `bang_lexer_expect_keyword` of `bang_lexer.c`. -/
def bang_lexer_expect_keyword (lexer : Bang_Lexer) (name : String_View) : Bang_Outcome :=
  match bang_lexer_expect_token lexer .NAME with
  | .token token lexer1 =>
    if ¬ sv_eq token.text name then
      .fatal 1 token.loc
        (": ERROR: expected keyword `" ++ sv_fmt name ++ "` but got `" ++
          sv_fmt token.text ++ "`\n")
    else .token token lexer1
  | other => other

/-- The function `expect_no_tokens` of `tokenizer.c`; `no_token` is the normal
return. -/
def expect_no_tokens (tokenizer : Tokenizer) (location : File_Location) : Tokenizer_Outcome :=
  match tokenizer_next tokenizer location with
  | .token token _ =>
    .fatal 1 location (": ERROR: unexpected token `" ++ sv_fmt token.text ++ "`\n")
  | other => other

/-- The function `expect_token_next` of `tokenizer.c`.  The function
`token_kind_name`, which is not among the sources, is a parameter. -/
def expect_token_next (token_kind_name : Token_Kind → String) (tokenizer : Tokenizer)
    (expected_kind : Token_Kind) (location : File_Location) : Tokenizer_Outcome :=
  match tokenizer_next tokenizer location with
  | .no_token _ =>
    .fatal 1 location (": ERROR: expected token `" ++ token_kind_name expected_kind ++ "`\n")
  | .token token tokenizer1 =>
    if token.kind ≠ expected_kind then
      .fatal 1 location
        (": ERROR: expected token `" ++ token_kind_name expected_kind ++ "`, but got `" ++
          token_kind_name token.kind ++ "`\n")
    else .token token tokenizer1
  | other => other

/-! ## Auxiliary definitions for the statements on the helpers and on runs -/

/-- The name token of the input `proc x`. -/
def ex_proc_token : Bang_Token :=
  { kind := .NAME, text := ⟨0, ['p', 'r', 'o', 'c']⟩, loc := ⟨1, 1, "a.bang"⟩ }

/-- The lexer on `proc x` after one `bang_lexer_next`. -/
def ex_proc_lexer : Bang_Lexer :=
  { bang_lexer_from_sv ⟨6, []⟩ "a.bang" with
    line := ⟨4, [' ', 'x']⟩, row := 1, peek_buffer := ex_proc_token }

/-- The three ways in which a call of the Generic Tokenizer ends: with a
token, with no token, or with a diagnostic at the location of the caller and
exit status 1. -/
def Tokenizer_Ends (location : File_Location) (o : Tokenizer_Outcome) : Prop :=
  (∃ t tk, o = .token t tk) ∨ (∃ tk, o = .no_token tk) ∨ (∃ msg, o = .fatal 1 location msg)

/-- The lexer on the buffer `a "b" ==` after `next` and `peek`. -/
def ex_quoted_lexer : Bang_Lexer :=
  { bang_lexer_from_sv ⟨8, []⟩ "a.bang" with
    line := ⟨5, [' ', '=', '=']⟩, row := 1,
    peek_buffer := { kind := .LIT_STR, text := ⟨2, ['"', 'b', '"']⟩, loc := ⟨1, 3, "a.bang"⟩ },
    peek_buffer_full := true }

/-- The state of a tokenizer after a sequence of `peek` / `next` calls, all
with the same location; `none` when one of the calls does not return. -/
def tokenizer_run : List Lexer_Call → Tokenizer → File_Location → Option Tokenizer
  | [], tokenizer, _ => some tokenizer
  | call :: calls, tokenizer, location =>
    match (match call with
           | .peek => tokenizer_peek tokenizer location
           | .next => tokenizer_next tokenizer location) with
    | .token _ tokenizer1 => tokenizer_run calls tokenizer1 location
    | .no_token tokenizer1 => tokenizer_run calls tokenizer1 location
    | _ => none

/-- The tokens that successive calls of `bang_lexer_next` return, at most
`fuel` of them, until a call does not return a token. -/
def bang_lexer_tokens : Nat → Bang_Lexer → List Bang_Token
  | 0, _ => []
  | fuel + 1, lexer =>
    match bang_lexer_next lexer with
    | .token token lexer1 => token :: bang_lexer_tokens fuel lexer1
    | _ => []

/-- The order invariant of a tokenizer: a buffered token ends at or before
the start of the remaining source. -/
def Tokenizer_Order (tk : Tokenizer) : Prop :=
  tk.peek_buffer_full = true →
    tk.peek_buffer.text.data + tk.peek_buffer.text.chars.length ≤ tk.source.data

/-- The order invariant of a lexer: the current line ends at or before the
start of `content`, and a buffered token ends at or before the start of the
rest of the current line. -/
def Lexer_Order (lx : Bang_Lexer) : Prop :=
  lx.line.data + lx.line.chars.length ≤ lx.content.data ∧
  (lx.peek_buffer_full = true →
    lx.peek_buffer.text.data + lx.peek_buffer.text.chars.length ≤ lx.line.data)

/-- The first token of the input `a b` of the Generic Tokenizer. -/
def ex_tok_a : Token := { kind := .NAME, text := ⟨0, ['a']⟩ }

/-- The second token of the input `a b` of the Generic Tokenizer. -/
def ex_tok_b : Token := { kind := .NAME, text := ⟨2, ['b']⟩ }

/-- The tokenizer on `a b` after one `tokenizer_next`. -/
def ex_tokenizer_a : Tokenizer :=
  { source := ⟨1, [' ', 'b']⟩, peek_buffer := ex_tok_a, peek_buffer_full := false }

/-- The tokenizer on `a b` after two calls of `tokenizer_next`. -/
def ex_tokenizer_b : Tokenizer :=
  { source := ⟨3, []⟩, peek_buffer := ex_tok_b, peek_buffer_full := false }

/-- The first token of the input `a b` of the Structured Lexer. -/
def ex_bang_a : Bang_Token := { kind := .NAME, text := ⟨0, ['a']⟩, loc := ⟨1, 1, "a.bang"⟩ }

/-- The second token of the input `a b` of the Structured Lexer. -/
def ex_bang_b : Bang_Token := { kind := .NAME, text := ⟨2, ['b']⟩, loc := ⟨1, 3, "a.bang"⟩ }

/-- The lexer on `a b` after one `bang_lexer_next`. -/
def ex_lexer_a : Bang_Lexer :=
  { bang_lexer_from_sv ⟨3, []⟩ "a.bang" with
    line := ⟨1, [' ', 'b']⟩, row := 1, peek_buffer := ex_bang_a }

/-- The lexer on `a b` after two calls of `bang_lexer_next`. -/
def ex_lexer_b : Bang_Lexer :=
  { bang_lexer_from_sv ⟨3, []⟩ "a.bang" with
    line := ⟨3, []⟩, row := 1, peek_buffer := ex_bang_b }

/-! ## Auxiliary definitions for the statement on comment lines -/

/-- What a call of the Structured Lexer shows to its caller: a token with its
kind, text, row and column, the end of the input, a fatal diagnostic with its
status, row, column and message, or a failed assertion. -/
inductive Lexer_Obs where
  | token (kind : Bang_Token_Kind) (text : List Char) (row col : Nat)
  | end_of_input
  | fatal (status : Nat) (row col : Nat) (msg : String)
  | assert_failed
deriving DecidableEq, Repr

/-- The same observation one row further down. -/
def Lexer_Obs.next_row : Lexer_Obs → Lexer_Obs
  | .token kind text row col => .token kind text (row + 1) col
  | .fatal status row col msg => .fatal status (row + 1) col msg
  | .end_of_input => .end_of_input
  | .assert_failed => .assert_failed

/-- One call of `bang_lexer_peek` or `bang_lexer_next`. -/
def bang_lexer_call (call : Lexer_Call) (lexer : Bang_Lexer) : Bang_Outcome :=
  match call with
  | .peek => bang_lexer_peek lexer
  | .next => bang_lexer_next lexer

/-- The observation of an outcome followed by the observations `rest` of the
calls made on the state that the outcome leaves; nothing follows a call that
does not return. -/
def observe_then (rest : Bang_Lexer → List Lexer_Obs) : Bang_Outcome → List Lexer_Obs
  | .token t lexer1 => .token t.kind t.text.chars t.loc.row t.loc.col :: rest lexer1
  | .no_token lexer1 => .end_of_input :: rest lexer1
  | .fatal status loc msg => [.fatal status loc.row loc.col msg]
  | .assert_failed => [.assert_failed]

/-- The sequence of outcomes of a sequence of `peek` / `next` calls, as the
caller observes them; it ends with the first call that does not return. -/
def bang_lexer_trace : List Lexer_Call → Bang_Lexer → List Lexer_Obs
  | [], _ => []
  | call :: calls, lexer => observe_then (bang_lexer_trace calls) (bang_lexer_call call lexer)

/-- The second token is the first one, one row further down. -/
def Token_Shifted (ta tb : Bang_Token) : Prop :=
  ta.kind = tb.kind ∧ ta.text.chars = tb.text.chars ∧ ta.loc.row = tb.loc.row + 1 ∧
    ta.loc.col = tb.loc.col

/-- The lexer `a` is in the state of the lexer `b`, one row further down: the
same unconsumed text, the same column, the same buffered token. -/
def Row_Shifted (a b : Bang_Lexer) : Prop :=
  a.row = b.row + 1 ∧ a.line.chars = b.line.chars ∧ a.content.chars = b.content.chars ∧
  a.peek_buffer_full = b.peek_buffer_full ∧
  a.line_start ≤ a.line.data ∧ b.line_start ≤ b.line.data ∧
  a.line.data - a.line_start = b.line.data - b.line_start ∧
  (a.peek_buffer_full = true → Token_Shifted a.peek_buffer b.peek_buffer)

/-- The outcome `oa` is the outcome `ob`, one row further down. -/
def Outcome_Shifted (oa ob : Bang_Outcome) : Prop :=
  match oa, ob with
  | .token ta a, .token tb b => Token_Shifted ta tb ∧ Row_Shifted a b
  | .no_token a, .no_token b => Row_Shifted a b
  | .fatal sa la ma, .fatal sb lb mb => sa = sb ∧ ma = mb ∧ la.row = lb.row + 1 ∧ la.col = lb.col
  | .assert_failed, .assert_failed => True
  | _, _ => False

/-- What `bang_lexer_classify` decides from the characters of the line. -/
inductive Lexer_Decision where
  | spit (kind : Bang_Token_Kind) (size : Nat)
  | fatal (msg : String)
  | assert_failed
deriving DecidableEq, Repr

/-- The decision of `bang_lexer_classify` on a line with the characters
`chars`, whose first one is `c` and whose others are `rest`. -/
def lexer_decision (chars : List Char) (c : Char) (rest : List Char) : Lexer_Decision :=
  match hardcoded_bang_tokens.find? (fun h => sv_starts_with ⟨0, chars⟩ h.text) with
  | some h => .spit h.kind h.text.count
  | none =>
    if scan_while bang_is_name chars > 0 then .spit .NAME (scan_while bang_is_name chars)
    else if c = '"' then
      if 1 + scan_while (fun x => x != '"') rest ≥ chars.length then
        .fatal ": ERROR: unclosed string literal"
      else if chars.get? (1 + scan_while (fun x => x != '"') rest) ≠ some '"' then .assert_failed
      else .spit .LIT_STR (1 + scan_while (fun x => x != '"') rest + 1)
    else .fatal (": ERROR: unknown token starts with `" ++ String.singleton c ++ "`\n")

/-- The outcome of a decision of `bang_lexer_classify`. -/
def apply_decision (lexer : Bang_Lexer) : Lexer_Decision → Bang_Outcome
  | .spit kind size => bang_lexer_spit lexer kind size
  | .fatal msg => bang_lexer_fatal lexer msg
  | .assert_failed => .assert_failed

/-! ## Assembler driver (`basm.c`) -/

/-- Modelled from the spec: the enum `Target` of `target.h`, which is not
among the sources: "one of: bm | nasm-linux-x86-64 | nasm-freebsd-x86-64". -/
inductive Target where
  | BM
  | NASM_LINUX_X86_64
  | NASM_FREEBSD_X86_64
deriving DecidableEq, Repr

/-- The local variables of `main` that the argument loop sets, together with
the include paths that it pushes to `basm`.  The function
`basm_push_include_path`, which is not among the sources, is taken to append
the path to the list and to return. -/
structure Basm_Args where
  input_file_path : Option String
  output_file_path : Option String
  target : Target
  verify : Bool
  include_paths : List String
deriving DecidableEq, Repr

/-- The variables of `main` before the argument loop. -/
def basm_initial_args : Basm_Args :=
  { input_file_path := none, output_file_path := none, target := .BM, verify := false,
    include_paths := [] }

/-- How the argument loop of `main` ends: the process exits with a status
after writing the usage and an error line (the line is empty for `-h`, whose
usage goes to the standard output), or the loop runs to the end of the
arguments. -/
inductive Basm_Scan where
  | exit (status : Nat) (error : String)
  | done (args : Basm_Args)
deriving DecidableEq, Repr

/-- The loop `while (argc > 0)` of `main` in `basm.c`, with `get_flag_value`
inlined.  The function `target_by_name` of `target.h`, which is not among the
sources, is a parameter. -/
def basm_scan_args (target_by_name : String → Option Target) :
    Basm_Args → List String → Basm_Scan
  | args, [] => .done args
  | args, flag :: rest =>
    if flag = "-o" then
      match rest with
      | [] => .exit 1 ("ERROR: no value provided for flag `" ++ flag ++ "`\n")
      | value :: rest1 =>
        basm_scan_args target_by_name { args with output_file_path := some value } rest1
    else if flag = "-I" then
      match rest with
      | [] => .exit 1 ("ERROR: no value provided for flag `" ++ flag ++ "`\n")
      | value :: rest1 =>
        basm_scan_args target_by_name
          { args with include_paths := args.include_paths ++ [value] } rest1
    else if flag = "-h" then .exit 0 ""
    else if flag = "-t" then
      match rest with
      | [] => .exit 1 ("ERROR: no value provided for flag `" ++ flag ++ "`\n")
      | name :: rest1 =>
        match target_by_name name with
        | none => .exit 1 ("ERROR: unknown output format `" ++ name ++ "`\n")
        | some target => basm_scan_args target_by_name { args with target := target } rest1
    else if flag = "-verify" then
      basm_scan_args target_by_name { args with verify := true } rest
    else
      match args.input_file_path with
      | some given =>
        .exit 1 ("ERROR: input file is already provided as `" ++ given ++
          "`. Only a single input file is not supported\n")
      | none => basm_scan_args target_by_name { args with input_file_path := some flag } rest

/-- How `main` of `basm.c` ends before the translation: with an exit, with a
failed assertion, or by reaching `basm_translate_root_source_file` with the
scanned arguments. -/
inductive Basm_Outcome where
  | exit (status : Nat) (error : String)
  | translate (args : Basm_Args)
  | assert_failed
deriving DecidableEq, Repr

/-- The part of `main` in `basm.c` between the argument loop and the call of
`basm_translate_root_source_file`: an exit of the loop is the exit of `main`,
and without an input file `main` exits with status 1. -/
def basm_check_input (scan : Basm_Scan) : Basm_Outcome :=
  match scan with
  | .exit status error => .exit status error
  | .done args =>
    match args.input_file_path with
    | none => .exit 1 "ERROR: no input file is provided\n"
    | some _ => .translate args

/-- The function `main` of `basm.c` up to the call of
`basm_translate_root_source_file`; `argv` holds the program name first, and
`shift` asserts that it is there. -/
def basm_main (target_by_name : String → Option Target) (argv : List String) : Basm_Outcome :=
  match argv with
  | [] => .assert_failed
  | _ :: arguments =>
    basm_check_input (basm_scan_args target_by_name basm_initial_args arguments)

/-- Modelled from the spec: an instance of `target_by_name` of `target.h`,
which is not among the sources, for the examples: the three target names of
the usage text. -/
def ex_target_by_name (name : String) : Option Target :=
  if name = "bm" then some .BM
  else if name = "nasm-linux-x86-64" then some .NASM_LINUX_X86_64
  else if name = "nasm-freebsd-x86-64" then some .NASM_FREEBSD_X86_64
  else none

/-! # Theorems -/

/-! ## The peek buffer -/

theorem tokenizer_store_buffered {source : String_View} {token t : Token} {tk : Tokenizer}
    (h : tokenizer_store source token = .token t tk) :
    tk.peek_buffer_full = true ∧ tk.peek_buffer = t := by
  unfold tokenizer_store at h
  cases h
  exact ⟨rfl, rfl⟩

theorem tokenizer_chop_buffered {source : String_View} {kind : Token_Kind} {n : Nat}
    {t : Token} {tk : Tokenizer} (h : tokenizer_chop source kind n = .token t tk) :
    tk.peek_buffer_full = true ∧ tk.peek_buffer = t := by
  unfold tokenizer_chop at h
  split at h
  · cases h
  · exact tokenizer_store_buffered h

theorem tokenizer_quoted_buffered {source : String_View} {q : Char} {kind : Token_Kind}
    {location : File_Location} {msg : String} {t : Token} {tk : Tokenizer}
    (h : tokenizer_quoted source q kind location msg = .token t tk) :
    tk.peek_buffer_full = true ∧ tk.peek_buffer = t := by
  unfold tokenizer_quoted at h
  repeat' split at h
  all_goals first | exact tokenizer_store_buffered h | cases h

theorem tokenizer_default_buffered {source : String_View} {c : Char}
    {location : File_Location} {t : Token} {tk : Tokenizer}
    (h : tokenizer_default source c location = .token t tk) :
    tk.peek_buffer_full = true ∧ tk.peek_buffer = t := by
  simp only [tokenizer_default] at h
  split_ifs at h
  all_goals first
    | exact tokenizer_store_buffered h

theorem tokenizer_switch_buffered {source : String_View} {c : Char} {rest : List Char}
    {location : File_Location} {t : Token} {tk : Tokenizer}
    (h : tokenizer_switch source c rest location = .token t tk) :
    tk.peek_buffer_full = true ∧ tk.peek_buffer = t := by
  unfold tokenizer_switch at h
  split at h
  · exact tokenizer_chop_buffered h
  · split_ifs at h
    all_goals first
      | exact tokenizer_chop_buffered h
      | exact tokenizer_quoted_buffered h
      | exact tokenizer_default_buffered h

theorem tokenizer_peek_buffered {tokenizer tk : Tokenizer} {location : File_Location}
    {t : Token} (h : tokenizer_peek tokenizer location = .token t tk) :
    tk.peek_buffer_full = true ∧ tk.peek_buffer = t := by
  unfold tokenizer_peek at h
  split at h
  · cases h
    exact ⟨by assumption, rfl⟩
  · simp only at h
    split at h
    · cases h
    · exact tokenizer_switch_buffered h

theorem bang_lexer_spit_token_eq (lexer : Bang_Lexer) (kind : Bang_Token_Kind) (n : Nat) :
    bang_lexer_spit_token lexer kind n =
      if n ≤ lexer.line.chars.length ∧ lexer.peek_buffer_full = false ∧
          lexer.line_start ≤ lexer.line.data
      then some (spit_result lexer kind n) else none := by
  unfold bang_lexer_spit_token bang_lexer_loc sv_chop_left spit_result String_View.count
  by_cases h1 : n ≤ lexer.line.chars.length <;>
  by_cases h2 : lexer.peek_buffer_full = true <;>
  by_cases h3 : lexer.line_start ≤ lexer.line.data <;>
  simp [h1, h2, h3]

theorem bang_lexer_spit_eq (lexer : Bang_Lexer) (kind : Bang_Token_Kind) (n : Nat) :
    bang_lexer_spit lexer kind n =
      if n ≤ lexer.line.chars.length ∧ lexer.peek_buffer_full = false ∧
          lexer.line_start ≤ lexer.line.data
      then .token (spit_result lexer kind n).1 (spit_result lexer kind n).2
      else .assert_failed := by
  unfold bang_lexer_spit
  rw [bang_lexer_spit_token_eq]
  split_ifs <;> rfl

theorem bang_lexer_spit_buffered {lexer lx : Bang_Lexer} {kind : Bang_Token_Kind} {n : Nat}
    {t : Bang_Token} (h : bang_lexer_spit lexer kind n = .token t lx) :
    lx.peek_buffer_full = true ∧ lx.peek_buffer = t := by
  rw [bang_lexer_spit_eq] at h
  split_ifs at h
  cases h
  exact ⟨rfl, rfl⟩

theorem bang_lexer_fatal_ne_token {lexer lx : Bang_Lexer} {msg : String} {t : Bang_Token}
    (h : bang_lexer_fatal lexer msg = .token t lx) : False := by
  unfold bang_lexer_fatal at h
  split at h <;> cases h

theorem bang_lexer_classify_buffered {lexer lx : Bang_Lexer} {c : Char} {rest : List Char}
    {t : Bang_Token} (h : bang_lexer_classify lexer c rest = .token t lx) :
    lx.peek_buffer_full = true ∧ lx.peek_buffer = t := by
  unfold bang_lexer_classify at h
  split at h
  · exact bang_lexer_spit_buffered h
  · simp only at h
    split_ifs at h
    all_goals first
      | exact bang_lexer_spit_buffered h
      | exact (bang_lexer_fatal_ne_token h).elim

theorem bang_lexer_peek_buffered {lexer lx : Bang_Lexer} {t : Bang_Token}
    (h : bang_lexer_peek lexer = .token t lx) :
    lx.peek_buffer_full = true ∧ lx.peek_buffer = t := by
  unfold bang_lexer_peek at h
  split at h
  · cases h
    exact ⟨by assumption, rfl⟩
  · split at h
    · cases h
    · exact bang_lexer_classify_buffered h

/-! ## C1: the pushback protocol -/

/-- C1: single-token pushback protocol, for both analyzers.  Whenever `peek`
succeeds with a token, leaving the analyzer in some state, an immediately
following `peek` (whatever location the caller passes) returns the identical
token and leaves that state unchanged, and an immediately following `next`
returns the same token and changes nothing but the flag of the peek buffer,
which it clears: the remaining input is as it was after the `peek`. -/
theorem pushback_protocol (tokenizer tk : Tokenizer) (location location2 : File_Location)
    (t : Token) (lexer lx : Bang_Lexer) (bt : Bang_Token) :
    (tokenizer_peek tokenizer location = .token t tk →
      tokenizer_peek tk location2 = .token t tk ∧
      tokenizer_next tk location2 = .token t { tk with peek_buffer_full := false }) ∧
    (bang_lexer_peek lexer = .token bt lx →
      bang_lexer_peek lx = .token bt lx ∧
      bang_lexer_next lx = .token bt { lx with peek_buffer_full := false }) := by
  constructor
  · intro h
    obtain ⟨hfull, hbuf⟩ := tokenizer_peek_buffered h
    have hp : tokenizer_peek tk location2 = .token t tk := by
      unfold tokenizer_peek
      rw [if_pos hfull, hbuf]
    refine ⟨hp, ?_⟩
    unfold tokenizer_next
    rw [hp]
  · intro h
    obtain ⟨hfull, hbuf⟩ := bang_lexer_peek_buffered h
    have hp : bang_lexer_peek lx = .token bt lx := by
      unfold bang_lexer_peek
      rw [if_pos hfull, hbuf]
    refine ⟨hp, ?_⟩
    unfold bang_lexer_next
    rw [hp]

/-- Witness of C1 on the inputs `to x` (Generic Tokenizer) and `(a)`
(Structured Lexer). -/
theorem pushback_protocol_witness :
    (tokenizer_peek ex_tokenizer_peeked ⟨"b.basm", 7⟩ = .token ex_token ex_tokenizer_peeked ∧
     tokenizer_next ex_tokenizer_peeked ⟨"b.basm", 7⟩ =
      .token ex_token { ex_tokenizer_peeked with peek_buffer_full := false }) ∧
    (bang_lexer_peek ex_lexer_peeked = .token ex_bang_token ex_lexer_peeked ∧
     bang_lexer_next ex_lexer_peeked =
      .token ex_bang_token { ex_lexer_peeked with peek_buffer_full := false }) :=
  ⟨(pushback_protocol (tokenizer_from_sv ⟨0, "to x".toList⟩) ex_tokenizer_peeked
      ⟨"b.basm", 6⟩ ⟨"b.basm", 7⟩ ex_token
      (bang_lexer_from_sv ⟨0, "(a)".toList⟩ "a.bang") ex_lexer_peeked ex_bang_token).1
      (by decide),
   (pushback_protocol (tokenizer_from_sv ⟨0, "to x".toList⟩) ex_tokenizer_peeked
      ⟨"b.basm", 6⟩ ⟨"b.basm", 7⟩ ex_token
      (bang_lexer_from_sv ⟨0, "(a)".toList⟩ "a.bang") ex_lexer_peeked ex_bang_token).2
      (by decide)⟩

/-! ## C2: comments at the end of the input -/

/-- C2, evaluated at the failing inputs: on a fresh lexer whose whole input is
the comment `#`, or the comment line `# c` with its newline, `bang_lexer_peek`
and `bang_lexer_next` do not return false: they report an unknown token that
starts with `#` and exit with status 1. -/
theorem comment_on_last_line_is_fatal :
    bang_lexer_peek (bang_lexer_from_sv ⟨0, ['#']⟩ "a.bang") =
      .fatal 1 ⟨1, 1, "a.bang"⟩ ": ERROR: unknown token starts with `#`\n" ∧
    bang_lexer_next (bang_lexer_from_sv ⟨0, ['#']⟩ "a.bang") =
      .fatal 1 ⟨1, 1, "a.bang"⟩ ": ERROR: unknown token starts with `#`\n" ∧
    bang_lexer_peek (bang_lexer_from_sv ⟨0, [' ', '#', ' ', 'c', '\n']⟩ "a.bang") =
      .fatal 1 ⟨1, 2, "a.bang"⟩ ": ERROR: unknown token starts with `#`\n" ∧
    bang_lexer_next (bang_lexer_from_sv ⟨0, [' ', '#', ' ', 'c', '\n']⟩ "a.bang") =
      .fatal 1 ⟨1, 2, "a.bang"⟩ ": ERROR: unknown token starts with `#`\n" := by
  decide

/-! ## Lists of characters -/

theorem takeWhile_append_of_all {p : Char → Bool} {ws : List Char} (hws : ∀ w ∈ ws, p w = true)
    (l : List Char) : (ws ++ l).takeWhile p = ws ++ l.takeWhile p := by
  induction ws with
  | nil => rfl
  | cons w ws ih =>
    have hw : p w = true := hws w (List.mem_cons_self _ _)
    have ih1 := ih (fun x hx => hws x (List.mem_cons_of_mem _ hx))
    simp [List.takeWhile_cons, hw, ih1]

theorem dropWhile_append_of_all {p : Char → Bool} {ws : List Char} (hws : ∀ w ∈ ws, p w = true)
    (l : List Char) : (ws ++ l).dropWhile p = l.dropWhile p := by
  induction ws with
  | nil => rfl
  | cons w ws ih =>
    have hw : p w = true := hws w (List.mem_cons_self _ _)
    have ih1 := ih (fun x hx => hws x (List.mem_cons_of_mem _ hx))
    simp [List.dropWhile_cons, hw, ih1]

theorem take_length_takeWhile (p : Char → Bool) (l : List Char) :
    l.take (l.takeWhile p).length = l.takeWhile p := by
  induction l with
  | nil => rfl
  | cons x xs ih =>
    by_cases hx : p x = true
    · simp [List.takeWhile_cons, hx, ih]
    · simp [List.takeWhile_cons, hx]

theorem drop_length_takeWhile (p : Char → Bool) (l : List Char) :
    l.drop (l.takeWhile p).length = l.dropWhile p := by
  induction l with
  | nil => rfl
  | cons x xs ih =>
    by_cases hx : p x = true
    · simp [List.takeWhile_cons, List.dropWhile_cons, hx, ih]
    · simp [List.takeWhile_cons, List.dropWhile_cons, hx]

theorem scan_while_eq (p : Char → Bool) (l : List Char) :
    scan_while p l = (l.takeWhile p).length := by
  induction l with
  | nil => rfl
  | cons x xs ih =>
    by_cases hx : p x = true
    · simp [scan_while, List.takeWhile_cons, hx, ih]
    · simp [scan_while, List.takeWhile_cons, hx]

theorem dropWhile_head_not (p : Char → Bool) (l : List Char) (x : Char)
    (h : (l.dropWhile p).head? = some x) : p x = false := by
  induction l with
  | nil => simp at h
  | cons y ys ih =>
    by_cases hy : p y = true
    · rw [List.dropWhile_cons, if_pos hy] at h
      exact ih h
    · rw [List.dropWhile_cons, if_neg hy] at h
      simp only [List.head?_cons, Option.some.injEq] at h
      subst h
      simpa using hy

theorem prefix_all_le_takeWhile (p : Char → Bool) (l pre : List Char)
    (hpre : pre <+: l) (hall : ∀ x ∈ pre, p x = true) :
    pre.length ≤ (l.takeWhile p).length := by
  obtain ⟨t, rfl⟩ := hpre
  rw [takeWhile_append_of_all hall]
  simp

theorem index_of_append (c : Char) (s r : List Char) (hs : c ∉ s) :
    index_of c (s ++ c :: r) = some s.length := by
  induction s with
  | nil => simp [index_of]
  | cons x xs ih =>
    have hx : x ≠ c := fun h => hs (h ▸ List.mem_cons_self _ _)
    have ih1 := ih (fun h => hs (List.mem_cons_of_mem _ h))
    simp [index_of, hx, ih1]

theorem index_of_none (c : Char) (s : List Char) (hs : c ∉ s) : index_of c s = none := by
  induction s with
  | nil => rfl
  | cons x xs ih =>
    have hx : x ≠ c := fun h => hs (h ▸ List.mem_cons_self _ _)
    have ih1 := ih (fun h => hs (List.mem_cons_of_mem _ h))
    simp [index_of, hx, ih1]

theorem index_of_some {c : Char} {l : List Char} {i : Nat} (h : index_of c l = some i) :
    l = l.take i ++ c :: l.drop (i + 1) ∧ c ∉ l.take i ∧ i < l.length := by
  induction l generalizing i with
  | nil => simp [index_of] at h
  | cons x xs ih =>
    unfold index_of at h
    by_cases hx : x = c
    · rw [if_pos hx] at h
      cases h
      simp [hx]
    · rw [if_neg hx] at h
      cases hi : index_of c xs with
      | none => rw [hi] at h; cases h
      | some j =>
        rw [hi] at h
        cases h
        obtain ⟨h1, h2, h3⟩ := ih hi
        refine ⟨?_, ?_, ?_⟩
        · simp only [List.take_succ_cons, List.drop_succ_cons, List.cons_append]
          rw [← h1]
        · simp only [List.take_succ_cons, List.mem_cons, not_or]
          exact ⟨fun h => hx h.symm, h2⟩
        · simp only [List.length_cons]
          omega

/-! ## The Generic Tokenizer on a source with leading whitespace -/

theorem sv_trim_left_eq (sv : String_View) (ws : List Char) (c : Char) (rest : List Char)
    (hsrc : sv.chars = ws ++ c :: rest) (hws : ∀ w ∈ ws, isspace w = true)
    (hc : isspace c = false) :
    sv_trim_left sv = { data := sv.data + ws.length, chars := c :: rest } := by
  unfold sv_trim_left
  rw [hsrc, takeWhile_append_of_all hws, dropWhile_append_of_all hws]
  simp [List.takeWhile_cons, List.dropWhile_cons, hc]

theorem tokenizer_peek_eq_switch (tokenizer : Tokenizer) (location : File_Location)
    (ws : List Char) (c : Char) (rest : List Char)
    (hfull : tokenizer.peek_buffer_full = false)
    (hsrc : tokenizer.source.chars = ws ++ c :: rest) (hws : ∀ w ∈ ws, isspace w = true)
    (hc : isspace c = false) :
    tokenizer_peek tokenizer location =
      tokenizer_switch { data := tokenizer.source.data + ws.length, chars := c :: rest }
        c rest location := by
  unfold tokenizer_peek
  rw [hfull, sv_trim_left_eq _ ws c rest hsrc hws hc]
  simp

/-! ## C4: quoted literals of the Generic Tokenizer -/

theorem tokenizer_quoted_closed (d : Nat) (c0 q : Char) (s r : List Char) (kind : Token_Kind)
    (location : File_Location) (msg : String) (hs : q ∉ s) :
    tokenizer_quoted { data := d, chars := c0 :: (s ++ q :: r) } q kind location msg =
      tokenizer_store { data := d + 1 + s.length + 1, chars := r }
        { kind := kind, text := { data := d + 1, chars := s } } := by
  simp [tokenizer_quoted, sv_chop_left, sv_index_of, index_of_append _ _ _ hs,
    String_View.count]

theorem tokenizer_quoted_open (d : Nat) (c0 q : Char) (s : List Char) (kind : Token_Kind)
    (location : File_Location) (msg : String) (hs : q ∉ s) :
    tokenizer_quoted { data := d, chars := c0 :: s } q kind location msg =
      .fatal 1 location msg := by
  simp [tokenizer_quoted, sv_chop_left, sv_index_of, index_of_none _ _ hs, String_View.count]

theorem tokenizer_switch_dquote (source : String_View) (rest : List Char)
    (location : File_Location) :
    tokenizer_switch source '"' rest location =
      tokenizer_quoted source '"' .STR location ": ERROR: Could not find closing \"\n" := by
  have h : tokenizer_single_chars.lookup '"' = none := by decide
  unfold tokenizer_switch
  rw [h]
  simp

theorem tokenizer_switch_squote (source : String_View) (rest : List Char)
    (location : File_Location) :
    tokenizer_switch source '\'' rest location =
      tokenizer_quoted source '\'' .CHAR location ": ERROR: Could not find closing '\n" := by
  have h : tokenizer_single_chars.lookup '\'' = none := by decide
  unfold tokenizer_switch
  rw [h]
  simp

/-- C4: quoted literals of the Generic Tokenizer.  Let the peek buffer be
empty, `q` be `"` or `'`, `ws` be whitespace and `s` not contain `q`.  If the
source is `ws q s q r`, `tokenizer_peek` returns a token of kind string (for
`"`) or char (for `'`) whose text is exactly `s`, located behind the opening
quote, and leaves the source equal to `r`, behind the closing quote.  If the
source is `ws q s`, with no further `q`, `tokenizer_peek` takes the fatal
unterminated-literal path with exit status 1. -/
theorem quoted_literals (tokenizer : Tokenizer) (location : File_Location) (q : Char)
    (ws s r : List Char) (hq : q = '"' ∨ q = '\'')
    (hfull : tokenizer.peek_buffer_full = false)
    (hws : ∀ w ∈ ws, isspace w = true) (hs : q ∉ s) :
    (tokenizer.source.chars = ws ++ q :: (s ++ q :: r) →
      tokenizer_peek tokenizer location =
        .token
          { kind := if q = '"' then .STR else .CHAR,
            text := { data := tokenizer.source.data + ws.length + 1, chars := s } }
          { source := { data := tokenizer.source.data + ws.length + 1 + s.length + 1, chars := r },
            peek_buffer :=
              { kind := if q = '"' then .STR else .CHAR,
                text := { data := tokenizer.source.data + ws.length + 1, chars := s } },
            peek_buffer_full := true }) ∧
    (tokenizer.source.chars = ws ++ q :: s →
      tokenizer_peek tokenizer location =
        .fatal 1 location
          (if q = '"' then ": ERROR: Could not find closing \"\n"
           else ": ERROR: Could not find closing '\n")) := by
  rcases hq with rfl | rfl
  · constructor
    · intro hsrc
      rw [tokenizer_peek_eq_switch tokenizer location ws _ _ hfull hsrc hws (by decide),
        tokenizer_switch_dquote, tokenizer_quoted_closed _ _ _ _ _ _ _ _ hs]
      rfl
    · intro hsrc
      rw [tokenizer_peek_eq_switch tokenizer location ws _ _ hfull hsrc hws (by decide),
        tokenizer_switch_dquote, tokenizer_quoted_open _ _ _ _ _ _ _ hs]
      rfl
  · constructor
    · intro hsrc
      rw [tokenizer_peek_eq_switch tokenizer location ws _ _ hfull hsrc hws (by decide),
        tokenizer_switch_squote, tokenizer_quoted_closed _ _ _ _ _ _ _ _ hs]
      rfl
    · intro hsrc
      rw [tokenizer_peek_eq_switch tokenizer location ws _ _ hfull hsrc hws (by decide),
        tokenizer_switch_squote, tokenizer_quoted_open _ _ _ _ _ _ _ hs]
      rfl

/-- Witness of C4: the input `"hello"` yields the string token `hello` and an
empty source, and the input `"unterminated` is fatal. -/
theorem quoted_literals_witness :
    tokenizer_peek (tokenizer_from_sv ⟨0, "\"hello\"".toList⟩) ⟨"b.basm", 1⟩ =
      .token { kind := .STR, text := ⟨1, "hello".toList⟩ }
        { source := ⟨7, []⟩, peek_buffer := { kind := .STR, text := ⟨1, "hello".toList⟩ },
          peek_buffer_full := true } ∧
    tokenizer_peek (tokenizer_from_sv ⟨0, "\"unterminated".toList⟩) ⟨"b.basm", 1⟩ =
      .fatal 1 ⟨"b.basm", 1⟩ ": ERROR: Could not find closing \"\n" :=
  ⟨(quoted_literals (tokenizer_from_sv ⟨0, "\"hello\"".toList⟩) ⟨"b.basm", 1⟩ '"'
      [] "hello".toList [] (Or.inl rfl) rfl (by simp) (by decide)).1 rfl,
   (quoted_literals (tokenizer_from_sv ⟨0, "\"unterminated".toList⟩) ⟨"b.basm", 1⟩ '"'
      [] "unterminated".toList [] (Or.inl rfl) rfl (by simp) (by decide)).2 rfl⟩

/-! ## C5: how far a successful classification advances the source -/

theorem tokenizer_chop_token {source : String_View} {kind : Token_Kind} {n : Nat}
    {t : Token} {tk : Tokenizer} (h : tokenizer_chop source kind n = .token t tk) :
    t = { kind := kind, text := { data := source.data, chars := source.chars.take n } } ∧
    tk.source = { data := source.data + n, chars := source.chars.drop n } ∧
    n ≤ source.chars.length := by
  unfold tokenizer_chop sv_chop_left String_View.count at h
  by_cases hn : n ≤ source.chars.length
  · rw [if_pos hn] at h
    simp only [tokenizer_store] at h
    cases h
    exact ⟨rfl, rfl, hn⟩
  · rw [if_neg hn] at h
    cases h

theorem tokenizer_quoted_token {source : String_View} {q : Char} {kind : Token_Kind}
    {location : File_Location} {msg : String} {t : Token} {tk : Tokenizer}
    (h : tokenizer_quoted source q kind location msg = .token t tk) :
    ∃ c0, source.chars = c0 :: (t.text.chars ++ q :: tk.source.chars) ∧ t.kind = kind ∧
      t.text.data = source.data + 1 ∧
      tk.source.data = source.data + 1 + t.text.chars.length + 1 ∧ q ∉ t.text.chars := by
  obtain ⟨d, chars⟩ := source
  cases chars with
  | nil => simp [tokenizer_quoted, sv_chop_left, String_View.count] at h
  | cons c0 l =>
    refine ⟨c0, ?_⟩
    cases hi : index_of q l with
    | none =>
      simp [tokenizer_quoted, sv_chop_left, String_View.count, sv_index_of, hi] at h
    | some i =>
      obtain ⟨h1, h2, h3⟩ := index_of_some hi
      have h4 : i ≤ l.length := Nat.le_of_lt h3
      have h5 : 1 ≤ l.length - i := by omega
      simp only [tokenizer_quoted, sv_chop_left, String_View.count, sv_index_of, hi,
        List.length_cons, Nat.le_add_left, if_true, List.drop_succ_cons, List.drop_zero,
        h4, List.length_drop, h5, tokenizer_store, List.drop_drop] at h
      cases h
      simp only [List.cons.injEq, true_and]
      refine ⟨h1, ?_, h2⟩
      simp only [List.length_take]
      rw [Nat.min_eq_left h4]

theorem tokenizer_single_chars_kind {c : Char} {kind : Token_Kind}
    (h : tokenizer_single_chars.lookup c = some kind) : kind ≠ .STR ∧ kind ≠ .CHAR := by
  simp only [tokenizer_single_chars, List.lookup] at h
  repeat' split at h
  all_goals (cases h <;> exact ⟨by decide, by decide⟩)

theorem tokenizer_default_token {source : String_View} {c : Char}
    {location : File_Location} {t : Token} {tk : Tokenizer}
    (h : tokenizer_default source c location = .token t tk) :
    (t.kind ≠ .STR ∧ t.kind ≠ .CHAR) ∧ source.chars = t.text.chars ++ tk.source.chars ∧
      t.text.data = source.data ∧ tk.source.data = source.data + t.text.chars.length := by
  simp only [tokenizer_default, sv_chop_left_while, tokenizer_store] at h
  split_ifs at h
  all_goals
    (cases h
     exact ⟨⟨by simp, by simp⟩, (List.takeWhile_append_dropWhile _ _).symm, rfl, rfl⟩)

/-- What a successful classification consumes, for each kind of token. -/
theorem tokenizer_switch_consumes {source : String_View} {c : Char} {rest : List Char}
    {location : File_Location} {t : Token} {tk : Tokenizer}
    (hchars : source.chars = c :: rest)
    (h : tokenizer_switch source c rest location = .token t tk) :
    (t.kind ≠ .STR → t.kind ≠ .CHAR →
      source.chars = t.text.chars ++ tk.source.chars ∧ t.text.data = source.data ∧
      tk.source.data = source.data + t.text.count) ∧
    (t.kind = .STR →
      source.chars = '"' :: (t.text.chars ++ '"' :: tk.source.chars) ∧
      t.text.data = source.data + 1 ∧ tk.source.data = source.data + t.text.count + 2) ∧
    (t.kind = .CHAR →
      source.chars = '\'' :: (t.text.chars ++ '\'' :: tk.source.chars) ∧
      t.text.data = source.data + 1 ∧ tk.source.data = source.data + t.text.count + 2) := by
  have hchop : ∀ kind n, kind ≠ Token_Kind.STR → kind ≠ Token_Kind.CHAR →
      tokenizer_chop source kind n = .token t tk →
      (t.kind ≠ .STR ∧ t.kind ≠ .CHAR) ∧
      source.chars = t.text.chars ++ tk.source.chars ∧ t.text.data = source.data ∧
      tk.source.data = source.data + t.text.count := by
    intro kind n hk1 hk2 hc
    obtain ⟨rfl, h2, h3⟩ := tokenizer_chop_token hc
    refine ⟨⟨hk1, hk2⟩, ?_, rfl, ?_⟩
    · rw [h2]
      exact (List.take_append_drop n _).symm
    · rw [h2]
      simp [String_View.count, h3]
  have hplain : (t.kind ≠ .STR ∧ t.kind ≠ .CHAR) ∧
      source.chars = t.text.chars ++ tk.source.chars ∧ t.text.data = source.data ∧
      tk.source.data = source.data + t.text.count →
      (t.kind ≠ .STR → t.kind ≠ .CHAR →
        source.chars = t.text.chars ++ tk.source.chars ∧ t.text.data = source.data ∧
        tk.source.data = source.data + t.text.count) ∧
      (t.kind = .STR →
        source.chars = '"' :: (t.text.chars ++ '"' :: tk.source.chars) ∧
        t.text.data = source.data + 1 ∧ tk.source.data = source.data + t.text.count + 2) ∧
      (t.kind = .CHAR →
        source.chars = '\'' :: (t.text.chars ++ '\'' :: tk.source.chars) ∧
        t.text.data = source.data + 1 ∧ tk.source.data = source.data + t.text.count + 2) :=
    fun hp => ⟨fun _ _ => hp.2, fun hk => (hp.1.1 hk).elim, fun hk => (hp.1.2 hk).elim⟩
  unfold tokenizer_switch at h
  cases hl : tokenizer_single_chars.lookup c with
  | some kind =>
    rw [hl] at h
    obtain ⟨hk1, hk2⟩ := tokenizer_single_chars_kind hl
    exact hplain (hchop kind 1 hk1 hk2 h)
  | none =>
    rw [hl] at h
    simp only at h
    split_ifs at h with he he2 hd hs
    · exact hplain (hchop _ 1 (by decide) (by decide) h)
    · exact hplain (hchop _ 2 (by decide) (by decide) h)
    · obtain ⟨c0, h1, h2, h3, h4, _⟩ := tokenizer_quoted_token h
      have hc0 : c0 = '"' := by
        rw [hchars] at h1
        simp only [List.cons.injEq] at h1
        rw [← h1.1, hd]
      rw [hc0] at h1
      refine ⟨fun hk => (hk h2).elim, fun _ => ⟨h1, h3, ?_⟩, fun hk => ?_⟩
      · rw [h4, String_View.count]
        omega
      · rw [h2] at hk
        cases hk
    · obtain ⟨c0, h1, h2, h3, h4, _⟩ := tokenizer_quoted_token h
      have hc0 : c0 = '\'' := by
        rw [hchars] at h1
        simp only [List.cons.injEq] at h1
        rw [← h1.1, hs]
      rw [hc0] at h1
      refine ⟨fun _ hk => (hk h2).elim, fun hk => ?_, fun _ => ⟨h1, h3, ?_⟩⟩
      · rw [h2] at hk
        cases hk
      · rw [h4, String_View.count]
        omega
    · obtain ⟨hk, h1, h2, h3⟩ := tokenizer_default_token h
      exact hplain ⟨hk, h1, h2, by rw [h3, String_View.count]⟩

/-- C5, as amended: consumption of the Generic Tokenizer.  On a state with an
empty peek buffer on which `tokenizer_peek` succeeds with token `t`: for every
kind other than string and char the trimmed source before the call is `t.text`
followed by the source after the call, the text starts where the trimmed
source starts, and the source is advanced by exactly the length of the text;
for a string or char token the trimmed source is the opening quote, `t.text`,
the closing quote and the source after the call, so the source is advanced by
the length of the text plus two. -/
theorem consumption_invariant (tokenizer tk : Tokenizer) (location : File_Location) (t : Token)
    (hfull : tokenizer.peek_buffer_full = false)
    (h : tokenizer_peek tokenizer location = .token t tk) :
    (t.kind ≠ .STR → t.kind ≠ .CHAR →
      (sv_trim_left tokenizer.source).chars = t.text.chars ++ tk.source.chars ∧
      t.text.data = (sv_trim_left tokenizer.source).data ∧
      tk.source.data = (sv_trim_left tokenizer.source).data + t.text.count) ∧
    (t.kind = .STR →
      (sv_trim_left tokenizer.source).chars = '"' :: (t.text.chars ++ '"' :: tk.source.chars) ∧
      t.text.data = (sv_trim_left tokenizer.source).data + 1 ∧
      tk.source.data = (sv_trim_left tokenizer.source).data + t.text.count + 2) ∧
    (t.kind = .CHAR →
      (sv_trim_left tokenizer.source).chars = '\'' :: (t.text.chars ++ '\'' :: tk.source.chars) ∧
      t.text.data = (sv_trim_left tokenizer.source).data + 1 ∧
      tk.source.data = (sv_trim_left tokenizer.source).data + t.text.count + 2) := by
  unfold tokenizer_peek at h
  rw [hfull] at h
  simp only [Bool.false_eq_true, if_false] at h
  split at h
  · cases h
  · rename_i c rest hchars
    exact tokenizer_switch_consumes hchars h

/-- Witness of C5 as amended, on the input ` ==x`: the trimmed source `==x` is
the text `==` followed by the remaining source `x`. -/
theorem consumption_invariant_witness :
    (sv_trim_left ⟨0, " ==x".toList⟩).chars = ['=', '='] ++ ['x'] ∧
    1 = (sv_trim_left ⟨0, " ==x".toList⟩).data ∧
    3 = (sv_trim_left ⟨0, " ==x".toList⟩).data + 2 :=
  (consumption_invariant (tokenizer_from_sv ⟨0, " ==x".toList⟩)
    { source := ⟨3, ['x']⟩, peek_buffer := ⟨.EE, ⟨1, ['=', '=']⟩⟩, peek_buffer_full := true }
    ⟨"b.basm", 1⟩ ⟨.EE, ⟨1, ['=', '=']⟩⟩ rfl (by decide)).1 (by decide) (by decide)

/-- C5 as stated fails: on the input `"a"` the call succeeds with the string
token `a`, but the trimmed source `"a"` is not the text `a` followed by the
(empty) source after the call; three characters are consumed for a text of
length one. -/
theorem consumption_counterexample :
    ¬ (∀ (tokenizer tk : Tokenizer) (location : File_Location) (t : Token),
        tokenizer.peek_buffer_full = false →
        tokenizer_peek tokenizer location = .token t tk →
        (sv_trim_left tokenizer.source).chars = t.text.chars ++ tk.source.chars) := by
  intro hall
  have h := hall (tokenizer_from_sv ⟨0, ['"', 'a', '"']⟩)
    { source := ⟨3, []⟩, peek_buffer := ⟨.STR, ⟨1, ['a']⟩⟩, peek_buffer_full := true }
    ⟨"b.basm", 1⟩ ⟨.STR, ⟨1, ['a']⟩⟩ rfl (by decide)
  revert h
  decide

/-! ## Character classes and the table of single characters -/

theorem lookup_mem {c : Char} {kind : Token_Kind} {l : List (Char × Token_Kind)}
    (h : l.lookup c = some kind) : (c, kind) ∈ l := by
  induction l with
  | nil => simp [List.lookup] at h
  | cons x xs ih =>
    obtain ⟨a, b⟩ := x
    by_cases hca : c = a
    · subst hca
      simp [List.lookup] at h
      subst h
      exact List.mem_cons_self _ _
    · have hbeq : (c == a) = false := by simpa using hca
      simp only [List.lookup, hbeq] at h
      exact List.mem_cons_of_mem _ (ih h)

theorem tokenizer_single_chars_mem {c : Char} {kind : Token_Kind}
    (h : (c, kind) ∈ tokenizer_single_chars) :
    tokenizer_single_chars.lookup c = some kind ∧ isalpha c = false ∧ isdigit c = false ∧
      isspace c = false := by
  have hall : ∀ e ∈ tokenizer_single_chars,
      tokenizer_single_chars.lookup e.1 = some e.2 ∧ isalpha e.1 = false ∧
        isdigit e.1 = false ∧ isspace e.1 = false := by
    decide
  exact hall (c, kind) h

theorem tokenizer_single_chars_none {c : Char} (h : isalpha c = true ∨ isdigit c = true) :
    tokenizer_single_chars.lookup c = none := by
  cases hl : tokenizer_single_chars.lookup c with
  | none => rfl
  | some kind =>
    obtain ⟨_, h1, h2, _⟩ := tokenizer_single_chars_mem (lookup_mem hl)
    rcases h with h | h
    · rw [h1] at h; cases h
    · rw [h2] at h; cases h

theorem isspace_of_alnum {c : Char} (h : isalpha c = true ∨ isdigit c = true) :
    isspace c = false := by
  simp only [isalpha, isdigit, isspace, Bool.or_eq_true, Bool.and_eq_true, decide_eq_true_eq,
    beq_iff_eq, Bool.or_eq_false_iff, Bool.and_eq_false_iff, decide_eq_false_iff_not,
    beq_eq_false_iff_ne] at h ⊢
  omega

theorem tokenizer_switch_default {c : Char} (h : isalpha c = true ∨ isdigit c = true)
    (source : String_View) (rest : List Char) (location : File_Location) :
    tokenizer_switch source c rest location = tokenizer_default source c location := by
  have h1 : c ≠ '=' := by
    rintro rfl
    revert h
    decide
  have h2 : c ≠ '"' := by
    rintro rfl
    revert h
    decide
  have h3 : c ≠ '\'' := by
    rintro rfl
    revert h
    decide
  unfold tokenizer_switch
  rw [tokenizer_single_chars_none h, if_neg h1, if_neg h2, if_neg h3]

/-- The kind that `tokenizer_peek` gives to a name run. -/
theorem tokenizer_peek_alpha (tokenizer : Tokenizer) (location : File_Location)
    (ws : List Char) (c : Char) (rest : List Char)
    (hfull : tokenizer.peek_buffer_full = false)
    (hsrc : tokenizer.source.chars = ws ++ c :: rest) (hws : ∀ w ∈ ws, isspace w = true)
    (hc : isalpha c = true) :
    tokenizer_peek tokenizer location =
      tokenizer_store
        { data := tokenizer.source.data + ws.length + ((c :: rest).takeWhile is_name).length,
          chars := (c :: rest).dropWhile is_name }
        { kind :=
            if (c :: rest).takeWhile is_name = ['t', 'o'] then .TO
            else if (c :: rest).takeWhile is_name = ['f', 'r', 'o', 'm'] then .FROM
            else if (c :: rest).takeWhile is_name = ['i', 'f'] then .IF
            else .NAME,
          text := { data := tokenizer.source.data + ws.length,
                    chars := (c :: rest).takeWhile is_name } } := by
  rw [tokenizer_peek_eq_switch tokenizer location ws c rest hfull hsrc hws
      (isspace_of_alnum (Or.inl hc)), tokenizer_switch_default (Or.inl hc)]
  simp only [tokenizer_default, hc, if_true, sv_chop_left_while, sv_eq, SV, decide_eq_true_eq]
  have e1 : "to".toList = ['t', 'o'] := rfl
  have e2 : "from".toList = ['f', 'r', 'o', 'm'] := rfl
  have e3 : "if".toList = ['i', 'f'] := rfl
  rw [e1, e2, e3]
  split_ifs <;> rfl

theorem tokenizer_peek_digit (tokenizer : Tokenizer) (location : File_Location)
    (ws : List Char) (c : Char) (rest : List Char)
    (hfull : tokenizer.peek_buffer_full = false)
    (hsrc : tokenizer.source.chars = ws ++ c :: rest) (hws : ∀ w ∈ ws, isspace w = true)
    (hc : isdigit c = true) :
    tokenizer_peek tokenizer location =
      tokenizer_store
        { data := tokenizer.source.data + ws.length + ((c :: rest).takeWhile is_number).length,
          chars := (c :: rest).dropWhile is_number }
        { kind := .NUMBER,
          text := { data := tokenizer.source.data + ws.length,
                    chars := (c :: rest).takeWhile is_number } } := by
  have ha : isalpha c = false := by
    simp only [isalpha, isdigit, Bool.or_eq_true, Bool.and_eq_true, decide_eq_true_eq,
      Bool.or_eq_false_iff, Bool.and_eq_false_iff, decide_eq_false_iff_not] at hc ⊢
    omega
  rw [tokenizer_peek_eq_switch tokenizer location ws c rest hfull hsrc hws
      (isspace_of_alnum (Or.inr hc)), tokenizer_switch_default (Or.inr hc)]
  simp only [tokenizer_default, hc, ha, if_true, sv_chop_left_while, Bool.false_eq_true,
    if_false]

/-! ## The Structured Lexer: reaching the line of the next token -/

theorem bang_lexer_skip_lines_stop (fuel : Nat) (lexer : Bang_Lexer) (c : Char)
    (l : List Char) (hline : lexer.line.chars = c :: l) (hc : c ≠ '#') :
    bang_lexer_skip_lines fuel lexer = lexer := by
  cases fuel with
  | zero => rfl
  | succ n =>
    unfold bang_lexer_skip_lines
    simp [String_View.count, hline, hc]

theorem not_newline_of_not_space {c : Char} (hc : isspace c = false) : (c != '\n') = true := by
  have h : c ≠ '\n' := by
    rintro rfl
    revert hc
    decide
  simpa using h

theorem bang_lexer_skip_lines_succ (fuel : Nat) (lexer : Bang_Lexer)
    (hline : lexer.line.chars = []) (hcontent : lexer.content.chars ≠ []) :
    bang_lexer_skip_lines (fuel + 1) lexer =
      bang_lexer_skip_lines fuel (next_trimmed_line lexer) := by
  have hpos : 0 < lexer.content.chars.length := List.length_pos.mpr hcontent
  rw [bang_lexer_skip_lines]
  simp [String_View.count, hline, hpos, next_trimmed_line]

theorem next_trimmed_line_last (lexer : Bang_Lexer) (ws : List Char) (c : Char)
    (rest : List Char) (hcontent : lexer.content.chars = ws ++ c :: rest)
    (hws : ∀ w ∈ ws, isspace w = true) (hc : isspace c = false)
    (hnl : ∀ w ∈ ws, (w != '\n') = true) :
    (next_trimmed_line lexer).line =
        { data := lexer.content.data + ws.length,
          chars := (c :: rest).takeWhile (fun x => x != '\n') } ∧
      (next_trimmed_line lexer).line_start = lexer.content.data ∧
      (next_trimmed_line lexer).peek_buffer_full = lexer.peek_buffer_full ∧
      (next_trimmed_line lexer).file_path = lexer.file_path := by
  have hcn := not_newline_of_not_space hc
  have htw : (c :: rest).takeWhile (fun x => x != '\n') =
      c :: rest.takeWhile (fun x => x != '\n') := by
    rw [List.takeWhile_cons, if_pos hcn]
  have hline : (bang_lexer_next_line lexer).line =
      { data := lexer.content.data,
        chars := ws ++ c :: rest.takeWhile (fun x => x != '\n') } := by
    simp only [bang_lexer_next_line, sv_chop_by_delim]
    rw [take_length_takeWhile, hcontent, takeWhile_append_of_all hnl, htw]
  refine ⟨?_, rfl, rfl, rfl⟩
  simp only [next_trimmed_line]
  rw [hline, htw]
  exact sv_trim_left_eq _ ws c _ rfl hws hc

theorem next_trimmed_line_blank (lexer : Bang_Lexer) (w1 w2 l : List Char)
    (hcontent : lexer.content.chars = w1 ++ '\n' :: (w2 ++ l))
    (hws : ∀ w ∈ w1, isspace w = true) (hnl : ∀ w ∈ w1, (w != '\n') = true) :
    (next_trimmed_line lexer).line.chars = [] ∧
      (next_trimmed_line lexer).content =
        { data := lexer.content.data + (w1.length + 1), chars := w2 ++ l } ∧
      (next_trimmed_line lexer).peek_buffer_full = lexer.peek_buffer_full ∧
      (next_trimmed_line lexer).file_path = lexer.file_path := by
  have htw : lexer.content.chars.takeWhile (fun x => x != '\n') = w1 := by
    rw [hcontent, takeWhile_append_of_all hnl]
    simp [List.takeWhile_cons]
  have hlt : w1.length < lexer.content.chars.length := by
    rw [hcontent]
    simp
  refine ⟨?_, ?_, rfl, rfl⟩
  · simp only [next_trimmed_line, bang_lexer_next_line, sv_chop_by_delim, sv_trim_left]
    rw [take_length_takeWhile, htw]
    have := dropWhile_append_of_all hws []
    simpa using this
  · simp only [next_trimmed_line, bang_lexer_next_line, sv_chop_by_delim, String_View.count]
    rw [htw, if_pos hlt, hcontent]
    simp

theorem bang_lexer_skip_lines_blank (fuel : Nat) (lexer : Bang_Lexer) (ws : List Char)
    (c : Char) (rest : List Char) (hline : lexer.line.chars = [])
    (hcontent : lexer.content.chars = ws ++ c :: rest)
    (hws : ∀ w ∈ ws, isspace w = true) (hc : isspace c = false) (hc2 : c ≠ '#')
    (hfuel : lexer.content.chars.length ≤ fuel) :
    (bang_lexer_skip_lines fuel lexer).line =
        { data := lexer.content.data + ws.length,
          chars := (c :: rest).takeWhile (fun x => x != '\n') } ∧
      (bang_lexer_skip_lines fuel lexer).line_start ≤
        (bang_lexer_skip_lines fuel lexer).line.data ∧
      (bang_lexer_skip_lines fuel lexer).peek_buffer_full = lexer.peek_buffer_full ∧
      (bang_lexer_skip_lines fuel lexer).file_path = lexer.file_path := by
  induction fuel generalizing lexer ws with
  | zero =>
    rw [hcontent] at hfuel
    simp at hfuel
  | succ n ih =>
    have hne : lexer.content.chars ≠ [] := by
      rw [hcontent]
      simp
    rw [bang_lexer_skip_lines_succ n lexer hline hne]
    have hcn := not_newline_of_not_space hc
    have hsplit := List.takeWhile_append_dropWhile (fun x => x != '\n') ws
    have hw1 : ∀ w ∈ ws.takeWhile (fun x => x != '\n'), (w != '\n') = true := by
      intro w hw
      have hp := List.mem_takeWhile_imp hw
      exact hp
    have hw1s : ∀ w ∈ ws.takeWhile (fun x => x != '\n'), isspace w = true :=
      fun w hw => hws w ((List.takeWhile_prefix _).subset hw)
    cases hd : ws.dropWhile (fun x => x != '\n') with
    | nil =>
      rw [hd, List.append_nil] at hsplit
      rw [hsplit] at hw1
      obtain ⟨h1, h2, h3, h4⟩ := next_trimmed_line_last lexer ws c rest hcontent hws hc hw1
      have hstop := bang_lexer_skip_lines_stop n (next_trimmed_line lexer) c
        (rest.takeWhile (fun x => x != '\n'))
        (by rw [h1, List.takeWhile_cons, if_pos hcn]) hc2
      rw [hstop]
      refine ⟨h1, ?_, h3, h4⟩
      rw [h2, h1]
      exact Nat.le_add_right _ _
    | cons x w2 =>
      have hx : x = '\n' := by
        have := dropWhile_head_not (fun x => x != '\n') ws x (by rw [hd]; rfl)
        simpa using this
      subst hx
      rw [hd] at hsplit
      have hw2s : ∀ w ∈ w2, isspace w = true := by
        intro w hw
        apply hws
        rw [← hsplit]
        exact List.mem_append_right _ (List.mem_cons_of_mem _ hw)
      have hcontent2 : lexer.content.chars =
          ws.takeWhile (fun x => x != '\n') ++ '\n' :: (w2 ++ c :: rest) := by
        rw [hcontent]
        nth_rewrite 1 [← hsplit]
        simp
      obtain ⟨h1, h2, h3, h4⟩ := next_trimmed_line_blank lexer _ w2 (c :: rest) hcontent2
        hw1s hw1
      have hlen : ws.length = (ws.takeWhile (fun x => x != '\n')).length + 1 + w2.length := by
        nth_rewrite 1 [← hsplit]
        simp
        omega
      have hfuel2 : (next_trimmed_line lexer).content.chars.length ≤ n := by
        rw [h2]
        rw [hcontent2] at hfuel
        simp at hfuel ⊢
        omega
      obtain ⟨k1, k2, k3, k4⟩ := ih (next_trimmed_line lexer) w2 h1 (by rw [h2]) hw2s hfuel2
      refine ⟨?_, k2, k3.trans h3, k4.trans h4⟩
      rw [k1, h2, hlen]
      simp only [String_View.mk.injEq, and_true]
      omega

theorem bang_lexer_extract_here (lexer : Bang_Lexer) (ws : List Char) (c : Char)
    (rest : List Char) (hline : lexer.line.chars = ws ++ c :: rest)
    (hws : ∀ w ∈ ws, isspace w = true) (hc : isspace c = false) (hc2 : c ≠ '#') :
    bang_lexer_extract lexer =
      { lexer with line := { data := lexer.line.data + ws.length, chars := c :: rest } } := by
  unfold bang_lexer_extract
  rw [sv_trim_left_eq _ ws c rest hline hws hc]
  exact bang_lexer_skip_lines_stop _ _ c rest rfl hc2

theorem bang_lexer_extract_below (lexer : Bang_Lexer) (ws1 ws : List Char) (c : Char)
    (rest : List Char) (hline : lexer.line.chars = ws1)
    (hws1 : ∀ w ∈ ws1, isspace w = true)
    (hcontent : lexer.content.chars = ws ++ c :: rest)
    (hws : ∀ w ∈ ws, isspace w = true) (hc : isspace c = false) (hc2 : c ≠ '#') :
    (bang_lexer_extract lexer).line =
        { data := lexer.content.data + ws.length,
          chars := (c :: rest).takeWhile (fun x => x != '\n') } ∧
      (bang_lexer_extract lexer).line_start ≤ (bang_lexer_extract lexer).line.data ∧
      (bang_lexer_extract lexer).peek_buffer_full = lexer.peek_buffer_full ∧
      (bang_lexer_extract lexer).file_path = lexer.file_path := by
  unfold bang_lexer_extract
  have htrim : (sv_trim_left lexer.line).chars = [] := by
    have := dropWhile_append_of_all hws1 []
    simp only [sv_trim_left, hline]
    simpa using this
  exact bang_lexer_skip_lines_blank lexer.content.count
    { lexer with line := sv_trim_left lexer.line } ws c rest htrim hcontent hws hc hc2
    (Nat.le_refl _)

theorem bang_lexer_peek_eq_classify (lexer : Bang_Lexer) (c : Char) (l : List Char)
    (hfull : lexer.peek_buffer_full = false)
    (hline : (bang_lexer_extract lexer).line.chars = c :: l) :
    bang_lexer_peek lexer = bang_lexer_classify (bang_lexer_extract lexer) c l := by
  unfold bang_lexer_peek
  rw [hfull, hline]
  simp

theorem bang_lexer_classify_hardcoded (lexer : Bang_Lexer) (c : Char) (l : List Char)
    (h : Hardcoded_Token) (hmem : h ∈ hardcoded_bang_tokens) (hc : h.text.chars = [c])
    (hline : lexer.line.chars = c :: l) :
    bang_lexer_classify lexer c l = bang_lexer_spit lexer h.kind 1 := by
  simp only [hardcoded_bang_tokens, List.mem_cons, List.mem_singleton, List.not_mem_nil,
    or_false] at hmem
  rcases hmem with rfl | rfl | rfl | rfl | rfl | rfl
  all_goals
    (simp only [SV, String.toList, List.cons.injEq, and_true] at hc
     subst hc
     simp [bang_lexer_classify, hardcoded_bang_tokens, sv_starts_with, hline, SV,
       String_View.count])

theorem char_le_iff (a b : Char) : a ≤ b ↔ a.toNat ≤ b.toNat := by
  rw [Char.le_def]
  exact Iff.rfl

theorem bang_is_name_toNat {c : Char} (hc : bang_is_name c = true) :
    (97 ≤ c.toNat ∧ c.toNat ≤ 122) ∨ (65 ≤ c.toNat ∧ c.toNat ≤ 90) ∨
      (48 ≤ c.toNat ∧ c.toNat ≤ 57) ∨ c.toNat = 95 := by
  simp only [bang_is_name, Bool.or_eq_true, Bool.and_eq_true, decide_eq_true_eq,
    beq_iff_eq, char_le_iff] at hc
  rcases hc with ((h | h) | h) | h
  · exact Or.inl h
  · exact Or.inr (Or.inl h)
  · exact Or.inr (Or.inr (Or.inl h))
  · exact Or.inr (Or.inr (Or.inr (by rw [h]; rfl)))

theorem bang_is_name_class {c : Char} (hc : bang_is_name c = true) :
    isspace c = false ∧ c ≠ '#' ∧ c ≠ '"' ∧ c ≠ '(' ∧ c ≠ ')' ∧ c ≠ '{' ∧ c ≠ '}' ∧
      c ≠ ';' ∧ c ≠ ':' := by
  refine ⟨?_, ?_, ?_, ?_, ?_, ?_, ?_, ?_, ?_⟩
  · have h := bang_is_name_toNat hc
    simp only [isspace, Bool.or_eq_false_iff, Bool.and_eq_false_iff, beq_eq_false_iff_ne,
      decide_eq_false_iff_not]
    omega
  all_goals
    (rintro rfl
     revert hc
     decide)

theorem bang_lexer_spit_ok (lexer : Bang_Lexer) (kind : Bang_Token_Kind) (n : Nat)
    (hn : n ≤ lexer.line.chars.length) (hfull : lexer.peek_buffer_full = false)
    (hstart : lexer.line_start ≤ lexer.line.data) :
    bang_lexer_spit lexer kind n =
      .token (spit_result lexer kind n).1 (spit_result lexer kind n).2 := by
  rw [bang_lexer_spit_eq, if_pos ⟨hn, hfull, hstart⟩]

theorem bang_lexer_classify_name (lexer : Bang_Lexer) (c : Char) (l : List Char)
    (hline : lexer.line.chars = c :: l) (hc : bang_is_name c = true) :
    bang_lexer_classify lexer c l =
      bang_lexer_spit lexer .NAME ((c :: l).takeWhile bang_is_name).length := by
  obtain ⟨_, _, _, h1, h2, h3, h4, h5, h6⟩ := bang_is_name_class hc
  have hfind : hardcoded_bang_tokens.find? (fun h => sv_starts_with lexer.line h.text) =
      none := by
    simp [hardcoded_bang_tokens, sv_starts_with, hline, SV, Ne.symm h1, Ne.symm h2,
      Ne.symm h3, Ne.symm h4, Ne.symm h5, Ne.symm h6]
  unfold bang_lexer_classify
  rw [hfind]
  simp only
  rw [scan_while_eq, hline]
  have hpos : ((c :: l).takeWhile bang_is_name).length > 0 := by
    rw [List.takeWhile_cons, if_pos hc]
    simp
  rw [if_pos hpos]

theorem takeWhile_takeWhile_of_imp (p q : Char → Bool) (himp : ∀ x, p x = true → q x = true)
    (l : List Char) : (l.takeWhile q).takeWhile p = l.takeWhile p := by
  induction l with
  | nil => rfl
  | cons x xs ih =>
    by_cases hp : p x = true
    · have hq := himp x hp
      simp [List.takeWhile_cons, hp, hq, ih]
    · by_cases hq : q x = true
      · simp [List.takeWhile_cons, hp, hq]
      · simp [List.takeWhile_cons, hp, hq]

theorem length_takeWhile_le (p : Char → Bool) (l : List Char) :
    (l.takeWhile p).length ≤ l.length :=
  (List.takeWhile_prefix p).length_le

/-! ## C6: names are munched maximally -/

/-- C6: name maximal munch, for both analyzers.  Let `ws` be whitespace and
the peek buffer be empty.  Generic Tokenizer: if the source is `ws c rest`
with `c` alphabetic, `tokenizer_peek` returns a token whose text is the
longest prefix of `c rest` made of alphanumeric or `_` characters, and leaves
the remainder, whose first character (if any) is not a name character.
Structured Lexer: the same holds with `bang_is_name` when the current line is
`ws c rest`, and when the current line holds only whitespace and the rest of
the buffer is `ws c rest`; the token has kind name and the character that
follows it on its line (if any) is not a name character. -/
theorem name_maximal_munch (tokenizer : Tokenizer) (location : File_Location)
    (lexer : Bang_Lexer) (ws ws1 : List Char) (c : Char) (rest : List Char)
    (hws : ∀ w ∈ ws, isspace w = true) :
    (tokenizer.peek_buffer_full = false → tokenizer.source.chars = ws ++ c :: rest →
      isalpha c = true →
      ∃ kind, tokenizer_peek tokenizer location =
          .token
            { kind := kind,
              text := { data := tokenizer.source.data + ws.length,
                        chars := (c :: rest).takeWhile is_name } }
            { source :=
                { data := tokenizer.source.data + ws.length +
                    ((c :: rest).takeWhile is_name).length,
                  chars := (c :: rest).dropWhile is_name },
              peek_buffer :=
                { kind := kind,
                  text := { data := tokenizer.source.data + ws.length,
                            chars := (c :: rest).takeWhile is_name } },
              peek_buffer_full := true } ∧
        (∀ x, ((c :: rest).dropWhile is_name).head? = some x → is_name x = false) ∧
        (∀ pre, pre <+: c :: rest → (∀ x ∈ pre, is_name x = true) →
          pre.length ≤ ((c :: rest).takeWhile is_name).length)) ∧
    (lexer.peek_buffer_full = false → lexer.line_start ≤ lexer.line.data →
      lexer.line.chars = ws ++ c :: rest → bang_is_name c = true →
      bang_lexer_peek lexer =
          .token
            { kind := .NAME,
              text := { data := lexer.line.data + ws.length,
                        chars := (c :: rest).takeWhile bang_is_name },
              loc := { row := lexer.row,
                       col := lexer.line.data + ws.length - lexer.line_start + 1,
                       file_path := lexer.file_path } }
            { lexer with
              line := { data := lexer.line.data + ws.length +
                          ((c :: rest).takeWhile bang_is_name).length,
                        chars := (c :: rest).dropWhile bang_is_name },
              peek_buffer :=
                { kind := .NAME,
                  text := { data := lexer.line.data + ws.length,
                            chars := (c :: rest).takeWhile bang_is_name },
                  loc := { row := lexer.row,
                           col := lexer.line.data + ws.length - lexer.line_start + 1,
                           file_path := lexer.file_path } },
              peek_buffer_full := true } ∧
        (∀ x, ((c :: rest).dropWhile bang_is_name).head? = some x → bang_is_name x = false) ∧
        (∀ pre, pre <+: c :: rest → (∀ x ∈ pre, bang_is_name x = true) →
          pre.length ≤ ((c :: rest).takeWhile bang_is_name).length)) ∧
    (lexer.peek_buffer_full = false → lexer.line.chars = ws1 →
      (∀ w ∈ ws1, isspace w = true) → lexer.content.chars = ws ++ c :: rest →
      bang_is_name c = true →
      ∃ t lx, bang_lexer_peek lexer = .token t lx ∧ t.kind = .NAME ∧
        t.text = { data := lexer.content.data + ws.length,
                   chars := (c :: rest).takeWhile bang_is_name } ∧
        lx.line = { data := lexer.content.data + ws.length +
                      ((c :: rest).takeWhile bang_is_name).length,
                    chars := ((c :: rest).takeWhile (fun x => x != '\n')).dropWhile
                      bang_is_name } ∧
        (∀ x, lx.line.chars.head? = some x → bang_is_name x = false) ∧
        (∀ x, ((c :: rest).dropWhile bang_is_name).head? = some x → bang_is_name x = false) ∧
        (∀ pre, pre <+: c :: rest → (∀ x ∈ pre, bang_is_name x = true) →
          pre.length ≤ t.text.count)) := by
  refine ⟨?_, ?_, ?_⟩
  · intro hfull hsrc hc
    refine ⟨_, tokenizer_peek_alpha tokenizer location ws c rest hfull hsrc hws hc, ?_, ?_⟩
    · exact dropWhile_head_not _ _
    · exact prefix_all_le_takeWhile _ _
  · intro hfull hstart hline hc
    obtain ⟨hsp, hhash, _⟩ := bang_is_name_class hc
    have hext := bang_lexer_extract_here lexer ws c rest hline hws hsp hhash
    refine ⟨?_, dropWhile_head_not _ _, prefix_all_le_takeWhile _ _⟩
    have hspit := bang_lexer_spit_ok
      { lexer with line := { data := lexer.line.data + ws.length, chars := c :: rest } }
      .NAME ((c :: rest).takeWhile bang_is_name).length (length_takeWhile_le _ _) hfull
      (Nat.le_trans hstart (Nat.le_add_right _ _))
    rw [bang_lexer_peek_eq_classify lexer c rest hfull (by rw [hext]), hext,
      bang_lexer_classify_name _ c rest rfl hc, hspit]
    simp only [spit_result, take_length_takeWhile, drop_length_takeWhile]
  · intro hfull hline hws1 hcontent hc
    obtain ⟨hsp, hhash, _⟩ := bang_is_name_class hc
    obtain ⟨h1, h2, h3, h4⟩ :=
      bang_lexer_extract_below lexer ws1 ws c rest hline hws1 hcontent hws hsp hhash
    have hcn := not_newline_of_not_space hsp
    have hl : (bang_lexer_extract lexer).line.chars =
        c :: rest.takeWhile (fun x => x != '\n') := by
      rw [h1, List.takeWhile_cons, if_pos hcn]
    have himp : ∀ x, bang_is_name x = true → (x != '\n') = true :=
      fun x hx => not_newline_of_not_space (bang_is_name_class hx).1
    have htt : (c :: rest.takeWhile (fun x => x != '\n')).takeWhile bang_is_name =
        (c :: rest).takeWhile bang_is_name := by
      have := takeWhile_takeWhile_of_imp bang_is_name (fun x => x != '\n') himp (c :: rest)
      rw [List.takeWhile_cons (p := fun x => x != '\n'), if_pos hcn] at this
      exact this
    have hspit := bang_lexer_spit_ok (bang_lexer_extract lexer) .NAME
      ((c :: rest).takeWhile bang_is_name).length
      (by rw [hl, ← htt]; exact length_takeWhile_le _ _) (h3.trans hfull) h2
    refine ⟨(spit_result (bang_lexer_extract lexer) .NAME
        ((c :: rest).takeWhile bang_is_name).length).1,
      (spit_result (bang_lexer_extract lexer) .NAME
        ((c :: rest).takeWhile bang_is_name).length).2,
      ?_, ?_, ?_, ?_, ?_, dropWhile_head_not _ _, ?_⟩
    · rw [bang_lexer_peek_eq_classify lexer c _ hfull hl,
        bang_lexer_classify_name _ c _ hl hc, htt]
      exact hspit
    · rfl
    · simp only [spit_result, hl]
      rw [← htt, take_length_takeWhile, h1]
    · simp only [spit_result, hl]
      rw [← htt, drop_length_takeWhile, h1, List.takeWhile_cons (p := fun x => x != '\n'),
        if_pos hcn]
    · intro x hx
      simp only [spit_result, hl] at hx
      rw [← htt, drop_length_takeWhile] at hx
      exact dropWhile_head_not _ _ x hx
    · intro pre hpre hall
      simp only [spit_result, hl, String_View.count]
      rw [← htt, take_length_takeWhile, htt]
      exact prefix_all_le_takeWhile _ _ pre hpre hall

/-- Witness of C6: the input `abc123_def!` yields the text `abc123_def` and
leaves `!`, in both analyzers. -/
theorem name_maximal_munch_witness :
    (∃ t tk, tokenizer_peek (tokenizer_from_sv ⟨0, "abc123_def!".toList⟩) ⟨"b.basm", 1⟩ =
        .token t tk ∧ t.kind = .NAME ∧ t.text.chars = "abc123_def".toList ∧
        tk.source.chars = ['!']) ∧
    (∃ t lx, bang_lexer_peek (bang_lexer_from_sv ⟨0, "abc123_def!".toList⟩ "a.bang") =
        .token t lx ∧ t.kind = .NAME ∧ t.text.chars = "abc123_def".toList ∧
        lx.line.chars = ['!']) := by
  have h := name_maximal_munch (tokenizer_from_sv ⟨0, "abc123_def!".toList⟩) ⟨"b.basm", 1⟩
    (bang_lexer_from_sv ⟨0, "abc123_def!".toList⟩ "a.bang") [] [] 'a' "bc123_def!".toList
    (by simp)
  obtain ⟨kind, hk, _⟩ := h.1 rfl rfl (by decide)
  obtain ⟨t, lx, h1, h2, h3, h4, _⟩ := h.2.2 rfl rfl (by simp) rfl (by decide)
  refine ⟨⟨_, _, hk, ?_, rfl, rfl⟩, ⟨t, lx, h1, h2, ?_, ?_⟩⟩
  · have hd : tokenizer_peek (tokenizer_from_sv ⟨0, "abc123_def!".toList⟩) ⟨"b.basm", 1⟩ =
        .token ⟨.NAME, ⟨0, "abc123_def".toList⟩⟩
          ⟨⟨10, ['!']⟩, ⟨.NAME, ⟨0, "abc123_def".toList⟩⟩, true⟩ := by decide
    rw [hd] at hk
    cases hk
    rfl
  · rw [h3]
    decide
  · rw [h4]
    decide

/-! ## C7: keywords of the Generic Tokenizer -/

/-- C7: keyword recognition of the Generic Tokenizer.  If the peek buffer is
empty and the source is whitespace `ws` followed by `c rest` with `c`
alphabetic, `tokenizer_peek` returns a token whose text is the maximal name
run of `c rest`; its kind is `to`, `from` or `if` exactly when that run is the
text `to`, `from` or `if` respectively, and it is name in every other case. -/
theorem keyword_recognition (tokenizer : Tokenizer) (location : File_Location)
    (ws : List Char) (c : Char) (rest : List Char)
    (hfull : tokenizer.peek_buffer_full = false)
    (hsrc : tokenizer.source.chars = ws ++ c :: rest) (hws : ∀ w ∈ ws, isspace w = true)
    (hc : isalpha c = true) :
    ∃ t tk, tokenizer_peek tokenizer location = .token t tk ∧
      t.text.chars = (c :: rest).takeWhile is_name ∧
      (t.kind = .TO ↔ (c :: rest).takeWhile is_name = ['t', 'o']) ∧
      (t.kind = .FROM ↔ (c :: rest).takeWhile is_name = ['f', 'r', 'o', 'm']) ∧
      (t.kind = .IF ↔ (c :: rest).takeWhile is_name = ['i', 'f']) ∧
      (t.kind = .NAME ↔ (c :: rest).takeWhile is_name ≠ ['t', 'o'] ∧
        (c :: rest).takeWhile is_name ≠ ['f', 'r', 'o', 'm'] ∧
        (c :: rest).takeWhile is_name ≠ ['i', 'f']) := by
  refine ⟨_, _, tokenizer_peek_alpha tokenizer location ws c rest hfull hsrc hws hc, rfl, ?_⟩
  generalize (c :: rest).takeWhile is_name = run
  by_cases h1 : run = ['t', 'o']
  · subst h1
    simp
  · by_cases h2 : run = ['f', 'r', 'o', 'm']
    · subst h2
      simp
    · by_cases h3 : run = ['i', 'f']
      · subst h3
        simp
      · simp [h1, h2, h3]

/-- Witness of C7: the input `tox` yields a name token with text `tox`, and
the input `to` yields the keyword `to`. -/
theorem keyword_recognition_witness :
    (∃ t tk, tokenizer_peek (tokenizer_from_sv ⟨0, "tox".toList⟩) ⟨"b.basm", 1⟩ = .token t tk ∧
      t.text.chars = ['t', 'o', 'x'] ∧ t.kind = .NAME) ∧
    (∃ t tk, tokenizer_peek (tokenizer_from_sv ⟨0, " to ".toList⟩) ⟨"b.basm", 1⟩ =
      .token t tk ∧ t.text.chars = ['t', 'o'] ∧ t.kind = .TO) := by
  obtain ⟨t, tk, h1, h2, _, _, _, h6⟩ := keyword_recognition
    (tokenizer_from_sv ⟨0, "tox".toList⟩) ⟨"b.basm", 1⟩ [] 't' ['o', 'x'] rfl rfl (by simp)
    (by decide)
  obtain ⟨t2, tk2, k1, k2, k3, _⟩ := keyword_recognition
    (tokenizer_from_sv ⟨0, " to ".toList⟩) ⟨"b.basm", 1⟩ [' '] 't' ['o', ' '] rfl rfl
    (by decide) (by decide)
  exact ⟨⟨t, tk, h1, by rw [h2]; decide, h6.mpr (by decide)⟩,
    ⟨t2, tk2, k1, by rw [k2]; decide, k3.mpr (by decide)⟩⟩

/-! ## C8: `=` and `==` -/

theorem tokenizer_switch_eq (source : String_View) (rest : List Char)
    (location : File_Location) :
    tokenizer_switch source '=' rest location =
      if source.count ≤ 1 ∨ rest.head? ≠ some '=' then tokenizer_chop source .EQ 1
      else tokenizer_chop source .EE 2 := by
  have h : tokenizer_single_chars.lookup '=' = none := by decide
  unfold tokenizer_switch
  rw [h]
  simp

/-- C8: `=` disambiguation of the Generic Tokenizer.  Let the peek buffer be
empty and the source be whitespace `ws` followed by `=` and `rest`.  If
`rest` starts with `=`, the token is equals-equals with text `==` and two
characters are consumed; otherwise (`rest` is empty or starts with another
character) the token is assign with text `=` and one character is consumed.
Consequently `=x` yields assign followed by the name `x`, and `===` yields
equals-equals followed by assign. -/
theorem eq_disambiguation (tokenizer : Tokenizer) (location : File_Location)
    (ws rest : List Char) (hfull : tokenizer.peek_buffer_full = false)
    (hws : ∀ w ∈ ws, isspace w = true) :
    (tokenizer.source.chars = ws ++ '=' :: '=' :: rest →
      tokenizer_peek tokenizer location =
        .token { kind := .EE, text := ⟨tokenizer.source.data + ws.length, ['=', '=']⟩ }
          { source := ⟨tokenizer.source.data + ws.length + 2, rest⟩,
            peek_buffer := { kind := .EE, text := ⟨tokenizer.source.data + ws.length, ['=', '=']⟩ },
            peek_buffer_full := true }) ∧
    (tokenizer.source.chars = ws ++ '=' :: rest → rest.head? ≠ some '=' →
      tokenizer_peek tokenizer location =
        .token { kind := .EQ, text := ⟨tokenizer.source.data + ws.length, ['=']⟩ }
          { source := ⟨tokenizer.source.data + ws.length + 1, rest⟩,
            peek_buffer := { kind := .EQ, text := ⟨tokenizer.source.data + ws.length, ['=']⟩ },
            peek_buffer_full := true }) ∧
    tokenizer_tokens 3 (tokenizer_from_sv ⟨0, ['=', 'x']⟩) location =
      [{ kind := .EQ, text := ⟨0, ['=']⟩ }, { kind := .NAME, text := ⟨1, ['x']⟩ }] ∧
    tokenizer_tokens 3 (tokenizer_from_sv ⟨0, ['=', '=', '=']⟩) location =
      [{ kind := .EE, text := ⟨0, ['=', '=']⟩ }, { kind := .EQ, text := ⟨2, ['=']⟩ }] := by
  refine ⟨?_, ?_, ?_, ?_⟩
  · intro hsrc
    rw [tokenizer_peek_eq_switch tokenizer location ws _ _ hfull hsrc hws (by decide),
      tokenizer_switch_eq]
    simp [String_View.count, tokenizer_chop, sv_chop_left, tokenizer_store]
  · intro hsrc hrest
    rw [tokenizer_peek_eq_switch tokenizer location ws _ _ hfull hsrc hws (by decide),
      tokenizer_switch_eq, if_pos (Or.inr hrest)]
    simp [String_View.count, tokenizer_chop, sv_chop_left, tokenizer_store]
  · rfl
  · rfl

/-- Witness of C8 on the inputs ` ==x` and ` =`. -/
theorem eq_disambiguation_witness :
    tokenizer_peek (tokenizer_from_sv ⟨0, [' ', '=', '=', 'x']⟩) ⟨"b.basm", 1⟩ =
      .token { kind := .EE, text := ⟨0 + 1, ['=', '=']⟩ }
        { source := ⟨0 + 1 + 2, ['x']⟩,
          peek_buffer := { kind := .EE, text := ⟨0 + 1, ['=', '=']⟩ },
          peek_buffer_full := true } ∧
    tokenizer_peek (tokenizer_from_sv ⟨0, [' ', '=']⟩) ⟨"b.basm", 1⟩ =
      .token { kind := .EQ, text := ⟨0 + 1, ['=']⟩ }
        { source := ⟨0 + 1 + 1, []⟩,
          peek_buffer := { kind := .EQ, text := ⟨0 + 1, ['=']⟩ },
          peek_buffer_full := true } :=
  ⟨(eq_disambiguation (tokenizer_from_sv ⟨0, [' ', '=', '=', 'x']⟩) ⟨"b.basm", 1⟩ [' '] ['x']
      rfl (by decide)).1 rfl,
   (eq_disambiguation (tokenizer_from_sv ⟨0, [' ', '=']⟩) ⟨"b.basm", 1⟩ [' '] []
      rfl (by decide)).2.1 rfl (by decide)⟩

/-! ## C10: permissive numbers -/

/-- C10: permissive numbers of the Generic Tokenizer.  If the peek buffer is
empty and the source is whitespace `ws` followed by `c rest` with `c` a
digit, `tokenizer_peek` returns one token of kind number whose text is the
maximal leading run of `c rest` made of alphanumeric characters or `.`, with
no validation of the numeric form, and leaves the remainder, whose first
character (if any) is neither alphanumeric nor `.`. -/
theorem permissive_numbers (tokenizer : Tokenizer) (location : File_Location)
    (ws : List Char) (c : Char) (rest : List Char)
    (hfull : tokenizer.peek_buffer_full = false)
    (hsrc : tokenizer.source.chars = ws ++ c :: rest) (hws : ∀ w ∈ ws, isspace w = true)
    (hc : isdigit c = true) :
    tokenizer_peek tokenizer location =
        .token
          { kind := .NUMBER,
            text := { data := tokenizer.source.data + ws.length,
                      chars := (c :: rest).takeWhile is_number } }
          { source :=
              { data := tokenizer.source.data + ws.length +
                  ((c :: rest).takeWhile is_number).length,
                chars := (c :: rest).dropWhile is_number },
            peek_buffer :=
              { kind := .NUMBER,
                text := { data := tokenizer.source.data + ws.length,
                          chars := (c :: rest).takeWhile is_number } },
            peek_buffer_full := true } ∧
      (∀ x, ((c :: rest).dropWhile is_number).head? = some x →
        isalnum x = false ∧ x ≠ '.') ∧
      (∀ pre, pre <+: c :: rest → (∀ x ∈ pre, isalnum x = true ∨ x = '.') →
        pre.length ≤ ((c :: rest).takeWhile is_number).length) := by
  refine ⟨tokenizer_peek_digit tokenizer location ws c rest hfull hsrc hws hc, ?_, ?_⟩
  · intro x hx
    have := dropWhile_head_not _ _ x hx
    simpa [is_number] using this
  · intro pre hpre hall
    apply prefix_all_le_takeWhile _ _ pre hpre
    intro x hx
    simpa [is_number] using hall x hx

/-- Witness of C10: `12abc` is one number token, and `1.2.3x+` yields the
number `1.2.3x` and leaves `+`. -/
theorem permissive_numbers_witness :
    tokenizer_peek (tokenizer_from_sv ⟨0, "12abc".toList⟩) ⟨"b.basm", 1⟩ =
      .token { kind := .NUMBER, text := ⟨0, "12abc".toList⟩ }
        { source := ⟨5, []⟩, peek_buffer := { kind := .NUMBER, text := ⟨0, "12abc".toList⟩ },
          peek_buffer_full := true } ∧
    tokenizer_peek (tokenizer_from_sv ⟨0, "1.2.3x+".toList⟩) ⟨"b.basm", 1⟩ =
      .token { kind := .NUMBER, text := ⟨0, "1.2.3x".toList⟩ }
        { source := ⟨6, ['+']⟩, peek_buffer := { kind := .NUMBER, text := ⟨0, "1.2.3x".toList⟩ },
          peek_buffer_full := true } :=
  ⟨(permissive_numbers (tokenizer_from_sv ⟨0, "12abc".toList⟩) ⟨"b.basm", 1⟩ [] '1'
      "2abc".toList rfl rfl (by simp) (by decide)).1,
   (permissive_numbers (tokenizer_from_sv ⟨0, "1.2.3x+".toList⟩) ⟨"b.basm", 1⟩ [] '1'
      ".2.3x+".toList rfl rfl (by simp) (by decide)).1⟩

/-! ## C9: single-character punctuation -/

theorem hardcoded_char_class {h : Hardcoded_Token} {c : Char}
    (hmem : h ∈ hardcoded_bang_tokens) (hc : h.text.chars = [c]) :
    isspace c = false ∧ c ≠ '#' := by
  simp only [hardcoded_bang_tokens, List.mem_cons, List.mem_singleton, List.not_mem_nil,
    or_false] at hmem
  rcases hmem with rfl | rfl | rfl | rfl | rfl | rfl
  all_goals
    (simp only [SV, String.toList, List.cons.injEq, and_true] at hc
     subst hc
     decide)

/-- C9: single-character punctuation tables.  The table of the Generic
Tokenizer holds the characters `( ) { } / , % > < * + -`, that of the
Structured Lexer the characters `( ) { } ; :`, and within each table the
kinds are pairwise distinct.  Let `ws` be whitespace and the peek buffer be
empty.  If the source of the tokenizer is `ws c rest` with `c` in its table,
whatever `rest` is, `tokenizer_peek` returns the token whose kind is the table
entry of `c` and whose text is the one character `c`, and consumes exactly
that character.  The same holds for `bang_lexer_peek` when the current line is
`ws c rest`, and when the current line holds only whitespace and the rest of
the buffer is `ws c rest`. -/
theorem single_char_punctuation (tokenizer : Tokenizer) (location : File_Location)
    (lexer : Bang_Lexer) (ws ws1 : List Char) (c : Char) (rest : List Char)
    (kind : Token_Kind) (h : Hardcoded_Token) (hws : ∀ w ∈ ws, isspace w = true) :
    tokenizer_single_chars.map Prod.fst =
      ['(', ')', '{', '}', '/', ',', '%', '>', '<', '*', '+', '-'] ∧
    hardcoded_bang_tokens.map (fun e => e.text.chars) =
      [['('], [')'], ['{'], ['}'], [';'], [':']] ∧
    (tokenizer_single_chars.map Prod.snd).Nodup ∧
    (hardcoded_bang_tokens.map (fun e => e.kind)).Nodup ∧
    ((c, kind) ∈ tokenizer_single_chars → tokenizer.peek_buffer_full = false →
      tokenizer.source.chars = ws ++ c :: rest →
      tokenizer_peek tokenizer location =
        .token { kind := kind, text := ⟨tokenizer.source.data + ws.length, [c]⟩ }
          { source := ⟨tokenizer.source.data + ws.length + 1, rest⟩,
            peek_buffer := { kind := kind, text := ⟨tokenizer.source.data + ws.length, [c]⟩ },
            peek_buffer_full := true }) ∧
    (h ∈ hardcoded_bang_tokens → h.text.chars = [c] → lexer.peek_buffer_full = false →
      lexer.line_start ≤ lexer.line.data → lexer.line.chars = ws ++ c :: rest →
      bang_lexer_peek lexer =
        .token
          { kind := h.kind, text := ⟨lexer.line.data + ws.length, [c]⟩,
            loc := { row := lexer.row,
                     col := lexer.line.data + ws.length - lexer.line_start + 1,
                     file_path := lexer.file_path } }
          { lexer with
            line := ⟨lexer.line.data + ws.length + 1, rest⟩,
            peek_buffer :=
              { kind := h.kind, text := ⟨lexer.line.data + ws.length, [c]⟩,
                loc := { row := lexer.row,
                         col := lexer.line.data + ws.length - lexer.line_start + 1,
                         file_path := lexer.file_path } },
            peek_buffer_full := true }) ∧
    (h ∈ hardcoded_bang_tokens → h.text.chars = [c] → lexer.peek_buffer_full = false →
      lexer.line.chars = ws1 → (∀ w ∈ ws1, isspace w = true) →
      lexer.content.chars = ws ++ c :: rest →
      ∃ t lx, bang_lexer_peek lexer = .token t lx ∧ t.kind = h.kind ∧
        t.text = ⟨lexer.content.data + ws.length, [c]⟩ ∧
        lx.line = ⟨lexer.content.data + ws.length + 1,
                   rest.takeWhile (fun x => x != '\n')⟩) := by
  refine ⟨rfl, rfl, by decide, by decide, ?_, ?_, ?_⟩
  · intro hmem hfull hsrc
    obtain ⟨hl, _, _, hsp⟩ := tokenizer_single_chars_mem hmem
    rw [tokenizer_peek_eq_switch tokenizer location ws c rest hfull hsrc hws hsp]
    unfold tokenizer_switch
    rw [hl]
    simp [tokenizer_chop, sv_chop_left, String_View.count, tokenizer_store]
  · intro hmem hc hfull hstart hline
    obtain ⟨hsp, hhash⟩ := hardcoded_char_class hmem hc
    have hext := bang_lexer_extract_here lexer ws c rest hline hws hsp hhash
    have hspit := bang_lexer_spit_ok
      { lexer with line := { data := lexer.line.data + ws.length, chars := c :: rest } }
      h.kind 1 (by simp) hfull (Nat.le_trans hstart (Nat.le_add_right _ _))
    rw [bang_lexer_peek_eq_classify lexer c rest hfull (by rw [hext]), hext,
      bang_lexer_classify_hardcoded _ c rest h hmem hc rfl, hspit]
    simp [spit_result]
  · intro hmem hc hfull hline hws1 hcontent
    obtain ⟨hsp, hhash⟩ := hardcoded_char_class hmem hc
    obtain ⟨h1, h2, h3, h4⟩ :=
      bang_lexer_extract_below lexer ws1 ws c rest hline hws1 hcontent hws hsp hhash
    have hcn := not_newline_of_not_space hsp
    have hl : (bang_lexer_extract lexer).line.chars =
        c :: rest.takeWhile (fun x => x != '\n') := by
      rw [h1, List.takeWhile_cons, if_pos hcn]
    have hspit := bang_lexer_spit_ok (bang_lexer_extract lexer) h.kind 1
      (by rw [hl]; simp) (h3.trans hfull) h2
    refine ⟨(spit_result (bang_lexer_extract lexer) h.kind 1).1,
      (spit_result (bang_lexer_extract lexer) h.kind 1).2, ?_, rfl, ?_, ?_⟩
    · rw [bang_lexer_peek_eq_classify lexer c _ hfull hl,
        bang_lexer_classify_hardcoded _ c _ h hmem hc hl]
      exact hspit
    · simp only [spit_result, hl]
      rw [h1]
      simp
    · simp only [spit_result, hl]
      rw [h1]
      simp

/-- Witness of C9: `%x` for the Generic Tokenizer, `;x` on the current line
and on the next line for the Structured Lexer. -/
theorem single_char_punctuation_witness :
    tokenizer_peek (tokenizer_from_sv ⟨0, [' ', '%', 'x']⟩) ⟨"b.basm", 1⟩ =
      .token { kind := .MOD, text := ⟨1, ['%']⟩ }
        { source := ⟨2, ['x']⟩, peek_buffer := { kind := .MOD, text := ⟨1, ['%']⟩ },
          peek_buffer_full := true } ∧
    (∃ t lx, bang_lexer_peek (bang_lexer_from_sv ⟨0, [' ', ';', 'x']⟩ "a.bang") =
      .token t lx ∧ t.kind = .SEMICOLON ∧ t.text = ⟨1, [';']⟩ ∧ lx.line = ⟨2, ['x']⟩) := by
  have h := single_char_punctuation (tokenizer_from_sv ⟨0, [' ', '%', 'x']⟩) ⟨"b.basm", 1⟩
    (bang_lexer_from_sv ⟨0, [' ', ';', 'x']⟩ "a.bang") [' '] [] '%' ['x'] .MOD
    { kind := .SEMICOLON, text := SV ";" } (by decide)
  have h2 := single_char_punctuation (tokenizer_from_sv ⟨0, [' ', '%', 'x']⟩) ⟨"b.basm", 1⟩
    (bang_lexer_from_sv ⟨0, [' ', ';', 'x']⟩ "a.bang") [' '] [] ';' ['x'] .MOD
    { kind := .SEMICOLON, text := SV ";" } (by decide)
  exact ⟨h.2.2.2.2.1 (by decide) rfl rfl,
    h2.2.2.2.2.2.2 (by decide) rfl rfl rfl (by simp) rfl⟩

/-! ## C3: location tracking of the Structured Lexer -/

theorem lexer_shape_fresh (base : Nat) (buf : List Char) (file_path : String) :
    Lexer_Shape base buf (bang_lexer_from_sv ⟨base, buf⟩ file_path) :=
  Or.inl ⟨rfl, rfl, rfl, rfl⟩

theorem lexer_shape_trim {base : Nat} {buf : List Char} {lx : Bang_Lexer}
    (h : Lexer_Shape base buf lx) :
    Lexer_Shape base buf { lx with line := sv_trim_left lx.line } := by
  rcases h with ⟨h1, h2, h3, h4⟩ | ⟨pre, mid, tail, h1, h2, h3, h4, h5, h6, h7, h8, h9⟩
  · left
    refine ⟨h1, ?_, h3, h4⟩
    simp only [h2]
    rfl
  · right
    refine ⟨pre, mid ++ lx.line.chars.takeWhile isspace, tail, ?_, h2, ?_, ?_, h5, h6, ?_, h8,
      h9⟩
    · simp only [sv_trim_left]
      rw [h1]
      simp only [List.append_assoc]
      rw [← List.append_assoc (lx.line.chars.takeWhile isspace),
        List.takeWhile_append_dropWhile]
    · intro x hx
      rcases List.mem_append.mp hx with hx | hx
      · exact h3 x hx
      · exact h4 x ((List.takeWhile_prefix _).subset hx)
    · intro x hx
      exact h4 x ((List.dropWhile_suffix _).subset hx)
    · simp only [sv_trim_left, List.length_append]
      rw [h7]
      omega

theorem takeWhile_not_newline (l : List Char) :
    ∀ x ∈ l.takeWhile (fun x => x != '\n'), (x != '\n') = true := by
  intro x hx
  have hp := List.mem_takeWhile_imp hx
  exact hp

/-- The rest of a buffer behind its first line: empty, or a newline and the
view that `sv_chop_by_delim` leaves. -/
theorem chop_by_delim_rest (sv : String_View) :
    sv.chars = (sv_chop_by_delim sv '\n').1.chars ++
        sv.chars.drop (sv.chars.takeWhile (fun x => x != '\n')).length ∧
      (sv_chop_by_delim sv '\n').1.chars = sv.chars.takeWhile (fun x => x != '\n') ∧
      (sv_chop_by_delim sv '\n').1.data = sv.data ∧
      (sv_chop_by_delim sv '\n').2.data + (sv_chop_by_delim sv '\n').2.chars.length =
        sv.data + sv.chars.length ∧
      ((sv.chars.drop (sv.chars.takeWhile (fun x => x != '\n')).length = [] ∧
          (sv_chop_by_delim sv '\n').2.chars = []) ∨
        sv.chars.drop (sv.chars.takeWhile (fun x => x != '\n')).length =
          '\n' :: (sv_chop_by_delim sv '\n').2.chars) := by
  have hle := length_takeWhile_le (fun x => x != '\n') sv.chars
  refine ⟨?_, ?_, rfl, ?_, ?_⟩
  · simp only [sv_chop_by_delim]
    exact (List.take_append_drop _ _).symm
  · simp only [sv_chop_by_delim]
    exact take_length_takeWhile _ _
  · simp only [sv_chop_by_delim, String_View.count]
    split_ifs with hlt
    · simp only [List.length_drop]
      omega
    · simp only [List.length_drop]
      omega
  · simp only [sv_chop_by_delim, String_View.count]
    rw [drop_length_takeWhile]
    split_ifs with hlt
    · right
      cases hd : sv.chars.dropWhile (fun x => x != '\n') with
      | nil =>
        have := congrArg List.length (List.takeWhile_append_dropWhile (fun x => x != '\n')
          (l := sv.chars))
        rw [hd] at this
        simp at this
        omega
      | cons x xs =>
        have hx : x = '\n' := by
          have := dropWhile_head_not (fun x => x != '\n') sv.chars x (by rw [hd]; rfl)
          simpa using this
        subst hx
        have e : sv.chars.drop ((sv.chars.takeWhile (fun x => x != '\n')).length + 1) =
            (sv.chars.drop (sv.chars.takeWhile (fun x => x != '\n')).length).drop 1 := by
          rw [List.drop_drop, Nat.add_comm]
        rw [e, drop_length_takeWhile, hd]
        rfl
    · left
      have hge : sv.chars.length ≤ (sv.chars.takeWhile (fun x => x != '\n')).length := by
        omega
      have hnil : sv.chars.drop (sv.chars.takeWhile (fun x => x != '\n')).length = [] :=
        List.drop_eq_nil_of_le hge
      rw [drop_length_takeWhile] at hnil
      exact ⟨hnil, hnil⟩

theorem lexer_shape_next_line {base : Nat} {buf : List Char} {lx : Bang_Lexer}
    (h : Lexer_Shape base buf lx) (hcontent : lx.content.chars ≠ []) :
    Lexer_Shape base buf (bang_lexer_next_line lx) := by
  obtain ⟨c1, c2, c3, c4, c5⟩ := chop_by_delim_rest lx.content
  right
  rcases h with ⟨h1, h2, h3, h4⟩ | ⟨pre, mid, tail, h1, h2, h3, h4, h5, h6, h7, h8, h9⟩
  · refine ⟨[], [], lx.content.chars.drop
        (lx.content.chars.takeWhile (fun x => x != '\n')).length, ?_, rfl, ?_, ?_, ?_, ?_, ?_,
      ?_, ?_⟩
    · simp only [bang_lexer_next_line, List.nil_append]
      rw [← c1, h4]
    · simp
    · simp only [bang_lexer_next_line]
      rw [c2]
      exact takeWhile_not_newline _
    · simp [bang_lexer_next_line, h1]
    · simp [bang_lexer_next_line, sv_chop_by_delim, h4]
    · simp [bang_lexer_next_line, sv_chop_by_delim, h4]
    · simp only [bang_lexer_next_line]
      rw [c4, h4]
    · simp only [bang_lexer_next_line]
      exact c5
  · have htail : tail = '\n' :: lx.content.chars := by
      rcases h9 with ⟨_, h9⟩ | h9
      · exact (hcontent h9).elim
      · exact h9
    have hcount : (mid ++ lx.line.chars).count '\n' = 0 := by
      rw [List.count_eq_zero]
      intro hmem
      rcases List.mem_append.mp hmem with hm | hm
      · simpa using h3 _ hm
      · simpa using h4 _ hm
    refine ⟨pre ++ mid ++ lx.line.chars ++ ['\n'], [], lx.content.chars.drop
        (lx.content.chars.takeWhile (fun x => x != '\n')).length, ?_, ?_, ?_, ?_, ?_, ?_, ?_,
      ?_, ?_⟩
    · simp only [bang_lexer_next_line, List.append_nil]
      rw [List.append_assoc _ _ (lx.content.chars.drop _), ← c1, h1, htail]
      simp
    · simp
    · simp
    · simp only [bang_lexer_next_line]
      rw [c2]
      exact takeWhile_not_newline _
    · simp only [bang_lexer_next_line, h5]
      rw [List.append_assoc pre, List.count_append, List.count_append, hcount]
      simp
      omega
    · simp only [bang_lexer_next_line, c3]
      have := congrArg List.length h1
      rw [htail] at this
      simp at this ⊢
      omega
    · simp only [bang_lexer_next_line, c3]
      have := congrArg List.length h1
      rw [htail] at this
      simp at this ⊢
      omega
    · simp only [bang_lexer_next_line]
      rw [c4, h8]
    · simp only [bang_lexer_next_line]
      exact c5

theorem lexer_shape_skip_lines {base : Nat} {buf : List Char} (fuel : Nat) {lx : Bang_Lexer}
    (h : Lexer_Shape base buf lx) :
    Lexer_Shape base buf (bang_lexer_skip_lines fuel lx) ∧
      (bang_lexer_skip_lines fuel lx).peek_buffer_full = lx.peek_buffer_full ∧
      (bang_lexer_skip_lines fuel lx).peek_buffer = lx.peek_buffer := by
  induction fuel generalizing lx with
  | zero => exact ⟨h, rfl, rfl⟩
  | succ n ih =>
    unfold bang_lexer_skip_lines
    split_ifs with hcond
    · have hne : lx.content.chars ≠ [] := by
        simp only [Bool.and_eq_true, decide_eq_true_eq, String_View.count] at hcond
        exact List.length_pos.mp hcond.2
      have hs := lexer_shape_trim (lexer_shape_next_line h hne)
      obtain ⟨k1, k2, k3⟩ := ih hs
      exact ⟨k1, k2, k3⟩
    · exact ⟨h, rfl, rfl⟩

theorem lexer_shape_extract {base : Nat} {buf : List Char} {lx : Bang_Lexer}
    (h : Lexer_Shape base buf lx) :
    Lexer_Shape base buf (bang_lexer_extract lx) ∧
      (bang_lexer_extract lx).peek_buffer_full = lx.peek_buffer_full ∧
      (bang_lexer_extract lx).peek_buffer = lx.peek_buffer := by
  unfold bang_lexer_extract
  exact lexer_shape_skip_lines _ (lexer_shape_trim h)

/-- Every token of `bang_lexer_classify` comes out of `bang_lexer_spit_token`
with a positive size. -/
theorem bang_lexer_classify_token {lexer lx : Bang_Lexer} {c : Char} {rest : List Char}
    {t : Bang_Token} (h : bang_lexer_classify lexer c rest = .token t lx) :
    ∃ kind n, 0 < n ∧ bang_lexer_spit lexer kind n = .token t lx := by
  unfold bang_lexer_classify at h
  split at h
  · rename_i e hfind
    have hmem := List.mem_of_find?_eq_some hfind
    refine ⟨e.kind, e.text.count, ?_, h⟩
    simp only [hardcoded_bang_tokens, List.mem_cons, List.mem_singleton, List.not_mem_nil,
      or_false] at hmem
    rcases hmem with rfl | rfl | rfl | rfl | rfl | rfl
    all_goals decide
  · simp only at h
    split_ifs at h with h1 h2 h3 h4
    · exact ⟨_, _, h1, h⟩
    · exact (bang_lexer_fatal_ne_token h).elim
    · exact ⟨_, _, Nat.succ_pos _, h⟩
    · exact (bang_lexer_fatal_ne_token h).elim

theorem lexer_shape_spit {base : Nat} {buf : List Char} {lexer lx : Bang_Lexer}
    {kind : Bang_Token_Kind} {n : Nat} {t : Bang_Token}
    (hshape : Lexer_Shape base buf lexer) (hn : 0 < n)
    (h : bang_lexer_spit lexer kind n = .token t lx) :
    Lexer_Inv base buf lx ∧ Token_Located base buf t ∧ lx.peek_buffer = t := by
  rw [bang_lexer_spit_eq] at h
  split_ifs at h with hcond
  obtain ⟨hlen, hfull, hstart⟩ := hcond
  cases h
  rcases hshape with ⟨h1, h2, h3, h4⟩ | ⟨pre, mid, tail, h1, h2, h3, h4, h5, h6, h7, h8, h9⟩
  · rw [h2] at hlen
    simp at hlen
    omega
  · have hoff : lexer.line.data - base = (pre ++ mid).length := by
      rw [h7, List.length_append]
      omega
    have htake : buf.take (pre ++ mid).length = pre ++ mid := by
      rw [h1, List.append_assoc, List.append_assoc, ← List.append_assoc pre mid]
      exact List.take_left' rfl
    have hdrop : buf.drop (pre ++ mid).length = lexer.line.chars ++ tail := by
      rw [h1, List.append_assoc, List.append_assoc, ← List.append_assoc pre mid]
      exact List.drop_left' rfl
    have hmidcount : mid.count '\n' = 0 := by
      rw [List.count_eq_zero]
      intro hmem
      simpa using h3 _ hmem
    have hloc : Token_Located base buf (spit_result lexer kind n).1 := by
      refine ⟨?_, ?_, ?_, ?_, ?_⟩
      · simp only [spit_result]
        omega
      · simp only [spit_result]
        intro hnil
        have := congrArg List.length hnil
        simp only [List.length_take, List.length_nil] at this
        omega
      · simp only [spit_result]
        rw [hoff, hdrop, List.length_take, Nat.min_eq_left hlen,
          List.take_append_of_le_length hlen]
      · simp only [spit_result, row_of]
        rw [hoff, htake, List.count_append, hmidcount, h5]
        rfl
      · simp only [spit_result, col_of]
        rw [hoff, htake, List.reverse_append,
          takeWhile_append_of_all (fun x hx => h3 x (List.mem_reverse.mp hx)), h2, h7, h6]
        simp
        omega
    refine ⟨⟨?_, fun _ => hloc⟩, hloc, rfl⟩
    right
    refine ⟨pre, mid ++ lexer.line.chars.take n, tail, ?_, h2, ?_, ?_, h5, h6, ?_, h8, h9⟩
    · simp only [spit_result]
      rw [h1]
      simp only [List.append_assoc]
      rw [← List.append_assoc (lexer.line.chars.take n), List.take_append_drop]
    · intro x hx
      rcases List.mem_append.mp hx with hx | hx
      · exact h3 x hx
      · exact h4 x (List.mem_of_mem_take hx)
    · intro x hx
      exact h4 x (List.mem_of_mem_drop hx)
    · simp only [spit_result, List.length_append, List.length_take]
      rw [h7, Nat.min_eq_left hlen]
      omega

theorem lexer_inv_peek {base : Nat} {buf : List Char} {lexer : Bang_Lexer}
    (hinv : Lexer_Inv base buf lexer) :
    (∀ t lx, bang_lexer_peek lexer = .token t lx →
      Lexer_Inv base buf lx ∧ Token_Located base buf t ∧ lx.peek_buffer = t) ∧
    (∀ lx, bang_lexer_peek lexer = .no_token lx →
      Lexer_Shape base buf lx ∧ lx.peek_buffer_full = false) := by
  obtain ⟨hshape, hbuf⟩ := hinv
  obtain ⟨e1, e2, e3⟩ := lexer_shape_extract hshape
  constructor
  · intro t lx h
    unfold bang_lexer_peek at h
    split_ifs at h with hfull
    · cases h
      exact ⟨⟨hshape, hbuf⟩, hbuf hfull, rfl⟩
    · split at h
      · cases h
      · rename_i c rest hline
        obtain ⟨kind, n, hn, hspit⟩ := bang_lexer_classify_token h
        exact lexer_shape_spit e1 hn hspit
  · intro lx h
    unfold bang_lexer_peek at h
    split_ifs at h with hfull
    split at h
    · cases h
      refine ⟨e1, ?_⟩
      rw [e2]
      simpa using hfull
    · rename_i c rest hline
      exfalso
      unfold bang_lexer_classify at h
      split at h
      · rw [bang_lexer_spit_eq] at h
        split_ifs at h
      · simp only at h
        split_ifs at h
        all_goals first
          | (rw [bang_lexer_spit_eq] at h
             split_ifs at h)
          | (unfold bang_lexer_fatal at h
             split at h <;> cases h)

theorem lexer_inv_step {base : Nat} {buf : List Char} {lexer : Bang_Lexer}
    (hinv : Lexer_Inv base buf lexer) (call : Lexer_Call) :
    (∀ t lx, (match call with
              | .peek => bang_lexer_peek lexer
              | .next => bang_lexer_next lexer) = .token t lx →
      Lexer_Inv base buf lx ∧ Token_Located base buf t) ∧
    (∀ lx, (match call with
            | .peek => bang_lexer_peek lexer
            | .next => bang_lexer_next lexer) = .no_token lx → Lexer_Inv base buf lx) := by
  obtain ⟨hp1, hp2⟩ := lexer_inv_peek hinv
  cases call with
  | peek =>
    refine ⟨fun t lx h => ?_, fun lx h => ?_⟩
    · obtain ⟨k1, k2, _⟩ := hp1 t lx h
      exact ⟨k1, k2⟩
    · obtain ⟨k1, k2⟩ := hp2 lx h
      exact ⟨k1, fun hf => by rw [k2] at hf; cases hf⟩
  | next =>
    refine ⟨fun t lx h => ?_, fun lx h => ?_⟩
    · simp only [bang_lexer_next] at h
      cases hp : bang_lexer_peek lexer with
      | token t1 lx1 =>
        rw [hp] at h
        cases h
        obtain ⟨k1, k2, _⟩ := hp1 _ _ hp
        exact ⟨⟨k1.1, fun hf => by cases hf⟩, k2⟩
      | no_token lx1 => rw [hp] at h; cases h
      | fatal a b c => rw [hp] at h; cases h
      | assert_failed => rw [hp] at h; cases h
    · simp only [bang_lexer_next] at h
      cases hp : bang_lexer_peek lexer with
      | token t1 lx1 => rw [hp] at h; cases h
      | no_token lx1 =>
        rw [hp] at h
        cases h
        obtain ⟨k1, k2⟩ := hp2 _ hp
        exact ⟨k1, fun hf => by rw [k2] at hf; cases hf⟩
      | fatal a b c => rw [hp] at h; cases h
      | assert_failed => rw [hp] at h; cases h

theorem lexer_inv_run {base : Nat} {buf : List Char} (calls : List Lexer_Call)
    {lexer lx : Bang_Lexer} (hinv : Lexer_Inv base buf lexer)
    (hrun : bang_lexer_run calls lexer = some lx) : Lexer_Inv base buf lx := by
  induction calls generalizing lexer with
  | nil =>
    simp only [bang_lexer_run, Option.some.injEq] at hrun
    rw [← hrun]
    exact hinv
  | cons call calls ih =>
    obtain ⟨h1, h2⟩ := lexer_inv_step hinv call
    simp only [bang_lexer_run] at hrun
    split at hrun
    · rename_i t lx1 heq
      exact ih (h1 t lx1 heq).1 hrun
    · rename_i lx1 heq
      exact ih (h2 lx1 heq) hrun
    · cases hrun

/-- C3: location tracking of the Structured Lexer.  Take a lexer freshly
constructed on the buffer `buf` stored at address `base` and let it make any
sequence of `peek` / `next` calls that return.  Every token that
`bang_lexer_next` then returns is a non-empty slice of the buffer, its row is
1 plus the number of newline characters before its first character, and its
column is 1 plus the number of characters between the start of the physical
line and its first character. -/
theorem location_tracking (base : Nat) (buf : List Char) (file_path : String)
    (calls : List Lexer_Call) (lexer lx : Bang_Lexer) (t : Bang_Token)
    (hrun : bang_lexer_run calls (bang_lexer_from_sv ⟨base, buf⟩ file_path) = some lexer)
    (hnext : bang_lexer_next lexer = .token t lx) :
    base ≤ t.text.data ∧ t.text.chars ≠ [] ∧
    (buf.drop (t.text.data - base)).take t.text.count = t.text.chars ∧
    t.loc.row = 1 + (buf.take (t.text.data - base)).count '\n' ∧
    t.loc.col = 1 +
      ((buf.take (t.text.data - base)).reverse.takeWhile (fun x => x != '\n')).length := by
  have hfresh : Lexer_Inv base buf (bang_lexer_from_sv ⟨base, buf⟩ file_path) :=
    ⟨lexer_shape_fresh base buf file_path, fun hf => by cases hf⟩
  have hinv := lexer_inv_run calls hfresh hrun
  exact ((lexer_inv_step hinv .next).1 t lx hnext).2

/-- Witness of C3: for the input `foo`, newline, two spaces, `bar`, the token
`foo` has row 1 and column 1 and the token `bar` has row 2 and column 3. -/
theorem location_tracking_witness :
    (∃ t lx, bang_lexer_next (bang_lexer_from_sv ⟨0, "foo\n  bar".toList⟩ "a.bang") =
        .token t lx ∧ t.text = ⟨0, "foo".toList⟩ ∧ t.loc.row = 1 ∧ t.loc.col = 1) ∧
    (∃ lexer t lx,
        bang_lexer_run [.next] (bang_lexer_from_sv ⟨0, "foo\n  bar".toList⟩ "a.bang") =
          some lexer ∧
        bang_lexer_next lexer = .token t lx ∧ t.text = ⟨6, "bar".toList⟩ ∧
        t.loc.row = 1 + (("foo\n  bar".toList).take (6 - 0)).count '\n' ∧ t.loc.row = 2 ∧
        t.loc.col = 3) := by
  have h1 : bang_lexer_next (bang_lexer_from_sv ⟨0, "foo\n  bar".toList⟩ "a.bang") =
      .token ⟨.NAME, ⟨0, "foo".toList⟩, ⟨1, 1, "a.bang"⟩⟩
        { bang_lexer_from_sv ⟨4, "  bar".toList⟩ "a.bang" with
          line := ⟨3, []⟩, row := 1,
          peek_buffer := ⟨.NAME, ⟨0, "foo".toList⟩, ⟨1, 1, "a.bang"⟩⟩ } := by decide
  have h2 : bang_lexer_next
      { bang_lexer_from_sv ⟨4, "  bar".toList⟩ "a.bang" with
        line := ⟨3, []⟩, row := 1,
        peek_buffer := ⟨.NAME, ⟨0, "foo".toList⟩, ⟨1, 1, "a.bang"⟩⟩ } =
      .token ⟨.NAME, ⟨6, "bar".toList⟩, ⟨2, 3, "a.bang"⟩⟩
        { bang_lexer_from_sv ⟨9, []⟩ "a.bang" with
          line := ⟨9, []⟩, row := 2, line_start := 4,
          peek_buffer := ⟨.NAME, ⟨6, "bar".toList⟩, ⟨2, 3, "a.bang"⟩⟩ } := by decide
  have hrun : bang_lexer_run [.next] (bang_lexer_from_sv ⟨0, "foo\n  bar".toList⟩ "a.bang") =
      some { bang_lexer_from_sv ⟨4, "  bar".toList⟩ "a.bang" with
        line := ⟨3, []⟩, row := 1,
        peek_buffer := ⟨.NAME, ⟨0, "foo".toList⟩, ⟨1, 1, "a.bang"⟩⟩ } := by decide
  have k := location_tracking 0 "foo\n  bar".toList "a.bang" [.next] _ _ _ hrun h2
  exact ⟨⟨_, _, h1, rfl, rfl, rfl⟩, ⟨_, _, _, hrun, h2, rfl, k.2.2.2.1, rfl, rfl⟩⟩

/-! ## The skipping loop runs to completion -/

theorem next_line_content_lt (lexer : Bang_Lexer) (h : lexer.content.chars ≠ []) :
    (bang_lexer_next_line lexer).content.chars.length < lexer.content.chars.length := by
  obtain ⟨c1, c2, _, _, c5⟩ := chop_by_delim_rest lexer.content
  have hlen := congrArg List.length c1
  simp only [List.length_append] at hlen
  simp only [bang_lexer_next_line]
  rcases c5 with ⟨_, h2⟩ | h2
  · rw [h2]
    exact List.length_pos.mpr h
  · rw [h2] at hlen
    simp only [List.length_cons] at hlen
    omega

/-- With `content.count` rounds of fuel the skipping loop stops because its
condition is false, as the `while` loop of `bang_lexer_peek` does: the
embedding never runs out of fuel. -/
theorem bang_lexer_skip_lines_done (fuel : Nat) (lexer : Bang_Lexer)
    (hfuel : lexer.content.count ≤ fuel) :
    (((bang_lexer_skip_lines fuel lexer).line.count == 0 ||
        (bang_lexer_skip_lines fuel lexer).line.chars.head? == some '#') &&
      decide ((bang_lexer_skip_lines fuel lexer).content.count > 0)) = false := by
  induction fuel generalizing lexer with
  | zero =>
    have h0 : lexer.content.count = 0 := Nat.le_zero.mp hfuel
    simp [bang_lexer_skip_lines, h0]
  | succ n ih =>
    unfold bang_lexer_skip_lines
    split_ifs with hcond
    · have hne : lexer.content.chars ≠ [] := by
        simp only [Bool.and_eq_true, decide_eq_true_eq, String_View.count] at hcond
        exact List.length_pos.mp hcond.2
      apply ih
      have hlt := next_line_content_lt lexer hne
      simp only [String_View.count] at hfuel ⊢
      omega
    · simpa using hcond

/-! ## String literals of the Structured Lexer: the classification -/

theorem find_hardcoded_none (lexer : Bang_Lexer) (c : Char) (l : List Char)
    (hline : lexer.line.chars = c :: l)
    (hc : c ≠ '(' ∧ c ≠ ')' ∧ c ≠ '{' ∧ c ≠ '}' ∧ c ≠ ';' ∧ c ≠ ':') :
    hardcoded_bang_tokens.find? (fun h => sv_starts_with lexer.line h.text) = none := by
  obtain ⟨h1, h2, h3, h4, h5, h6⟩ := hc
  simp [hardcoded_bang_tokens, sv_starts_with, hline, SV, Ne.symm h1, Ne.symm h2,
    Ne.symm h3, Ne.symm h4, Ne.symm h5, Ne.symm h6]

theorem scan_while_append (p : Char → Bool) (s : List Char) (x : Char) (r : List Char)
    (hs : ∀ y ∈ s, p y = true) (hx : p x = false) :
    scan_while p (s ++ x :: r) = s.length := by
  rw [scan_while_eq, takeWhile_append_of_all hs, List.takeWhile_cons]
  simp [hx]

theorem scan_while_all (p : Char → Bool) (s : List Char) (hs : ∀ y ∈ s, p y = true) :
    scan_while p s = s.length := by
  have h := takeWhile_append_of_all hs []
  rw [scan_while_eq]
  simp only [List.append_nil, List.takeWhile_nil] at h
  rw [h]

theorem not_dquote_of_not_mem {s : List Char} (hs : '"' ∉ s) :
    ∀ y ∈ s, (y != '"') = true := by
  intro y hy
  have : y ≠ '"' := fun e => hs (e ▸ hy)
  simpa using this

theorem get?_append_length (s : List Char) (x : Char) (r : List Char) :
    (s ++ x :: r).get? s.length = some x := by
  induction s with
  | nil => rfl
  | cons y ys ih => simpa using ih

theorem scan_name_dquote (l : List Char) : scan_while bang_is_name ('"' :: l) = 0 := by
  have h : bang_is_name '"' = false := by decide
  simp [scan_while, h]

theorem bang_lexer_classify_closed (lexer : Bang_Lexer) (s r : List Char)
    (hline : lexer.line.chars = '"' :: (s ++ '"' :: r)) (hs : '"' ∉ s) :
    bang_lexer_classify lexer '"' (s ++ '"' :: r) =
      bang_lexer_spit lexer .LIT_STR (1 + s.length + 1) := by
  have hfind := find_hardcoded_none lexer '"' _ hline (by decide)
  have hq := scan_while_append (fun x => x != '"') s '"' r (not_dquote_of_not_mem hs)
    (by decide)
  have hget : lexer.line.chars.get? (1 + s.length) = some '"' := by
    rw [hline, Nat.add_comm, List.get?_cons_succ]
    exact get?_append_length s '"' r
  have hlt : ¬ (1 + s.length ≥ lexer.line.count) := by
    simp only [String_View.count, hline, List.length_cons, List.length_append]
    omega
  unfold bang_lexer_classify
  rw [hfind]
  simp only [hq]
  rw [hline, scan_name_dquote, ← hline, if_neg (Nat.lt_irrefl 0), if_pos trivial, if_neg hlt,
    if_neg (not_not.mpr hget)]

theorem bang_lexer_classify_open (lexer : Bang_Lexer) (s : List Char)
    (hline : lexer.line.chars = '"' :: s) (hs : '"' ∉ s) :
    bang_lexer_classify lexer '"' s =
      bang_lexer_fatal lexer ": ERROR: unclosed string literal" := by
  have hfind := find_hardcoded_none lexer '"' _ hline (by decide)
  have hq := scan_while_all (fun x => x != '"') s (not_dquote_of_not_mem hs)
  have hge : 1 + s.length ≥ lexer.line.count := by
    simp only [String_View.count, hline, List.length_cons]
    omega
  unfold bang_lexer_classify
  rw [hfind]
  simp only [hq]
  rw [hline, scan_name_dquote, ← hline, if_neg (Nat.lt_irrefl 0), if_pos trivial, if_pos hge]

/-! ## The outcomes of `peek` and `next` -/

theorem bang_lexer_spit_ne_no_token {lexer lx : Bang_Lexer} {kind : Bang_Token_Kind} {n : Nat}
    (h : bang_lexer_spit lexer kind n = .no_token lx) : False := by
  rw [bang_lexer_spit_eq] at h
  split_ifs at h

theorem bang_lexer_fatal_ne_no_token {lexer lx : Bang_Lexer} {msg : String}
    (h : bang_lexer_fatal lexer msg = .no_token lx) : False := by
  unfold bang_lexer_fatal at h
  split at h <;> cases h

theorem bang_lexer_classify_ne_no_token {lexer lx : Bang_Lexer} {c : Char} {rest : List Char}
    (h : bang_lexer_classify lexer c rest = .no_token lx) : False := by
  unfold bang_lexer_classify at h
  split at h
  · exact bang_lexer_spit_ne_no_token h
  · simp only at h
    split_ifs at h
    all_goals first
      | exact bang_lexer_spit_ne_no_token h
      | exact bang_lexer_fatal_ne_no_token h

theorem bang_lexer_peek_no_token {lexer lx : Bang_Lexer}
    (h : bang_lexer_peek lexer = .no_token lx) :
    lexer.peek_buffer_full = false ∧ lx = bang_lexer_extract lexer ∧ lx.line.chars = [] := by
  unfold bang_lexer_peek at h
  split_ifs at h with hfull
  split at h
  · rename_i hline
    cases h
    exact ⟨by simpa using hfull, rfl, hline⟩
  · exact (bang_lexer_classify_ne_no_token h).elim

theorem bang_lexer_next_no_token {lexer lx : Bang_Lexer}
    (h : bang_lexer_next lexer = .no_token lx) : bang_lexer_peek lexer = .no_token lx := by
  unfold bang_lexer_next at h
  split at h
  · cases h
  · exact h

theorem bang_lexer_next_token {lexer lx : Bang_Lexer} {t : Bang_Token}
    (h : bang_lexer_next lexer = .token t lx) :
    ∃ lx1, bang_lexer_peek lexer = .token t lx1 ∧ lx = { lx1 with peek_buffer_full := false } := by
  unfold bang_lexer_next at h
  split at h
  · rename_i t1 lx1 hp
    cases h
    exact ⟨lx1, hp, rfl⟩
  · rename_i hne
    exact (hne t lx h).elim

theorem lexer_start_skip_lines (fuel : Nat) (lexer : Bang_Lexer)
    (hstart : lexer.line_start ≤ lexer.line.data) :
    (bang_lexer_skip_lines fuel lexer).line_start ≤
      (bang_lexer_skip_lines fuel lexer).line.data := by
  induction fuel generalizing lexer with
  | zero => exact hstart
  | succ n ih =>
    unfold bang_lexer_skip_lines
    split_ifs
    · apply ih
      simp only [bang_lexer_next_line, sv_trim_left]
      exact Nat.le_add_right _ _
    · exact hstart

theorem lexer_start_extract (lexer : Bang_Lexer)
    (hstart : lexer.line_start ≤ lexer.line.data) :
    (bang_lexer_extract lexer).line_start ≤ (bang_lexer_extract lexer).line.data := by
  unfold bang_lexer_extract
  apply lexer_start_skip_lines
  simp only [sv_trim_left]
  exact Nat.le_trans hstart (Nat.le_add_right _ _)

theorem bang_lexer_expect_token_ok {lexer lx : Bang_Lexer} {BK : Bang_Token_Kind}
    {bt : Bang_Token} (h : bang_lexer_next lexer = .token bt lx) (hk : bt.kind = BK) :
    bang_lexer_expect_token lexer BK = .token bt lx := by
  simp only [bang_lexer_expect_token, h, hk, ne_eq, not_true_eq_false, if_false]

theorem bang_lexer_expect_token_eof {lexer lx : Bang_Lexer} (BK : Bang_Token_Kind)
    (hstart : lexer.line_start ≤ lexer.line.data)
    (h : bang_lexer_next lexer = .no_token lx) :
    bang_lexer_expect_token lexer BK =
      .fatal 1
        { row := lx.row, col := lx.line.data - lx.line_start + 1, file_path := lx.file_path }
        (": ERROR: expected token `" ++ bang_token_kind_name BK ++
          "` but reached the end of the file\n") := by
  obtain ⟨_, hlx, _⟩ := bang_lexer_peek_no_token (bang_lexer_next_no_token h)
  have hle := lexer_start_extract lexer hstart
  rw [← hlx] at hle
  simp only [bang_lexer_expect_token, h, bang_lexer_fatal, bang_lexer_loc, hle, if_true]

theorem bang_lexer_expect_token_mismatch {lexer lx : Bang_Lexer} {BK : Bang_Token_Kind}
    {bt : Bang_Token} (h : bang_lexer_next lexer = .token bt lx) (hk : bt.kind ≠ BK) :
    bang_lexer_expect_token lexer BK =
      .fatal 1 bt.loc
        (": ERROR expected token `" ++ bang_token_kind_name BK ++ "` but got `" ++
          bang_token_kind_name bt.kind ++ "`\n") := by
  simp only [bang_lexer_expect_token, h, ne_eq, hk, not_false_eq_true, if_true]

/-! ## C13: `expect_token` -/

/-- C13: the helper `expect_token` of both analyzers (`expect_token_next` and
`bang_lexer_expect_token`), for every expected kind.  If `next` yields a token
of the expected kind, the helper returns exactly that token and the state
that `next` leaves, whose peek buffer is empty.  If `next` yields no token,
the helper takes the fatal end-of-input path with status 1 and returns
nothing (for the Structured Lexer in every state with
`line_start <= line.data`, which the diagnostic asserts).  If `next` yields a
token of another kind, the helper takes the fatal kind-mismatch path with
status 1 and returns nothing. -/
theorem expect_token_contract (token_kind_name : Token_Kind → String)
    (tokenizer tk : Tokenizer) (location : File_Location) (K : Token_Kind) (t : Token)
    (lexer lx : Bang_Lexer) (BK : Bang_Token_Kind) (bt : Bang_Token) :
    (tokenizer_next tokenizer location = .token t tk → t.kind = K →
      expect_token_next token_kind_name tokenizer K location = .token t tk ∧
      tk.peek_buffer_full = false) ∧
    (tokenizer_next tokenizer location = .no_token tk →
      expect_token_next token_kind_name tokenizer K location =
        .fatal 1 location (": ERROR: expected token `" ++ token_kind_name K ++ "`\n")) ∧
    (tokenizer_next tokenizer location = .token t tk → t.kind ≠ K →
      expect_token_next token_kind_name tokenizer K location =
        .fatal 1 location
          (": ERROR: expected token `" ++ token_kind_name K ++ "`, but got `" ++
            token_kind_name t.kind ++ "`\n")) ∧
    (bang_lexer_next lexer = .token bt lx → bt.kind = BK →
      bang_lexer_expect_token lexer BK = .token bt lx ∧ lx.peek_buffer_full = false) ∧
    (lexer.line_start ≤ lexer.line.data → bang_lexer_next lexer = .no_token lx →
      bang_lexer_expect_token lexer BK =
        .fatal 1
          { row := lx.row, col := lx.line.data - lx.line_start + 1, file_path := lx.file_path }
          (": ERROR: expected token `" ++ bang_token_kind_name BK ++
            "` but reached the end of the file\n")) ∧
    (bang_lexer_next lexer = .token bt lx → bt.kind ≠ BK →
      bang_lexer_expect_token lexer BK =
        .fatal 1 bt.loc
          (": ERROR expected token `" ++ bang_token_kind_name BK ++ "` but got `" ++
            bang_token_kind_name bt.kind ++ "`\n")) := by
  refine ⟨?_, ?_, ?_, ?_, ?_, ?_⟩
  · intro h hk
    refine ⟨?_, ?_⟩
    · simp only [expect_token_next, h, hk, ne_eq, not_true_eq_false, if_false]
    · unfold tokenizer_next at h
      split at h
      · cases h
        rfl
      · rename_i hne
        exact (hne t tk h).elim
  · intro h
    simp only [expect_token_next, h]
  · intro h hk
    simp only [expect_token_next, h, ne_eq, hk, not_false_eq_true, if_true]
  · intro h hk
    refine ⟨bang_lexer_expect_token_ok h hk, ?_⟩
    obtain ⟨lx1, _, rfl⟩ := bang_lexer_next_token h
    rfl
  · intro hstart h
    exact bang_lexer_expect_token_eof BK hstart h
  · intro h hk
    exact bang_lexer_expect_token_mismatch h hk

/-- Witness of C13: `expect_token_next` returns the keyword of the input `to`
when `to` is expected, and `bang_lexer_expect_token` is fatal on the input `(`
when a name is expected and on the empty input. -/
theorem expect_token_contract_witness :
    (expect_token_next (fun _ => "kind") (tokenizer_from_sv ⟨0, ['t', 'o']⟩) .TO
        ⟨"b.basm", 1⟩ =
      .token ⟨.TO, ⟨0, ['t', 'o']⟩⟩
        { source := ⟨2, []⟩, peek_buffer := ⟨.TO, ⟨0, ['t', 'o']⟩⟩, peek_buffer_full := false } ∧
      false = false) ∧
    bang_lexer_expect_token (bang_lexer_from_sv ⟨0, []⟩ "a.bang") .NAME =
      .fatal 1 { row := 0, col := 0 - 0 + 1, file_path := "a.bang" }
        (": ERROR: expected token `" ++ bang_token_kind_name .NAME ++
          "` but reached the end of the file\n") ∧
    bang_lexer_expect_token (bang_lexer_from_sv ⟨0, ['(']⟩ "a.bang") .NAME =
      .fatal 1 ⟨1, 1, "a.bang"⟩
        (": ERROR expected token `" ++ bang_token_kind_name .NAME ++ "` but got `" ++
          bang_token_kind_name .OPEN_PAREN ++ "`\n") :=
  ⟨(expect_token_contract (fun _ => "kind") (tokenizer_from_sv ⟨0, ['t', 'o']⟩)
      { source := ⟨2, []⟩, peek_buffer := ⟨.TO, ⟨0, ['t', 'o']⟩⟩, peek_buffer_full := false }
      ⟨"b.basm", 1⟩ .TO ⟨.TO, ⟨0, ['t', 'o']⟩⟩
      (bang_lexer_from_sv ⟨0, []⟩ "a.bang") (bang_lexer_from_sv ⟨0, []⟩ "a.bang") .NAME
      ⟨.OPEN_PAREN, ⟨0, ['(']⟩, ⟨1, 1, "a.bang"⟩⟩).1 (by decide) rfl,
   (expect_token_contract (fun _ => "kind") (tokenizer_from_sv ⟨0, ['t', 'o']⟩)
      { source := ⟨2, []⟩, peek_buffer := ⟨.TO, ⟨0, ['t', 'o']⟩⟩, peek_buffer_full := false }
      ⟨"b.basm", 1⟩ .TO ⟨.TO, ⟨0, ['t', 'o']⟩⟩
      (bang_lexer_from_sv ⟨0, []⟩ "a.bang") (bang_lexer_from_sv ⟨0, []⟩ "a.bang") .NAME
      ⟨.OPEN_PAREN, ⟨0, ['(']⟩, ⟨1, 1, "a.bang"⟩⟩).2.2.2.2.1 (by decide) (by decide),
   (expect_token_contract (fun _ => "kind") (tokenizer_from_sv ⟨0, ['t', 'o']⟩)
      { source := ⟨2, []⟩, peek_buffer := ⟨.TO, ⟨0, ['t', 'o']⟩⟩, peek_buffer_full := false }
      ⟨"b.basm", 1⟩ .TO ⟨.TO, ⟨0, ['t', 'o']⟩⟩
      (bang_lexer_from_sv ⟨0, ['(']⟩ "a.bang")
      { bang_lexer_from_sv ⟨1, []⟩ "a.bang" with
        line := ⟨1, []⟩, row := 1,
        peek_buffer := ⟨.OPEN_PAREN, ⟨0, ['(']⟩, ⟨1, 1, "a.bang"⟩⟩ }
      .NAME ⟨.OPEN_PAREN, ⟨0, ['(']⟩, ⟨1, 1, "a.bang"⟩⟩).2.2.2.2.2 (by decide) (by decide)⟩

/-! ## C14: `expect_keyword` -/

/-- C14: `bang_lexer_expect_keyword`.  The helper returns a token `t` (and
the state `lx`) if and only if `bang_lexer_next` returns `t` (and `lx`), `t`
has kind name and its text is `name`, character for character.  A token of
another kind, the end of the input (in a state with
`line_start <= line.data`) and a name token whose text differs from `name`
each take a fatal path with status 1. -/
theorem expect_keyword_contract (lexer lx : Bang_Lexer) (name : String_View) (t : Bang_Token) :
    (bang_lexer_expect_keyword lexer name = .token t lx ↔
      bang_lexer_next lexer = .token t lx ∧ t.kind = .NAME ∧ t.text.chars = name.chars) ∧
    (bang_lexer_next lexer = .token t lx → t.kind ≠ .NAME →
      ∃ msg, bang_lexer_expect_keyword lexer name = .fatal 1 t.loc msg) ∧
    (lexer.line_start ≤ lexer.line.data → bang_lexer_next lexer = .no_token lx →
      ∃ loc msg, bang_lexer_expect_keyword lexer name = .fatal 1 loc msg) ∧
    (bang_lexer_next lexer = .token t lx → t.kind = .NAME → t.text.chars ≠ name.chars →
      bang_lexer_expect_keyword lexer name =
        .fatal 1 t.loc
          (": ERROR: expected keyword `" ++ sv_fmt name ++ "` but got `" ++
            sv_fmt t.text ++ "`\n")) := by
  refine ⟨⟨?_, ?_⟩, ?_, ?_, ?_⟩
  · intro h
    unfold bang_lexer_expect_keyword at h
    split at h
    · rename_i t1 lx1 he
      split_ifs at h with hne
      cases h
      have heq : t.text.chars = name.chars := by simpa [sv_eq] using hne
      unfold bang_lexer_expect_token at he
      split at he
      · unfold bang_lexer_fatal at he
        split at he <;> cases he
      · rename_i t2 lx2 hn
        split_ifs at he with hk
        cases he
        exact ⟨hn, by simpa using hk, heq⟩
      · rename_i h1 h2
        exact (h2 _ _ he).elim
    · rename_i hne
      exact (hne _ _ h).elim
  · rintro ⟨hn, hk, heq⟩
    have he := bang_lexer_expect_token_ok hn hk
    simp [bang_lexer_expect_keyword, he, sv_eq, heq]
  · intro hn hk
    have he := bang_lexer_expect_token_mismatch hn hk
    unfold bang_lexer_expect_keyword
    rw [he]
    exact ⟨_, rfl⟩
  · intro hstart hn
    have he := bang_lexer_expect_token_eof .NAME hstart hn
    unfold bang_lexer_expect_keyword
    rw [he]
    exact ⟨_, _, rfl⟩
  · intro hn hk hne
    have he := bang_lexer_expect_token_ok hn hk
    simp [bang_lexer_expect_keyword, he, sv_eq, hne]

/-- Witness of C14: on the input `proc x` the keyword `proc` is returned, and
its proper prefix `pro` and its extension `procs` are fatal. -/
theorem expect_keyword_contract_witness :
    bang_lexer_expect_keyword (bang_lexer_from_sv ⟨0, "proc x".toList⟩ "a.bang") (SV "proc") =
      .token ex_proc_token ex_proc_lexer ∧
    bang_lexer_expect_keyword (bang_lexer_from_sv ⟨0, "proc x".toList⟩ "a.bang") (SV "pro") =
      .fatal 1 ⟨1, 1, "a.bang"⟩ ": ERROR: expected keyword `pro` but got `proc`\n" ∧
    bang_lexer_expect_keyword (bang_lexer_from_sv ⟨0, "proc x".toList⟩ "a.bang") (SV "procs") =
      .fatal 1 ⟨1, 1, "a.bang"⟩ ": ERROR: expected keyword `procs` but got `proc`\n" :=
  ⟨(expect_keyword_contract (bang_lexer_from_sv ⟨0, "proc x".toList⟩ "a.bang") ex_proc_lexer
      (SV "proc") ex_proc_token).1.mpr ⟨by decide, rfl, rfl⟩,
   (expect_keyword_contract (bang_lexer_from_sv ⟨0, "proc x".toList⟩ "a.bang") ex_proc_lexer
      (SV "pro") ex_proc_token).2.2.2 (by decide) rfl (by decide),
   (expect_keyword_contract (bang_lexer_from_sv ⟨0, "proc x".toList⟩ "a.bang") ex_proc_lexer
      (SV "procs") ex_proc_token).2.2.2 (by decide) rfl (by decide)⟩

/-! ## The Generic Tokenizer never overruns its source -/

theorem tokenizer_chop_eq (source : String_View) (kind : Token_Kind) (n : Nat)
    (hn : n ≤ source.chars.length) :
    tokenizer_chop source kind n =
      .token { kind := kind, text := ⟨source.data, source.chars.take n⟩ }
        { source := ⟨source.data + n, source.chars.drop n⟩,
          peek_buffer := { kind := kind, text := ⟨source.data, source.chars.take n⟩ },
          peek_buffer_full := true } := by
  simp [tokenizer_chop, sv_chop_left, String_View.count, hn, tokenizer_store]

theorem tokenizer_quoted_ends (source : String_View) (c0 : Char) (l : List Char) (q : Char)
    (kind : Token_Kind) (location : File_Location) (msg : String)
    (hchars : source.chars = c0 :: l) :
    Tokenizer_Ends location (tokenizer_quoted source q kind location msg) := by
  obtain ⟨d, chars⟩ := source
  simp only at hchars
  subst hchars
  cases hi : index_of q l with
  | none =>
    right; right
    exact ⟨msg, by simp [tokenizer_quoted, sv_chop_left, String_View.count, sv_index_of, hi]⟩
  | some i =>
    left
    obtain ⟨_, _, h3⟩ := index_of_some hi
    have h4 : i ≤ l.length := Nat.le_of_lt h3
    have h5 : 1 ≤ l.length - i := by omega
    refine ⟨{ kind := kind, text := ⟨d + 1, l.take i⟩ },
      { source := ⟨d + 1 + i + 1, (l.drop i).drop 1⟩,
        peek_buffer := { kind := kind, text := ⟨d + 1, l.take i⟩ },
        peek_buffer_full := true }, ?_⟩
    simp only [tokenizer_quoted, sv_chop_left, String_View.count, sv_index_of, hi,
      List.length_cons, Nat.le_add_left, if_true, List.drop_succ_cons, List.drop_zero,
      h4, List.length_drop, h5, tokenizer_store]

theorem tokenizer_default_ends (source : String_View) (c : Char) (location : File_Location) :
    Tokenizer_Ends location (tokenizer_default source c location) := by
  simp only [tokenizer_default, tokenizer_store]
  split_ifs
  all_goals first
    | exact Or.inl ⟨_, _, rfl⟩
    | exact Or.inr (Or.inr ⟨_, rfl⟩)

theorem tokenizer_switch_ends (source : String_View) (c : Char) (rest : List Char)
    (location : File_Location) (hchars : source.chars = c :: rest) :
    Tokenizer_Ends location (tokenizer_switch source c rest location) := by
  have h1 : 1 ≤ source.chars.length := by
    rw [hchars]
    simp
  unfold tokenizer_switch
  split
  · rw [tokenizer_chop_eq _ _ 1 h1]
    exact Or.inl ⟨_, _, rfl⟩
  · split_ifs with he hcond hd hs
    · rw [tokenizer_chop_eq _ _ 1 h1]
      exact Or.inl ⟨_, _, rfl⟩
    · have h2 : 2 ≤ source.chars.length := by
        simp only [String_View.count, not_or, not_le] at hcond
        omega
      rw [tokenizer_chop_eq _ _ 2 h2]
      exact Or.inl ⟨_, _, rfl⟩
    · exact tokenizer_quoted_ends source c rest _ _ _ _ hchars
    · exact tokenizer_quoted_ends source c rest _ _ _ _ hchars
    · exact tokenizer_default_ends source c location

theorem tokenizer_peek_ends (tokenizer : Tokenizer) (location : File_Location) :
    Tokenizer_Ends location (tokenizer_peek tokenizer location) := by
  unfold tokenizer_peek
  split_ifs
  · exact Or.inl ⟨_, _, rfl⟩
  · simp only
    split
    · exact Or.inr (Or.inl ⟨_, rfl⟩)
    · rename_i c rest hchars
      exact tokenizer_switch_ends _ c rest location hchars

theorem tokenizer_next_ends (tokenizer : Tokenizer) (location : File_Location) :
    Tokenizer_Ends location (tokenizer_next tokenizer location) := by
  unfold tokenizer_next
  rcases tokenizer_peek_ends tokenizer location with ⟨t, tk, h⟩ | ⟨tk, h⟩ | ⟨msg, h⟩
  · rw [h]
    exact Or.inl ⟨_, _, rfl⟩
  · rw [h]
    exact Or.inr (Or.inl ⟨_, rfl⟩)
  · rw [h]
    exact Or.inr (Or.inr ⟨_, rfl⟩)

theorem tokenizer_switch_ne_no_token {source : String_View} {c : Char} {rest : List Char}
    {location : File_Location} {tk : Tokenizer}
    (h : tokenizer_switch source c rest location = .no_token tk) : False := by
  have hchop : ∀ kind n, tokenizer_chop source kind n = .no_token tk → False := by
    intro kind n hc
    unfold tokenizer_chop at hc
    split at hc <;> cases hc
  have hquoted : ∀ q kind msg, tokenizer_quoted source q kind location msg = .no_token tk →
      False := by
    intro q kind msg hq
    unfold tokenizer_quoted at hq
    repeat' split at hq
    all_goals cases hq
  unfold tokenizer_switch at h
  split at h
  · exact hchop _ _ h
  · split_ifs at h
    · exact hchop _ _ h
    · exact hchop _ _ h
    · exact hquoted _ _ _ h
    · exact hquoted _ _ _ h
    · simp only [tokenizer_default, tokenizer_store] at h
      split_ifs at h

theorem tokenizer_next_no_token_iff (tokenizer : Tokenizer) (location : File_Location) :
    (∃ tk, tokenizer_next tokenizer location = .no_token tk) ↔
      tokenizer.peek_buffer_full = false ∧ ∀ c ∈ tokenizer.source.chars, isspace c = true := by
  have hnext : ∀ tk, tokenizer_next tokenizer location = .no_token tk ↔
      tokenizer_peek tokenizer location = .no_token tk := by
    intro tk
    unfold tokenizer_next
    constructor
    · intro h
      split at h
      · cases h
      · exact h
    · intro h
      rw [h]
  constructor
  · rintro ⟨tk, h⟩
    rw [hnext] at h
    unfold tokenizer_peek at h
    split_ifs at h with hfull
    simp only at h
    split at h
    · rename_i hchars
      refine ⟨by simpa using hfull, ?_⟩
      simp only [sv_trim_left, List.dropWhile_eq_nil_iff] at hchars
      exact hchars
    · exact (tokenizer_switch_ne_no_token h).elim
  · rintro ⟨hfull, hall⟩
    refine ⟨{ tokenizer with source := sv_trim_left tokenizer.source }, ?_⟩
    rw [hnext]
    have hchars : (sv_trim_left tokenizer.source).chars = [] := by
      simp only [sv_trim_left, List.dropWhile_eq_nil_iff]
      exact hall
    unfold tokenizer_peek
    rw [hfull]
    simp only [Bool.false_eq_true, if_false]
    rw [hchars]

/-! ## C15: the end of the input of the Generic Tokenizer -/

/-- C15: end of input of the Generic Tokenizer.  `expect_no_tokens` returns
normally, and equivalently `tokenizer_next` returns false, if and only if the
peek buffer is empty and the remaining source consists of whitespace
characters only (possibly none).  In every other state `expect_no_tokens`
terminates with a fatal diagnostic and status 1.  On a source of whitespace
alone `tokenizer_peek` and `tokenizer_next` return no token. -/
theorem end_of_input (tokenizer : Tokenizer) (location : File_Location) :
    ((∃ tk, expect_no_tokens tokenizer location = .no_token tk) ↔
      tokenizer.peek_buffer_full = false ∧ ∀ c ∈ tokenizer.source.chars, isspace c = true) ∧
    ((∃ tk, tokenizer_next tokenizer location = .no_token tk) ↔
      tokenizer.peek_buffer_full = false ∧ ∀ c ∈ tokenizer.source.chars, isspace c = true) ∧
    (¬ (tokenizer.peek_buffer_full = false ∧ ∀ c ∈ tokenizer.source.chars, isspace c = true) →
      ∃ msg, expect_no_tokens tokenizer location = .fatal 1 location msg) ∧
    (tokenizer.peek_buffer_full = false → (∀ c ∈ tokenizer.source.chars, isspace c = true) →
      (∀ t tk, tokenizer_peek tokenizer location ≠ .token t tk) ∧
      (∀ t tk, tokenizer_next tokenizer location ≠ .token t tk)) := by
  have hiff := tokenizer_next_no_token_iff tokenizer location
  have hexp : ∀ tk, expect_no_tokens tokenizer location = .no_token tk ↔
      tokenizer_next tokenizer location = .no_token tk := by
    intro tk
    unfold expect_no_tokens
    constructor
    · intro h
      split at h
      · cases h
      · exact h
    · intro h
      rw [h]
  refine ⟨?_, hiff, ?_, ?_⟩
  · rw [← hiff]
    exact ⟨fun ⟨tk, h⟩ => ⟨tk, (hexp tk).mp h⟩, fun ⟨tk, h⟩ => ⟨tk, (hexp tk).mpr h⟩⟩
  · intro hnot
    rcases tokenizer_next_ends tokenizer location with ⟨t, tk, h⟩ | ⟨tk, h⟩ | ⟨msg, h⟩
    · exact ⟨_, by unfold expect_no_tokens; rw [h]⟩
    · exact (hnot (hiff.mp ⟨tk, h⟩)).elim
    · exact ⟨msg, by unfold expect_no_tokens; rw [h]⟩
  · intro hfull hall
    obtain ⟨tk0, h0⟩ := hiff.mpr ⟨hfull, hall⟩
    constructor
    · intro t tk hp
      unfold tokenizer_next at h0
      rw [hp] at h0
      cases h0
    · intro t tk hn
      rw [hn] at h0
      cases h0

/-- Witness of C15: on the source of two spaces `expect_no_tokens` returns,
and on the source ` x` it is fatal. -/
theorem end_of_input_witness :
    ¬ (∃ tk, expect_no_tokens (tokenizer_from_sv ⟨0, [' ', 'x']⟩) ⟨"b.basm", 1⟩ =
        .no_token tk) ∧
    (∃ msg, expect_no_tokens (tokenizer_from_sv ⟨0, [' ', 'x']⟩) ⟨"b.basm", 1⟩ =
      .fatal 1 ⟨"b.basm", 1⟩ msg) ∧
    (∃ tk, expect_no_tokens (tokenizer_from_sv ⟨0, [' ', ' ']⟩) ⟨"b.basm", 1⟩ =
      .no_token tk) ∧
    (∀ t tk, tokenizer_next (tokenizer_from_sv ⟨0, [' ', ' ']⟩) ⟨"b.basm", 1⟩ ≠
      .token t tk) :=
  ⟨fun h => absurd
      ((end_of_input (tokenizer_from_sv ⟨0, [' ', 'x']⟩) ⟨"b.basm", 1⟩).1.mp h).2 (by decide),
   (end_of_input (tokenizer_from_sv ⟨0, [' ', 'x']⟩) ⟨"b.basm", 1⟩).2.2.1
      (fun h => absurd h.2 (by decide)),
   (end_of_input (tokenizer_from_sv ⟨0, [' ', ' ']⟩) ⟨"b.basm", 1⟩).1.mpr
      ⟨rfl, by decide⟩,
   ((end_of_input (tokenizer_from_sv ⟨0, [' ', ' ']⟩) ⟨"b.basm", 1⟩).2.2.2 rfl
      (by decide)).2⟩

/-! ## C16: the shape of the diagnostics -/

/-- C16, evaluated at the failing inputs.  On a fresh lexer whose buffer is
`"abc` the unclosed-string-literal diagnostic of `bang_lexer_peek` does not
end with a newline; on a fresh lexer whose buffer is `(` the kind-mismatch
diagnostic of `bang_lexer_expect_token` starts with `: ERROR ` without the
colon behind `ERROR`.  Both exit with status 1. -/
theorem diagnostics_off_shape :
    bang_lexer_peek (bang_lexer_from_sv ⟨0, ['"', 'a', 'b', 'c']⟩ "a.bang") =
      .fatal 1 ⟨1, 1, "a.bang"⟩ ": ERROR: unclosed string literal" ∧
    ": ERROR: unclosed string literal".toList.getLast? ≠ some '\n' ∧
    bang_lexer_expect_token (bang_lexer_from_sv ⟨0, ['(']⟩ "a.bang") .NAME =
      .fatal 1 ⟨1, 1, "a.bang"⟩ ": ERROR expected token `name` but got `(`\n" ∧
    ": ERROR: ".toList.isPrefixOf ": ERROR expected token `name` but got `(`\n".toList =
      false := by
  decide

/-! ## C19: no assertion fails -/

theorem skip_lines_full (fuel : Nat) (lexer : Bang_Lexer) :
    (bang_lexer_skip_lines fuel lexer).peek_buffer_full = lexer.peek_buffer_full := by
  induction fuel generalizing lexer with
  | zero => rfl
  | succ n ih =>
    unfold bang_lexer_skip_lines
    split_ifs
    · rw [ih]
      rfl
    · rfl

theorem extract_full (lexer : Bang_Lexer) :
    (bang_lexer_extract lexer).peek_buffer_full = lexer.peek_buffer_full := by
  unfold bang_lexer_extract
  rw [skip_lines_full]

theorem get?_scan_while (p : Char → Bool) (l : List Char) (h : scan_while p l < l.length) :
    ∃ x, l.get? (scan_while p l) = some x ∧ p x = false := by
  induction l with
  | nil => simp at h
  | cons y ys ih =>
    by_cases hy : p y = true
    · simp only [scan_while, hy, if_true, List.length_cons] at h ⊢
      obtain ⟨x, h1, h2⟩ := ih (by omega)
      exact ⟨x, by rw [List.get?_cons_succ]; exact h1, h2⟩
    · simp only [scan_while, hy]
      exact ⟨y, rfl, by simpa using hy⟩

theorem scan_while_le (p : Char → Bool) (l : List Char) : scan_while p l ≤ l.length := by
  rw [scan_while_eq]
  exact length_takeWhile_le p l

theorem bang_lexer_spit_ne_assert (lexer : Bang_Lexer) (kind : Bang_Token_Kind) (n : Nat)
    (hn : n ≤ lexer.line.chars.length) (hfull : lexer.peek_buffer_full = false)
    (hstart : lexer.line_start ≤ lexer.line.data) :
    bang_lexer_spit lexer kind n ≠ .assert_failed := by
  rw [bang_lexer_spit_ok lexer kind n hn hfull hstart]
  intro h
  cases h

theorem bang_lexer_fatal_ne_assert (lexer : Bang_Lexer) (msg : String)
    (hstart : lexer.line_start ≤ lexer.line.data) :
    bang_lexer_fatal lexer msg ≠ .assert_failed := by
  simp only [bang_lexer_fatal, bang_lexer_loc, hstart, if_true]
  intro h
  cases h

theorem bang_lexer_classify_ne_assert (lexer : Bang_Lexer) (c : Char) (rest : List Char)
    (hline : lexer.line.chars = c :: rest) (hfull : lexer.peek_buffer_full = false)
    (hstart : lexer.line_start ≤ lexer.line.data) :
    bang_lexer_classify lexer c rest ≠ .assert_failed := by
  unfold bang_lexer_classify
  split
  · rename_i e hfind
    have hmem := List.mem_of_find?_eq_some hfind
    have hcount : e.text.count = 1 := by
      have hall : ∀ e ∈ hardcoded_bang_tokens, e.text.count = 1 := by decide
      exact hall e hmem
    rw [hcount]
    exact bang_lexer_spit_ne_assert lexer _ 1 (by rw [hline]; simp) hfull hstart
  · simp only
    split_ifs with h1 h2 h3 h4
    · exact bang_lexer_spit_ne_assert lexer _ _ (scan_while_le _ _) hfull hstart
    · exact bang_lexer_fatal_ne_assert lexer _ hstart
    · exfalso
      apply h4
      have hlt : scan_while (fun x => x != '"') rest < rest.length := by
        simp only [String_View.count, hline, List.length_cons, ge_iff_le, not_le] at h3
        omega
      obtain ⟨x, hx1, hx2⟩ := get?_scan_while _ rest hlt
      have hx : x = '"' := by simpa using hx2
      rw [hline, Nat.add_comm, List.get?_cons_succ, hx1, hx]
    · apply bang_lexer_spit_ne_assert lexer _ _ _ hfull hstart
      simp only [String_View.count, ge_iff_le, not_le] at h3
      omega
    · exact bang_lexer_fatal_ne_assert lexer _ hstart

theorem bang_lexer_peek_ne_assert (lexer : Bang_Lexer)
    (hstart : lexer.line_start ≤ lexer.line.data) :
    bang_lexer_peek lexer ≠ .assert_failed := by
  unfold bang_lexer_peek
  split_ifs with hfull
  · intro h
    cases h
  · split
    · intro h
      cases h
    · rename_i c rest hline
      refine bang_lexer_classify_ne_assert _ c rest hline ?_ (lexer_start_extract lexer hstart)
      rw [extract_full]
      simpa using hfull

theorem bang_lexer_next_ne_assert (lexer : Bang_Lexer)
    (hstart : lexer.line_start ≤ lexer.line.data) :
    bang_lexer_next lexer ≠ .assert_failed := by
  have hp := bang_lexer_peek_ne_assert lexer hstart
  unfold bang_lexer_next
  split
  · intro h
    cases h
  · exact hp

theorem lexer_shape_start {base : Nat} {buf : List Char} {lexer : Bang_Lexer}
    (h : Lexer_Shape base buf lexer) : lexer.line_start ≤ lexer.line.data := by
  rcases h with ⟨_, h2, h3, _⟩ | ⟨pre, mid, tail, _, _, _, _, _, h6, h7, _, _⟩
  · rw [h2, h3]
  · rw [h6, h7]
    exact Nat.le_add_right _ _

theorem tokenizer_ends_ne_assert {location : File_Location} {o : Tokenizer_Outcome}
    (h : Tokenizer_Ends location o) : o ≠ .assert_failed := by
  rcases h with ⟨t, tk, h⟩ | ⟨tk, h⟩ | ⟨msg, h⟩ <;> rw [h] <;> intro e <;> cases e

/-- C19: no overrun.  In every state of the Generic Tokenizer, and in every
state that a Structured Lexer freshly constructed on any buffer reaches by
`peek` / `next` calls, the calls `peek` and `next` do not end in a failed
assertion: every `sv_chop_left` removes at most as many characters as the
view holds, and `token_size <= line.count`, `!peek_buffer_full`,
`line.data[n] == '"'` and `line_start <= line.data` hold where they are
asserted. -/
theorem no_overrun (tokenizer : Tokenizer) (location : File_Location)
    (base : Nat) (buf : List Char) (file_path : String) (calls : List Lexer_Call)
    (lexer : Bang_Lexer)
    (hrun : bang_lexer_run calls (bang_lexer_from_sv ⟨base, buf⟩ file_path) = some lexer) :
    tokenizer_peek tokenizer location ≠ .assert_failed ∧
    tokenizer_next tokenizer location ≠ .assert_failed ∧
    lexer.line_start ≤ lexer.line.data ∧
    bang_lexer_peek lexer ≠ .assert_failed ∧
    bang_lexer_next lexer ≠ .assert_failed := by
  have hfresh : Lexer_Inv base buf (bang_lexer_from_sv ⟨base, buf⟩ file_path) :=
    ⟨lexer_shape_fresh base buf file_path, fun hf => by cases hf⟩
  have hstart := lexer_shape_start (lexer_inv_run calls hfresh hrun).1
  exact ⟨tokenizer_ends_ne_assert (tokenizer_peek_ends tokenizer location),
    tokenizer_ends_ne_assert (tokenizer_next_ends tokenizer location), hstart,
    bang_lexer_peek_ne_assert lexer hstart, bang_lexer_next_ne_assert lexer hstart⟩

/-- Witness of C19: after `next`, `peek` on the buffer `a "b" ==`, the calls
of the lexer do not fail an assertion, nor do those of a tokenizer on `==`. -/
theorem no_overrun_witness :
    tokenizer_peek (tokenizer_from_sv ⟨0, ['=', '=']⟩) ⟨"b.basm", 1⟩ ≠ .assert_failed ∧
    tokenizer_next (tokenizer_from_sv ⟨0, ['=', '=']⟩) ⟨"b.basm", 1⟩ ≠ .assert_failed ∧
    ex_quoted_lexer.line_start ≤ ex_quoted_lexer.line.data ∧
    bang_lexer_peek ex_quoted_lexer ≠ .assert_failed ∧
    bang_lexer_next ex_quoted_lexer ≠ .assert_failed :=
  no_overrun (tokenizer_from_sv ⟨0, ['=', '=']⟩) ⟨"b.basm", 1⟩ 0 "a \"b\" ==".toList "a.bang"
    [.next, .peek] ex_quoted_lexer (by decide)

/-! ## C20: tokens are ordered slices and every token consumes input -/

theorem length_dropWhile_lt (p : Char → Bool) (c : Char) (rest : List Char)
    (hc : p c = true) : ((c :: rest).dropWhile p).length < (c :: rest).length := by
  rw [List.dropWhile_cons, if_pos hc]
  have h := (List.dropWhile_suffix p (l := rest)).length_le
  simp only [List.length_cons]
  omega

theorem is_name_of_alpha {c : Char} (hc : isalpha c = true) : is_name c = true := by
  simp [is_name, isalnum, hc]

theorem is_number_of_digit {c : Char} (hc : isdigit c = true) : is_number c = true := by
  simp [is_number, isalnum, hc]

/-- What `tokenizer_switch` consumes: the token lies in the trimmed source and
the remaining source starts behind it and is shorter. -/
theorem tokenizer_switch_progress {source : String_View} {c : Char} {rest : List Char}
    {location : File_Location} {t : Token} {tk : Tokenizer}
    (hchars : source.chars = c :: rest)
    (h : tokenizer_switch source c rest location = .token t tk) :
    source.data ≤ t.text.data ∧ t.text.data + t.text.chars.length ≤ tk.source.data ∧
      tk.source.chars.length < source.chars.length := by
  have hchop : ∀ kind n, 0 < n → tokenizer_chop source kind n = .token t tk →
      source.data ≤ t.text.data ∧ t.text.data + t.text.chars.length ≤ tk.source.data ∧
      tk.source.chars.length < source.chars.length := by
    intro kind n hn hc
    obtain ⟨rfl, h2, h3⟩ := tokenizer_chop_token hc
    rw [h2]
    simp only [List.length_take, List.length_drop]
    omega
  have hquoted : ∀ q kind msg, tokenizer_quoted source q kind location msg = .token t tk →
      source.data ≤ t.text.data ∧ t.text.data + t.text.chars.length ≤ tk.source.data ∧
      tk.source.chars.length < source.chars.length := by
    intro q kind msg hq
    obtain ⟨c0, h1, _, h3, h4, _⟩ := tokenizer_quoted_token hq
    rw [h1, h3, h4]
    simp only [List.length_cons, List.length_append]
    omega
  unfold tokenizer_switch at h
  split at h
  · exact hchop _ 1 Nat.one_pos h
  · split_ifs at h with he hcond hd hs
    · exact hchop _ 1 Nat.one_pos h
    · exact hchop _ 2 (by decide) h
    · exact hquoted _ _ _ h
    · exact hquoted _ _ _ h
    · simp only [tokenizer_default, sv_chop_left_while, tokenizer_store] at h
      split_ifs at h with ha
      all_goals
        (cases h
         simp only [hchars]
         refine ⟨Nat.le_refl _, Nat.le_refl _, ?_⟩
         first
           | exact length_dropWhile_lt _ c rest (is_name_of_alpha ha)
           | exact length_dropWhile_lt _ c rest (is_number_of_digit (by assumption)))

theorem sv_trim_left_le (sv : String_View) :
    sv.data ≤ (sv_trim_left sv).data ∧ (sv_trim_left sv).chars.length ≤ sv.chars.length := by
  simp only [sv_trim_left]
  exact ⟨Nat.le_add_right _ _, (List.dropWhile_suffix _).length_le⟩

theorem tokenizer_peek_progress {tokenizer tk : Tokenizer} {location : File_Location}
    {t : Token} (hfull : tokenizer.peek_buffer_full = false)
    (h : tokenizer_peek tokenizer location = .token t tk) :
    tokenizer.source.data ≤ t.text.data ∧ t.text.data + t.text.chars.length ≤ tk.source.data ∧
      tk.source.chars.length < tokenizer.source.chars.length := by
  obtain ⟨k1, k2⟩ := sv_trim_left_le tokenizer.source
  unfold tokenizer_peek at h
  rw [hfull] at h
  simp only [Bool.false_eq_true, if_false] at h
  split at h
  · cases h
  · rename_i c rest hchars
    obtain ⟨h1, h2, h3⟩ := tokenizer_switch_progress hchars h
    exact ⟨Nat.le_trans k1 h1, h2, Nat.lt_of_lt_of_le h3 k2⟩

theorem tokenizer_peek_no_token_state {tokenizer tk : Tokenizer} {location : File_Location}
    (h : tokenizer_peek tokenizer location = .no_token tk) : tk.peek_buffer_full = false := by
  unfold tokenizer_peek at h
  split_ifs at h with hfull
  simp only at h
  split at h
  · cases h
    simpa using hfull
  · exact (tokenizer_switch_ne_no_token h).elim

theorem tokenizer_next_cases {tokenizer tk : Tokenizer} {location : File_Location} {t : Token}
    (h : tokenizer_next tokenizer location = .token t tk) :
    ∃ tk1, tokenizer_peek tokenizer location = .token t tk1 ∧
      tk = { tk1 with peek_buffer_full := false } := by
  unfold tokenizer_next at h
  split at h
  · rename_i t1 tk1 hp
    cases h
    exact ⟨tk1, hp, rfl⟩
  · rename_i hne
    exact (hne t tk h).elim

/-- One `peek` keeps the order invariant of the tokenizer; its token ends at
or before the start of the remaining source. -/
theorem tokenizer_order_peek {tokenizer tk : Tokenizer} {location : File_Location} {t : Token}
    (hinv : Tokenizer_Order tokenizer)
    (h : tokenizer_peek tokenizer location = .token t tk) :
    Tokenizer_Order tk ∧ t.text.data + t.text.chars.length ≤ tk.source.data := by
  obtain ⟨hfull', hbuf⟩ := tokenizer_peek_buffered h
  by_cases hfull : tokenizer.peek_buffer_full = true
  · unfold tokenizer_peek at h
    rw [if_pos hfull] at h
    cases h
    exact ⟨hinv, hinv hfull⟩
  · obtain ⟨_, h2, _⟩ := tokenizer_peek_progress (by simpa using hfull) h
    refine ⟨fun _ => ?_, h2⟩
    rw [hbuf]
    exact h2

theorem tokenizer_order_run (calls : List Lexer_Call) {tokenizer tk : Tokenizer}
    {location : File_Location} (hinv : Tokenizer_Order tokenizer)
    (hrun : tokenizer_run calls tokenizer location = some tk) : Tokenizer_Order tk := by
  induction calls generalizing tokenizer with
  | nil =>
    simp only [tokenizer_run, Option.some.injEq] at hrun
    rw [← hrun]
    exact hinv
  | cons call calls ih =>
    simp only [tokenizer_run] at hrun
    split at hrun
    · rename_i t tk1 heq
      refine ih ?_ hrun
      cases call with
      | peek => exact (tokenizer_order_peek hinv heq).1
      | next =>
        obtain ⟨tk2, hp, rfl⟩ := tokenizer_next_cases heq
        intro hf
        cases hf
    · rename_i tk1 heq
      refine ih ?_ hrun
      have hp : tokenizer_peek tokenizer location = .no_token tk1 := by
        cases call with
        | peek => exact heq
        | next =>
          simp only [tokenizer_next] at heq
          split at heq
          · cases heq
          · exact heq
      intro hf
      rw [tokenizer_peek_no_token_state hp] at hf
      cases hf
    · cases hrun

theorem tokenizer_tokens_length (fuel : Nat) (tokenizer : Tokenizer)
    (location : File_Location) (hfull : tokenizer.peek_buffer_full = false) :
    (tokenizer_tokens fuel tokenizer location).length ≤ tokenizer.source.chars.length := by
  induction fuel generalizing tokenizer with
  | zero => simp [tokenizer_tokens]
  | succ n ih =>
    simp only [tokenizer_tokens]
    split
    · rename_i t tk heq
      obtain ⟨tk1, hp, rfl⟩ := tokenizer_next_cases heq
      obtain ⟨_, _, h3⟩ := tokenizer_peek_progress hfull hp
      have := ih { tk1 with peek_buffer_full := false } rfl
      simp only [List.length_cons] at this ⊢
      omega
    · simp

theorem lexer_order_trim (lexer : Bang_Lexer)
    (h : lexer.line.data + lexer.line.chars.length ≤ lexer.content.data) :
    lexer.line.data ≤ (sv_trim_left lexer.line).data ∧
      (sv_trim_left lexer.line).chars.length ≤ lexer.line.chars.length ∧
      (sv_trim_left lexer.line).data + (sv_trim_left lexer.line).chars.length ≤
        lexer.content.data := by
  have hlen := congrArg List.length (List.takeWhile_append_dropWhile isspace
    (l := lexer.line.chars))
  simp only [List.length_append] at hlen
  simp only [sv_trim_left]
  omega

theorem lexer_order_next_line (lexer : Bang_Lexer)
    (h : lexer.line.data + lexer.line.chars.length ≤ lexer.content.data) :
    lexer.line.data ≤ (bang_lexer_next_line lexer).line.data ∧
      (bang_lexer_next_line lexer).line.chars.length +
          (bang_lexer_next_line lexer).content.chars.length ≤ lexer.content.chars.length ∧
      (bang_lexer_next_line lexer).line.data + (bang_lexer_next_line lexer).line.chars.length ≤
        (bang_lexer_next_line lexer).content.data := by
  obtain ⟨c1, c2, c3, c4, c5⟩ := chop_by_delim_rest lexer.content
  have hlen := congrArg List.length c1
  simp only [List.length_append] at hlen
  simp only [bang_lexer_next_line]
  rcases c5 with ⟨k1, k2⟩ | k1
  · rw [k1] at hlen
    rw [k2] at c4 ⊢
    simp only [List.length_nil] at hlen c4 ⊢
    omega
  · rw [k1] at hlen
    simp only [List.length_cons] at hlen
    omega

theorem lexer_order_skip_lines (fuel : Nat) (lexer : Bang_Lexer)
    (h : lexer.line.data + lexer.line.chars.length ≤ lexer.content.data) :
    lexer.line.data ≤ (bang_lexer_skip_lines fuel lexer).line.data ∧
      (bang_lexer_skip_lines fuel lexer).line.chars.length +
          (bang_lexer_skip_lines fuel lexer).content.chars.length ≤
        lexer.line.chars.length + lexer.content.chars.length ∧
      (bang_lexer_skip_lines fuel lexer).line.data +
          (bang_lexer_skip_lines fuel lexer).line.chars.length ≤
        (bang_lexer_skip_lines fuel lexer).content.data := by
  induction fuel generalizing lexer with
  | zero => exact ⟨Nat.le_refl _, Nat.le_refl _, h⟩
  | succ n ih =>
    unfold bang_lexer_skip_lines
    split_ifs
    · obtain ⟨a1, a2, a3⟩ := lexer_order_next_line lexer h
      obtain ⟨b1, b2, b3⟩ := lexer_order_trim (bang_lexer_next_line lexer) a3
      obtain ⟨d1, d2, d3⟩ := ih
        { bang_lexer_next_line lexer with line := sv_trim_left (bang_lexer_next_line lexer).line }
        b3
      simp only at d1 d2 d3
      exact ⟨Nat.le_trans (Nat.le_trans a1 b1) d1, Nat.le_trans d2 (by omega), d3⟩
    · exact ⟨Nat.le_refl _, Nat.le_refl _, h⟩

theorem lexer_order_extract (lexer : Bang_Lexer)
    (h : lexer.line.data + lexer.line.chars.length ≤ lexer.content.data) :
    lexer.line.data ≤ (bang_lexer_extract lexer).line.data ∧
      (bang_lexer_extract lexer).line.chars.length +
          (bang_lexer_extract lexer).content.chars.length ≤
        lexer.line.chars.length + lexer.content.chars.length ∧
      (bang_lexer_extract lexer).line.data + (bang_lexer_extract lexer).line.chars.length ≤
        (bang_lexer_extract lexer).content.data := by
  obtain ⟨b1, b2, b3⟩ := lexer_order_trim lexer h
  obtain ⟨d1, d2, d3⟩ := lexer_order_skip_lines lexer.content.count
    { lexer with line := sv_trim_left lexer.line } b3
  simp only at d1 d2 d3
  unfold bang_lexer_extract
  exact ⟨Nat.le_trans b1 d1, Nat.le_trans d2 (by omega), d3⟩

/-- What a classification of the Structured Lexer consumes: the token starts
at or behind the start of the current line view, the line view is left
behind the token, and the unconsumed input gets shorter. -/
theorem bang_lexer_peek_progress {lexer lx : Bang_Lexer} {t : Bang_Token}
    (hfull : lexer.peek_buffer_full = false)
    (h : lexer.line.data + lexer.line.chars.length ≤ lexer.content.data)
    (hp : bang_lexer_peek lexer = .token t lx) :
    lexer.line.data ≤ t.text.data ∧ t.text.data + t.text.chars.length = lx.line.data ∧
      lx.line.data + lx.line.chars.length ≤ lx.content.data ∧
      lx.line.chars.length + lx.content.chars.length <
        lexer.line.chars.length + lexer.content.chars.length := by
  obtain ⟨d1, d2, d3⟩ := lexer_order_extract lexer h
  unfold bang_lexer_peek at hp
  rw [hfull] at hp
  simp only [Bool.false_eq_true, if_false] at hp
  split at hp
  · cases hp
  · obtain ⟨kind, n, hn, hspit⟩ := bang_lexer_classify_token hp
    rw [bang_lexer_spit_eq] at hspit
    split_ifs at hspit with hcond
    obtain ⟨hlen, _, _⟩ := hcond
    cases hspit
    simp only [spit_result, List.length_take, List.length_drop]
    omega

theorem lexer_order_peek {lexer lx : Bang_Lexer} {t : Bang_Token}
    (hinv : Lexer_Order lexer) (hp : bang_lexer_peek lexer = .token t lx) :
    Lexer_Order lx ∧ t.text.data + t.text.chars.length ≤ lx.line.data := by
  obtain ⟨hfull', hbuf⟩ := bang_lexer_peek_buffered hp
  by_cases hfull : lexer.peek_buffer_full = true
  · unfold bang_lexer_peek at hp
    rw [if_pos hfull] at hp
    cases hp
    exact ⟨hinv, hinv.2 hfull⟩
  · obtain ⟨_, h2, h3, _⟩ := bang_lexer_peek_progress (by simpa using hfull) hinv.1 hp
    refine ⟨⟨h3, fun _ => ?_⟩, Nat.le_of_eq h2⟩
    rw [hbuf]
    exact Nat.le_of_eq h2

theorem lexer_order_no_token {lexer lx : Bang_Lexer}
    (hinv : Lexer_Order lexer) (hp : bang_lexer_peek lexer = .no_token lx) :
    Lexer_Order lx := by
  obtain ⟨hfull, hlx, _⟩ := bang_lexer_peek_no_token hp
  obtain ⟨_, _, d3⟩ := lexer_order_extract lexer hinv.1
  rw [← hlx] at d3
  refine ⟨d3, fun hf => ?_⟩
  rw [hlx, extract_full, hfull] at hf
  cases hf

theorem lexer_order_run (calls : List Lexer_Call) {lexer lx : Bang_Lexer}
    (hinv : Lexer_Order lexer) (hrun : bang_lexer_run calls lexer = some lx) :
    Lexer_Order lx := by
  induction calls generalizing lexer with
  | nil =>
    simp only [bang_lexer_run, Option.some.injEq] at hrun
    rw [← hrun]
    exact hinv
  | cons call calls ih =>
    simp only [bang_lexer_run] at hrun
    split at hrun
    · rename_i t lx1 heq
      refine ih ?_ hrun
      cases call with
      | peek => exact (lexer_order_peek hinv heq).1
      | next =>
        obtain ⟨lx2, hp, rfl⟩ := bang_lexer_next_token heq
        exact ⟨(lexer_order_peek hinv hp).1.1, fun hf => by cases hf⟩
    · rename_i lx1 heq
      refine ih ?_ hrun
      cases call with
      | peek => exact lexer_order_no_token hinv heq
      | next => exact lexer_order_no_token hinv (bang_lexer_next_no_token heq)
    · cases hrun

theorem bang_lexer_tokens_length (fuel : Nat) (lexer : Bang_Lexer)
    (hfull : lexer.peek_buffer_full = false)
    (h : lexer.line.data + lexer.line.chars.length ≤ lexer.content.data) :
    (bang_lexer_tokens fuel lexer).length ≤
      lexer.line.chars.length + lexer.content.chars.length := by
  induction fuel generalizing lexer with
  | zero => simp [bang_lexer_tokens]
  | succ n ih =>
    simp only [bang_lexer_tokens]
    split
    · rename_i t lx heq
      obtain ⟨lx1, hp, rfl⟩ := bang_lexer_next_token heq
      obtain ⟨_, _, h3, h4⟩ := bang_lexer_peek_progress hfull h hp
      have := ih { lx1 with peek_buffer_full := false } rfl h3
      simp only [List.length_cons] at this ⊢
      omega
    · simp

/-- C20: tokens are ordered, non-overlapping slices, and every token consumes
input, in both analyzers.  Take an analyzer freshly constructed on a buffer
and let it make any sequence of `peek` / `next` calls that return.  If two
consecutive `next` calls then return tokens, the text of the second starts at
or behind the address where the text of the first ends.  In every state with
an empty peek buffer a successful classification strictly shortens the
unconsumed input (the source of the tokenizer; the rest of the current line
plus the rest of the buffer of the lexer).  Successive `next` calls on a
fresh analyzer whose buffer holds `n` characters return at most `n` tokens. -/
theorem ordered_tokens (source : String_View) (location : File_Location)
    (calls : List Lexer_Call) (tokenizer tk1 tk2 : Tokenizer) (t1 t2 : Token)
    (content : String_View) (file_path : String) (lexer lx1 lx2 : Bang_Lexer)
    (bt1 bt2 : Bang_Token) (fuel : Nat) :
    (tokenizer_run calls (tokenizer_from_sv source) location = some tokenizer →
      tokenizer_next tokenizer location = .token t1 tk1 →
      tokenizer_next tk1 location = .token t2 tk2 →
      t1.text.data + t1.text.count ≤ t2.text.data) ∧
    (tokenizer.peek_buffer_full = false →
      tokenizer_peek tokenizer location = .token t1 tk1 →
      tk1.source.count < tokenizer.source.count) ∧
    (tokenizer_tokens fuel (tokenizer_from_sv source) location).length ≤ source.count ∧
    (bang_lexer_run calls (bang_lexer_from_sv content file_path) = some lexer →
      bang_lexer_next lexer = .token bt1 lx1 →
      bang_lexer_next lx1 = .token bt2 lx2 →
      bt1.text.data + bt1.text.count ≤ bt2.text.data) ∧
    (bang_lexer_run calls (bang_lexer_from_sv content file_path) = some lexer →
      lexer.peek_buffer_full = false →
      bang_lexer_peek lexer = .token bt1 lx1 →
      lx1.line.count + lx1.content.count < lexer.line.count + lexer.content.count) ∧
    (bang_lexer_tokens fuel (bang_lexer_from_sv content file_path)).length ≤ content.count := by
  have hfreshT : Tokenizer_Order (tokenizer_from_sv source) := fun hf => by cases hf
  have hfreshL : Lexer_Order (bang_lexer_from_sv content file_path) :=
    ⟨by simp [bang_lexer_from_sv], fun hf => by cases hf⟩
  refine ⟨?_, ?_, ?_, ?_, ?_, ?_⟩
  · intro hrun hn1 hn2
    have hinv := tokenizer_order_run calls hfreshT hrun
    obtain ⟨tka, hp1, rfl⟩ := tokenizer_next_cases hn1
    obtain ⟨tkb, hp2, _⟩ := tokenizer_next_cases hn2
    obtain ⟨_, hend⟩ := tokenizer_order_peek hinv hp1
    obtain ⟨hstart, _, _⟩ :=
      @tokenizer_peek_progress { tka with peek_buffer_full := false } _ _ _ rfl hp2
    simp only [String_View.count] at hstart ⊢
    omega
  · intro hfull hp
    exact (tokenizer_peek_progress hfull hp).2.2
  · exact tokenizer_tokens_length fuel _ location rfl
  · intro hrun hn1 hn2
    have hinv := lexer_order_run calls hfreshL hrun
    obtain ⟨lxa, hp1, rfl⟩ := bang_lexer_next_token hn1
    obtain ⟨lxb, hp2, _⟩ := bang_lexer_next_token hn2
    obtain ⟨hinv1, hend⟩ := lexer_order_peek hinv hp1
    obtain ⟨hstart, _, _, _⟩ :=
      @bang_lexer_peek_progress { lxa with peek_buffer_full := false } _ _ rfl hinv1.1 hp2
    simp only [String_View.count] at hstart ⊢
    omega
  · intro hrun hfull hp
    have hinv := lexer_order_run calls hfreshL hrun
    exact (bang_lexer_peek_progress hfull hinv.1 hp).2.2.2
  · have := bang_lexer_tokens_length fuel (bang_lexer_from_sv content file_path) rfl
      (by simp [bang_lexer_from_sv])
    simpa [bang_lexer_from_sv, String_View.count] using this

/-- Witness of C20 on the input `a b`: in both analyzers the token `b` starts at
address 2, behind the end of the token `a` at address 1, and at most three
tokens are returned. -/
theorem ordered_tokens_witness :
    ex_tok_a.text.data + ex_tok_a.text.count ≤ ex_tok_b.text.data ∧
    ex_tokenizer_a.source.count < (tokenizer_from_sv ⟨0, ['a', ' ', 'b']⟩).source.count ∧
    (tokenizer_tokens 5 (tokenizer_from_sv ⟨0, ['a', ' ', 'b']⟩) ⟨"b.basm", 1⟩).length ≤ 3 ∧
    ex_bang_a.text.data + ex_bang_a.text.count ≤ ex_bang_b.text.data ∧
    (bang_lexer_tokens 5 (bang_lexer_from_sv ⟨0, ['a', ' ', 'b']⟩ "a.bang")).length ≤ 3 :=
  ⟨(ordered_tokens ⟨0, ['a', ' ', 'b']⟩ ⟨"b.basm", 1⟩ []
      (tokenizer_from_sv ⟨0, ['a', ' ', 'b']⟩) ex_tokenizer_a ex_tokenizer_b ex_tok_a ex_tok_b
      ⟨0, ['a', ' ', 'b']⟩ "a.bang" (bang_lexer_from_sv ⟨0, ['a', ' ', 'b']⟩ "a.bang")
      ex_lexer_a ex_lexer_b ex_bang_a ex_bang_b 5).1 rfl (by decide) (by decide),
   (ordered_tokens ⟨0, ['a', ' ', 'b']⟩ ⟨"b.basm", 1⟩ []
      (tokenizer_from_sv ⟨0, ['a', ' ', 'b']⟩)
      { ex_tokenizer_a with peek_buffer_full := true } ex_tokenizer_b ex_tok_a ex_tok_b
      ⟨0, ['a', ' ', 'b']⟩ "a.bang" (bang_lexer_from_sv ⟨0, ['a', ' ', 'b']⟩ "a.bang")
      ex_lexer_a ex_lexer_b ex_bang_a ex_bang_b 5).2.1 rfl (by decide),
   (ordered_tokens ⟨0, ['a', ' ', 'b']⟩ ⟨"b.basm", 1⟩ []
      (tokenizer_from_sv ⟨0, ['a', ' ', 'b']⟩) ex_tokenizer_a ex_tokenizer_b ex_tok_a ex_tok_b
      ⟨0, ['a', ' ', 'b']⟩ "a.bang" (bang_lexer_from_sv ⟨0, ['a', ' ', 'b']⟩ "a.bang")
      ex_lexer_a ex_lexer_b ex_bang_a ex_bang_b 5).2.2.1,
   (ordered_tokens ⟨0, ['a', ' ', 'b']⟩ ⟨"b.basm", 1⟩ []
      (tokenizer_from_sv ⟨0, ['a', ' ', 'b']⟩) ex_tokenizer_a ex_tokenizer_b ex_tok_a ex_tok_b
      ⟨0, ['a', ' ', 'b']⟩ "a.bang" (bang_lexer_from_sv ⟨0, ['a', ' ', 'b']⟩ "a.bang")
      ex_lexer_a ex_lexer_b ex_bang_a ex_bang_b 5).2.2.2.1 rfl (by decide) (by decide),
   (ordered_tokens ⟨0, ['a', ' ', 'b']⟩ ⟨"b.basm", 1⟩ []
      (tokenizer_from_sv ⟨0, ['a', ' ', 'b']⟩) ex_tokenizer_a ex_tokenizer_b ex_tok_a ex_tok_b
      ⟨0, ['a', ' ', 'b']⟩ "a.bang" (bang_lexer_from_sv ⟨0, ['a', ' ', 'b']⟩ "a.bang")
      ex_lexer_a ex_lexer_b ex_bang_a ex_bang_b 5).2.2.2.2.2⟩

/-! ## C18: the arguments of the assembler driver -/

/-- Scanning `pre ++ rest` is scanning `rest` from the variables that the
scan of `pre` leaves, when that scan runs to the end of `pre`. -/
theorem basm_scan_args_append (target_by_name : String → Option Target) (n : Nat) :
    ∀ (pre : List String) (args0 args : Basm_Args) (rest : List String),
      pre.length ≤ n → basm_scan_args target_by_name args0 pre = .done args →
      basm_scan_args target_by_name args0 (pre ++ rest) =
        basm_scan_args target_by_name args rest := by
  induction n with
  | zero =>
    intro pre args0 args rest hlen h
    have hnil : pre = [] := List.length_eq_zero.mp (Nat.le_zero.mp hlen)
    subst hnil
    simp only [basm_scan_args, Basm_Scan.done.injEq] at h
    rw [List.nil_append, h]
  | succ n ih =>
    intro pre args0 args rest hlen h
    cases pre with
    | nil =>
      simp only [basm_scan_args, Basm_Scan.done.injEq] at h
      rw [List.nil_append, h]
    | cons flag p =>
      have hp : p.length ≤ n := by
        simp only [List.length_cons] at hlen
        omega
      have htail : ∀ (v : String) (p1 : List String), p = v :: p1 → p1.length ≤ n := by
        intro v p1 e
        rw [e] at hp
        simp only [List.length_cons] at hp
        omega
      rw [List.cons_append]
      unfold basm_scan_args at h
      conv_lhs => unfold basm_scan_args
      split_ifs at h ⊢ with h1 h2 h3 h4 h5
      · cases p with
        | nil => cases h
        | cons v p1 => exact ih p1 _ args rest (htail v p1 rfl) h
      · cases p with
        | nil => cases h
        | cons v p1 => exact ih p1 _ args rest (htail v p1 rfl) h
      · cases p with
        | nil => cases h
        | cons v p1 =>
          simp only [List.cons_append] at h ⊢
          cases ht : target_by_name v with
          | none =>
            rw [ht] at h
            cases h
          | some target =>
            rw [ht] at h
            exact ih p1 _ args rest (htail v p1 rfl) h
      · exact ih p _ args rest hp h
      · cases hi : args0.input_file_path with
        | some given =>
          rw [hi] at h
          cases h
        | none =>
          rw [hi] at h
          exact ih p _ args rest hp h

theorem basm_main_eq (target_by_name : String → Option Target) (program : String)
    (pre rest : List String) (args : Basm_Args)
    (hpre : basm_scan_args target_by_name basm_initial_args pre = .done args) :
    basm_main target_by_name (program :: (pre ++ rest)) =
      basm_check_input (basm_scan_args target_by_name args rest) := by
  simp only [basm_main]
  rw [basm_scan_args_append target_by_name pre.length pre _ args rest (Nat.le_refl _) hpre]

/-- C18: argument handling of the assembler driver.  Let the arguments `pre`
be scanned from left to right without an exit, leaving the variables `args`.
If the next argument is `-o`, `-I` or `-t` and it is the last one, the driver
exits with status 1.  If the next arguments are `-t` and a name that
`target_by_name` does not know, it exits with status 1.  If an input file is
already given and the next argument is none of the five flags, it exits with
status 1.  If the list ends after `pre` and no input file is given, it exits
with status 1.  If the next argument is `-h`, it exits with status 0.  In no
case is the translation reached. -/
theorem argument_handling (target_by_name : String → Option Target) (program : String)
    (pre rest : List String) (args : Basm_Args) (flag name x given : String)
    (hpre : basm_scan_args target_by_name basm_initial_args pre = .done args) :
    (flag = "-o" ∨ flag = "-I" ∨ flag = "-t" →
      basm_main target_by_name (program :: (pre ++ [flag])) =
        .exit 1 ("ERROR: no value provided for flag `" ++ flag ++ "`\n")) ∧
    (target_by_name name = none →
      basm_main target_by_name (program :: (pre ++ "-t" :: name :: rest)) =
        .exit 1 ("ERROR: unknown output format `" ++ name ++ "`\n")) ∧
    (args.input_file_path = some given →
      x ≠ "-o" → x ≠ "-I" → x ≠ "-h" → x ≠ "-t" → x ≠ "-verify" →
      basm_main target_by_name (program :: (pre ++ x :: rest)) =
        .exit 1 ("ERROR: input file is already provided as `" ++ given ++
          "`. Only a single input file is not supported\n")) ∧
    (args.input_file_path = none →
      basm_main target_by_name (program :: pre) =
        .exit 1 "ERROR: no input file is provided\n") ∧
    basm_main target_by_name (program :: (pre ++ "-h" :: rest)) = .exit 0 "" := by
  refine ⟨?_, ?_, ?_, ?_, ?_⟩
  · intro hflag
    rw [basm_main_eq target_by_name program pre [flag] args hpre]
    unfold basm_scan_args
    rcases hflag with rfl | rfl | rfl
    · simp [basm_check_input]
    · simp [basm_check_input]
    · simp [basm_check_input]
  · intro hname
    rw [basm_main_eq target_by_name program pre _ args hpre]
    unfold basm_scan_args
    simp [hname, basm_check_input]
  · intro hgiven h1 h2 h3 h4 h5
    rw [basm_main_eq target_by_name program pre _ args hpre]
    unfold basm_scan_args
    simp [h1, h2, h3, h4, h5, hgiven, basm_check_input]
  · intro hnone
    have h := basm_main_eq target_by_name program pre [] args hpre
    rw [List.append_nil] at h
    rw [h]
    unfold basm_scan_args
    simp [hnone, basm_check_input]
  · rw [basm_main_eq target_by_name program pre _ args hpre]
    unfold basm_scan_args
    simp [basm_check_input]

/-- Witness of C18 with the arguments `-verify a.basm` scanned: a trailing
`-o`, the unknown target `elf`, a second input file `b.basm` and `-h` end the
driver as stated, and `-verify` alone leaves no input file. -/
theorem argument_handling_witness :
    basm_main ex_target_by_name ["basm", "-verify", "a.basm", "-o"] =
      .exit 1 ("ERROR: no value provided for flag `" ++ "-o" ++ "`\n") ∧
    basm_main ex_target_by_name ["basm", "-verify", "a.basm", "-t", "elf", "-h"] =
      .exit 1 ("ERROR: unknown output format `" ++ "elf" ++ "`\n") ∧
    basm_main ex_target_by_name ["basm", "-verify", "a.basm", "b.basm", "-h"] =
      .exit 1 ("ERROR: input file is already provided as `" ++ "a.basm" ++
        "`. Only a single input file is not supported\n") ∧
    basm_main ex_target_by_name ["basm", "-verify"] =
      .exit 1 "ERROR: no input file is provided\n" ∧
    basm_main ex_target_by_name ["basm", "-verify", "a.basm", "-h", "-o"] = .exit 0 "" :=
  ⟨(argument_handling ex_target_by_name "basm" ["-verify", "a.basm"] ["-h"]
      { basm_initial_args with verify := true, input_file_path := some "a.basm" }
      "-o" "elf" "b.basm" "a.basm" (by decide)).1 (Or.inl rfl),
   (argument_handling ex_target_by_name "basm" ["-verify", "a.basm"] ["-h"]
      { basm_initial_args with verify := true, input_file_path := some "a.basm" }
      "-o" "elf" "b.basm" "a.basm" (by decide)).2.1 (by decide),
   (argument_handling ex_target_by_name "basm" ["-verify", "a.basm"] ["-h"]
      { basm_initial_args with verify := true, input_file_path := some "a.basm" }
      "-o" "elf" "b.basm" "a.basm" (by decide)).2.2.1 rfl (by decide) (by decide) (by decide)
      (by decide) (by decide),
   (argument_handling ex_target_by_name "basm" ["-verify"] ["-h"]
      { basm_initial_args with verify := true }
      "-o" "elf" "b.basm" "a.basm" (by decide)).2.2.2.1 rfl,
   (argument_handling ex_target_by_name "basm" ["-verify", "a.basm"] ["-o"]
      { basm_initial_args with verify := true, input_file_path := some "a.basm" }
      "-o" "elf" "b.basm" "a.basm" (by decide)).2.2.2.2⟩

/-! ## C11: a comment line only advances the row -/

theorem bang_lexer_classify_eq_decision (lexer : Bang_Lexer) (c : Char) (rest : List Char) :
    bang_lexer_classify lexer c rest =
      apply_decision lexer (lexer_decision lexer.line.chars c rest) := by
  have e : (fun h : Hardcoded_Token => sv_starts_with ⟨0, lexer.line.chars⟩ h.text) =
      (fun h : Hardcoded_Token => sv_starts_with lexer.line h.text) := rfl
  unfold bang_lexer_classify lexer_decision
  rw [e]
  cases hardcoded_bang_tokens.find? (fun h => sv_starts_with lexer.line h.text) with
  | some h => rfl
  | none =>
    simp only [String_View.count]
    split_ifs <;> rfl

theorem skip_lines_fuel (f1 : Nat) :
    ∀ (f2 : Nat) (lexer : Bang_Lexer), lexer.content.chars.length ≤ f1 →
      lexer.content.chars.length ≤ f2 →
      bang_lexer_skip_lines f1 lexer = bang_lexer_skip_lines f2 lexer := by
  induction f1 with
  | zero =>
    intro f2 lexer h1 _
    have h0 : lexer.content.count = 0 := Nat.le_zero.mp h1
    cases f2 with
    | zero => rfl
    | succ m => simp [bang_lexer_skip_lines, h0]
  | succ n ih =>
    intro f2 lexer h1 h2
    cases f2 with
    | zero =>
      have h0 : lexer.content.count = 0 := Nat.le_zero.mp h2
      simp [bang_lexer_skip_lines, h0]
    | succ m =>
      unfold bang_lexer_skip_lines
      split_ifs with hcond
      · have hne : lexer.content.chars ≠ [] := by
          simp only [Bool.and_eq_true, decide_eq_true_eq, String_View.count] at hcond
          exact List.length_pos.mp hcond.2
        have hlt := next_line_content_lt lexer hne
        apply ih
        · simp only
          omega
        · simp only
          omega
      · rfl

theorem row_shifted_trim {a b : Bang_Lexer} (h : Row_Shifted a b) :
    Row_Shifted { a with line := sv_trim_left a.line } { b with line := sv_trim_left b.line } := by
  obtain ⟨h1, h2, h3, h4, h5, h6, h7, h8⟩ := h
  refine ⟨h1, ?_, h3, h4, ?_, ?_, ?_, h8⟩
  · simp only [sv_trim_left, h2]
  · simp only [sv_trim_left]
    omega
  · simp only [sv_trim_left]
    omega
  · simp only [sv_trim_left, h2]
    omega

theorem row_shifted_next_line {a b : Bang_Lexer} (hrow : a.row = b.row + 1)
    (hcontent : a.content.chars = b.content.chars)
    (hfull : a.peek_buffer_full = b.peek_buffer_full)
    (hbuf : a.peek_buffer_full = true → Token_Shifted a.peek_buffer b.peek_buffer) :
    Row_Shifted (bang_lexer_next_line a) (bang_lexer_next_line b) := by
  refine ⟨?_, ?_, ?_, hfull, Nat.le_refl _, Nat.le_refl _, ?_, hbuf⟩
  · simp only [bang_lexer_next_line, hrow]
  · simp only [bang_lexer_next_line, sv_chop_by_delim, hcontent]
  · simp only [bang_lexer_next_line, sv_chop_by_delim, String_View.count, hcontent]
    split_ifs <;> rfl
  · simp only [bang_lexer_next_line, sv_chop_by_delim, Nat.sub_self]

theorem row_shifted_skip_lines (fuel : Nat) {a b : Bang_Lexer} (h : Row_Shifted a b) :
    Row_Shifted (bang_lexer_skip_lines fuel a) (bang_lexer_skip_lines fuel b) := by
  induction fuel generalizing a b with
  | zero => exact h
  | succ n ih =>
    have h' := h
    obtain ⟨h1, h2, h3, h4, _, _, _, h8⟩ := h'
    unfold bang_lexer_skip_lines
    simp only [String_View.count, h2, h3]
    split_ifs
    · exact ih (row_shifted_trim (row_shifted_next_line h1 h3 h4 h8))
    · exact h

theorem row_shifted_extract {a b : Bang_Lexer} (h : Row_Shifted a b) :
    Row_Shifted (bang_lexer_extract a) (bang_lexer_extract b) := by
  unfold bang_lexer_extract
  simp only [String_View.count, h.2.2.1]
  exact row_shifted_skip_lines _ (row_shifted_trim h)

theorem row_shifted_spit {a b : Bang_Lexer} (h : Row_Shifted a b)
    (kind : Bang_Token_Kind) (n : Nat) :
    Outcome_Shifted (bang_lexer_spit a kind n) (bang_lexer_spit b kind n) := by
  obtain ⟨h1, h2, h3, h4, h5, h6, h7, h8⟩ := h
  rw [bang_lexer_spit_eq, bang_lexer_spit_eq]
  simp only [h2, h4, h5, h6, and_true]
  split_ifs with hcond
  · refine ⟨⟨rfl, ?_, ?_, ?_⟩, ?_, ?_, h3, rfl, ?_, ?_, ?_, fun _ => ⟨rfl, ?_, ?_, ?_⟩⟩
    all_goals simp only [spit_result, h1, h2]
    all_goals omega
  · trivial

theorem row_shifted_fatal {a b : Bang_Lexer} (h : Row_Shifted a b) (msg : String) :
    Outcome_Shifted (bang_lexer_fatal a msg) (bang_lexer_fatal b msg) := by
  obtain ⟨h1, h2, h3, h4, h5, h6, h7, h8⟩ := h
  simp only [bang_lexer_fatal, bang_lexer_loc, h5, h6, if_true, Outcome_Shifted]
  refine ⟨trivial, trivial, h1, ?_⟩
  omega

theorem row_shifted_classify {a b : Bang_Lexer} (h : Row_Shifted a b) (c : Char)
    (rest : List Char) :
    Outcome_Shifted (bang_lexer_classify a c rest) (bang_lexer_classify b c rest) := by
  rw [bang_lexer_classify_eq_decision, bang_lexer_classify_eq_decision, h.2.1]
  cases lexer_decision b.line.chars c rest with
  | spit kind size => exact row_shifted_spit h kind size
  | fatal msg => exact row_shifted_fatal h msg
  | assert_failed => trivial

theorem row_shifted_peek_of_extract {a b : Bang_Lexer}
    (ha : a.peek_buffer_full = false) (hb : b.peek_buffer_full = false)
    (h : Row_Shifted (bang_lexer_extract a) (bang_lexer_extract b)) :
    Outcome_Shifted (bang_lexer_peek a) (bang_lexer_peek b) := by
  unfold bang_lexer_peek
  rw [ha, hb]
  simp only [Bool.false_eq_true, if_false]
  rw [h.2.1]
  cases (bang_lexer_extract b).line.chars with
  | nil => exact h
  | cons c rest => exact row_shifted_classify h c rest

theorem row_shifted_peek {a b : Bang_Lexer} (h : Row_Shifted a b) :
    Outcome_Shifted (bang_lexer_peek a) (bang_lexer_peek b) := by
  by_cases hfull : b.peek_buffer_full = true
  · have ha : a.peek_buffer_full = true := h.2.2.2.1.trans hfull
    unfold bang_lexer_peek
    rw [if_pos ha, if_pos hfull]
    exact ⟨h.2.2.2.2.2.2.2 ha, h⟩
  · have hb : b.peek_buffer_full = false := by simpa using hfull
    exact row_shifted_peek_of_extract (h.2.2.2.1.trans hb) hb (row_shifted_extract h)

theorem row_shifted_next_of_peek {a b : Bang_Lexer}
    (h : Outcome_Shifted (bang_lexer_peek a) (bang_lexer_peek b)) :
    Outcome_Shifted (bang_lexer_next a) (bang_lexer_next b) := by
  unfold bang_lexer_next
  cases ha : bang_lexer_peek a <;> cases hb : bang_lexer_peek b <;> rw [ha, hb] at h
  all_goals first
    | exact h.elim
    | exact h
    | skip
  obtain ⟨ht, h1, h2, h3, h4, h5, h6, h7, h8⟩ := h
  exact ⟨ht, h1, h2, h3, rfl, h5, h6, h7, fun hf => by cases hf⟩

theorem row_shifted_call {a b : Bang_Lexer}
    (h : Outcome_Shifted (bang_lexer_peek a) (bang_lexer_peek b)) (call : Lexer_Call) :
    Outcome_Shifted (bang_lexer_call call a) (bang_lexer_call call b) := by
  cases call with
  | peek => exact h
  | next => exact row_shifted_next_of_peek h

theorem observe_then_shifted {oa ob : Bang_Outcome} (h : Outcome_Shifted oa ob)
    (ra rb : Bang_Lexer → List Lexer_Obs)
    (hrest : ∀ a b, Row_Shifted a b → ra a = (rb b).map Lexer_Obs.next_row) :
    observe_then ra oa = (observe_then rb ob).map Lexer_Obs.next_row := by
  cases oa <;> cases ob
  all_goals first
    | exact h.elim
    | skip
  · obtain ⟨⟨h1, h2, h3, h4⟩, hr⟩ := h
    simp only [observe_then, List.map_cons, Lexer_Obs.next_row, h1, h2, h3, h4, hrest _ _ hr]
  · simp only [observe_then, List.map_cons, Lexer_Obs.next_row, hrest _ _ h]
  · obtain ⟨h1, h2, h3, h4⟩ := h
    simp only [observe_then, List.map_cons, List.map_nil, Lexer_Obs.next_row, h1, h2, h3, h4]
  · rfl

theorem trace_shifted (calls : List Lexer_Call) :
    ∀ a b, Row_Shifted a b →
      bang_lexer_trace calls a = (bang_lexer_trace calls b).map Lexer_Obs.next_row := by
  induction calls with
  | nil =>
    intro a b _
    rfl
  | cons call calls ih =>
    intro a b h
    simp only [bang_lexer_trace]
    exact observe_then_shifted (row_shifted_call (row_shifted_peek h) call) _ _ ih

theorem bang_lexer_skip_lines_comment (fuel : Nat) (lexer : Bang_Lexer) (l : List Char)
    (hline : lexer.line.chars = '#' :: l) (hcontent : lexer.content.chars ≠ []) :
    bang_lexer_skip_lines (fuel + 1) lexer =
      bang_lexer_skip_lines fuel (next_trimmed_line lexer) := by
  have hpos : 0 < lexer.content.chars.length := List.length_pos.mpr hcontent
  rw [bang_lexer_skip_lines]
  simp [String_View.count, hline, hpos, next_trimmed_line]

theorem next_line_first_line (lexer : Bang_Lexer) (c r : List Char)
    (hcontent : lexer.content.chars = c ++ '\n' :: r)
    (hnl : ∀ x ∈ c, (x != '\n') = true) :
    (bang_lexer_next_line lexer).line = ⟨lexer.content.data, c⟩ ∧
      (bang_lexer_next_line lexer).content = ⟨lexer.content.data + (c.length + 1), r⟩ := by
  have htw : lexer.content.chars.takeWhile (fun x => x != '\n') = c := by
    rw [hcontent, takeWhile_append_of_all hnl]
    simp [List.takeWhile_cons]
  have hlt : c.length < lexer.content.chars.length := by
    rw [hcontent]
    simp
  simp only [bang_lexer_next_line, sv_chop_by_delim, String_View.count]
  rw [htw, if_pos hlt, hcontent]
  simp

/-- The skipping loop on a buffer that starts with a comment line leaves the
lexer in the state that the loop leaves on the rest of the buffer, one row
further down. -/
theorem skip_first_comment (a b : Bang_Lexer) (c r ws body : List Char)
    (ha_line : a.line.chars = []) (hb_line : b.line.chars = [])
    (ha_content : a.content.chars = c ++ '\n' :: r) (hb_content : b.content.chars = r)
    (hc : c = ws ++ '#' :: body) (hws : ∀ w ∈ ws, isspace w = true)
    (hnl : ∀ x ∈ c, (x != '\n') = true) (hr : r ≠ [])
    (hrow : a.row = b.row) (hfa : a.peek_buffer_full = false)
    (hfb : b.peek_buffer_full = false) :
    Row_Shifted (bang_lexer_skip_lines a.content.count a)
      (bang_lexer_skip_lines b.content.count b) := by
  have hane : a.content.chars ≠ [] := by simp [ha_content]
  have hbne : b.content.chars ≠ [] := by rw [hb_content]; exact hr
  -- the comment line of `a`
  obtain ⟨hl1, hc1⟩ := next_line_first_line a c r ha_content hnl
  have hline1 : (next_trimmed_line a).line.chars = '#' :: body := by
    simp only [next_trimmed_line]
    rw [hl1, sv_trim_left_eq _ ws '#' body hc hws (by decide)]
  have hcontent1 : (next_trimmed_line a).content.chars = r := by
    simp only [next_trimmed_line]
    rw [hc1]
  have hrow1 : (next_trimmed_line a).row = a.row + 1 := rfl
  have hfull1 : (next_trimmed_line a).peek_buffer_full = false := hfa
  have hne1 : (next_trimmed_line a).content.chars ≠ [] := by rw [hcontent1]; exact hr
  -- the related states behind the comment
  have hrel : Row_Shifted (next_trimmed_line (next_trimmed_line a)) (next_trimmed_line b) := by
    apply row_shifted_trim
    apply row_shifted_next_line
    · rw [hrow1, hrow]
    · rw [hcontent1, hb_content]
    · rw [hfull1]
      exact hfb.symm
    · intro hf
      rw [hfull1] at hf
      cases hf
  have hblt : (next_trimmed_line b).content.chars.length < b.content.chars.length :=
    next_line_content_lt b hbne
  have hble : (next_trimmed_line b).content.chars.length ≤ b.content.chars.length :=
    Nat.le_of_lt hblt
  have hale : (next_trimmed_line (next_trimmed_line a)).content.chars.length ≤
      b.content.chars.length := by
    rw [hrel.2.2.1]
    exact hble
  have hab : b.content.chars.length ≤ a.content.chars.length := by
    rw [ha_content, hb_content]
    simp only [List.length_append, List.length_cons]
    omega
  -- the fuel of both loops
  have e1 : bang_lexer_skip_lines a.content.count a =
      bang_lexer_skip_lines (a.content.count + 1 + 1) a :=
    skip_lines_fuel a.content.count (a.content.count + 1 + 1) a (Nat.le_refl _)
      (by simp only [String_View.count]; omega)
  have e2 : bang_lexer_skip_lines (a.content.count + 1 + 1) a =
      bang_lexer_skip_lines (a.content.count + 1) (next_trimmed_line a) :=
    bang_lexer_skip_lines_succ (a.content.count + 1) a ha_line hane
  have e3 : bang_lexer_skip_lines (a.content.count + 1) (next_trimmed_line a) =
      bang_lexer_skip_lines a.content.count (next_trimmed_line (next_trimmed_line a)) :=
    bang_lexer_skip_lines_comment a.content.count (next_trimmed_line a) body hline1 hne1
  have e4 : bang_lexer_skip_lines a.content.count (next_trimmed_line (next_trimmed_line a)) =
      bang_lexer_skip_lines b.content.count (next_trimmed_line (next_trimmed_line a)) :=
    skip_lines_fuel a.content.count b.content.count _
      (by simp only [String_View.count]; omega) hale
  have e5 : bang_lexer_skip_lines b.content.count b =
      bang_lexer_skip_lines (b.content.count + 1) b :=
    skip_lines_fuel b.content.count (b.content.count + 1) b (Nat.le_refl _)
      (by simp only [String_View.count]; omega)
  have e6 : bang_lexer_skip_lines (b.content.count + 1) b =
      bang_lexer_skip_lines b.content.count (next_trimmed_line b) :=
    bang_lexer_skip_lines_succ b.content.count b hb_line hbne
  rw [e1, e2, e3, e4, e5, e6]
  exact row_shifted_skip_lines _ hrel

theorem extract_first_comment (a b : Bang_Lexer) (c r ws body : List Char)
    (ha_line : a.line.chars = []) (hb_line : b.line.chars = [])
    (ha_content : a.content.chars = c ++ '\n' :: r) (hb_content : b.content.chars = r)
    (hc : c = ws ++ '#' :: body) (hws : ∀ w ∈ ws, isspace w = true)
    (hnl : ∀ x ∈ c, (x != '\n') = true) (hr : r ≠ [])
    (hrow : a.row = b.row) (hfa : a.peek_buffer_full = false)
    (hfb : b.peek_buffer_full = false) :
    Row_Shifted (bang_lexer_extract a) (bang_lexer_extract b) := by
  unfold bang_lexer_extract
  exact skip_first_comment { a with line := sv_trim_left a.line }
    { b with line := sv_trim_left b.line } c r ws body
    (by simp [sv_trim_left, ha_line]) (by simp [sv_trim_left, hb_line])
    ha_content hb_content hc hws hnl hr hrow hfa hfb

/-- C11: comment skipping of the Structured Lexer.  Let `c` be a comment line
(whitespace `ws`, then `#`, then any characters, none of `c` a newline) and
`r` a non-empty remainder.  For every sequence of `peek` / `next` calls, a
lexer freshly constructed on `c`, a newline and `r` shows its caller exactly
the outcomes that a lexer freshly constructed on `r` alone shows (token kinds,
texts and columns, end of input, fatal diagnostics with their status and
message, up to the first call that does not return), with every reported row
increased by one. -/
theorem comment_line_skipped (base base2 : Nat) (file_path : String)
    (c r ws body : List Char) (calls : List Lexer_Call)
    (hc : c = ws ++ '#' :: body) (hws : ∀ w ∈ ws, isspace w = true)
    (hnl : '\n' ∉ c) (hr : r ≠ []) :
    bang_lexer_trace calls (bang_lexer_from_sv ⟨base, c ++ '\n' :: r⟩ file_path) =
      (bang_lexer_trace calls (bang_lexer_from_sv ⟨base2, r⟩ file_path)).map
        Lexer_Obs.next_row := by
  have hnl2 : ∀ x ∈ c, (x != '\n') = true := by
    intro x hx
    have : x ≠ '\n' := fun e => hnl (e ▸ hx)
    simpa using this
  have hext := extract_first_comment
    (bang_lexer_from_sv ⟨base, c ++ '\n' :: r⟩ file_path)
    (bang_lexer_from_sv ⟨base2, r⟩ file_path) c r ws body rfl rfl rfl rfl hc hws hnl2 hr
    rfl rfl rfl
  cases calls with
  | nil => rfl
  | cons call calls =>
    simp only [bang_lexer_trace]
    exact observe_then_shifted
      (row_shifted_call (row_shifted_peek_of_extract rfl rfl hext) call) _ _
      (trace_shifted calls)

/-- Witness of C11: behind the comment line ` # x` the buffer `a`, newline,
`"b` shows the name `a` in row 2 and the unclosed literal in row 3; alone it
shows them in rows 1 and 2. -/
theorem comment_line_skipped_witness :
    bang_lexer_trace [.peek, .next, .next]
        (bang_lexer_from_sv ⟨0, " # x\na\n\"b".toList⟩ "a.bang") =
      (bang_lexer_trace [.peek, .next, .next]
        (bang_lexer_from_sv ⟨0, "a\n\"b".toList⟩ "a.bang")).map Lexer_Obs.next_row ∧
    bang_lexer_trace [.peek, .next, .next]
        (bang_lexer_from_sv ⟨0, " # x\na\n\"b".toList⟩ "a.bang") =
      [.token .NAME ['a'] 2 1, .token .NAME ['a'] 2 1,
       .fatal 1 3 1 ": ERROR: unclosed string literal"] :=
  ⟨comment_line_skipped 0 0 "a.bang" " # x".toList "a\n\"b".toList [' '] [' ', 'x']
      [.peek, .next, .next] rfl (by decide) (by decide) (by decide),
   by decide⟩

/-! ## C12: string literals of the Structured Lexer -/

theorem takeWhile_line_closed (s rest : List Char) (hnl : '\n' ∉ s) :
    ('"' :: (s ++ '"' :: rest)).takeWhile (fun x => x != '\n') =
      '"' :: (s ++ '"' :: rest.takeWhile (fun x => x != '\n')) := by
  have hs : ∀ y ∈ s, (y != '\n') = true := by
    intro y hy
    have : y ≠ '\n' := fun e => hnl (e ▸ hy)
    simpa using this
  have h1 : (('"' : Char) != '\n') = true := by decide
  rw [List.takeWhile_cons, if_pos h1, takeWhile_append_of_all hs, List.takeWhile_cons,
    if_pos h1]

theorem takeWhile_line_open (s tail : List Char) (hnl : '\n' ∉ s)
    (htail : ∀ x, tail.head? = some x → x = '\n') :
    ('"' :: (s ++ tail)).takeWhile (fun x => x != '\n') = '"' :: s := by
  have hs : ∀ y ∈ s, (y != '\n') = true := by
    intro y hy
    have : y ≠ '\n' := fun e => hnl (e ▸ hy)
    simpa using this
  have h1 : (('"' : Char) != '\n') = true := by decide
  rw [List.takeWhile_cons, if_pos h1, takeWhile_append_of_all hs]
  cases tail with
  | nil => simp
  | cons x xs =>
    have hx := htail x rfl
    subst hx
    simp

theorem bang_lexer_peek_closed (lexer : Bang_Lexer) (s rest : List Char)
    (hfull : lexer.peek_buffer_full = false) (hstart : lexer.line_start ≤ lexer.line.data)
    (hline : (bang_lexer_extract lexer).line.chars = '"' :: (s ++ '"' :: rest))
    (hs : '"' ∉ s) :
    bang_lexer_peek lexer =
      .token
        { kind := .LIT_STR,
          text := ⟨(bang_lexer_extract lexer).line.data, '"' :: (s ++ ['"'])⟩,
          loc := { row := (bang_lexer_extract lexer).row,
                   col := (bang_lexer_extract lexer).line.data -
                     (bang_lexer_extract lexer).line_start + 1,
                   file_path := (bang_lexer_extract lexer).file_path } }
        { bang_lexer_extract lexer with
          line := ⟨(bang_lexer_extract lexer).line.data + (1 + s.length + 1), rest⟩,
          peek_buffer :=
            { kind := .LIT_STR,
              text := ⟨(bang_lexer_extract lexer).line.data, '"' :: (s ++ ['"'])⟩,
              loc := { row := (bang_lexer_extract lexer).row,
                       col := (bang_lexer_extract lexer).line.data -
                         (bang_lexer_extract lexer).line_start + 1,
                       file_path := (bang_lexer_extract lexer).file_path } },
          peek_buffer_full := true } := by
  have hspit := bang_lexer_spit_ok (bang_lexer_extract lexer) .LIT_STR (1 + s.length + 1)
    (by rw [hline]; simp; omega) ((extract_full lexer).trans hfull)
    (lexer_start_extract lexer hstart)
  rw [bang_lexer_peek_eq_classify lexer '"' _ hfull hline,
    bang_lexer_classify_closed _ s rest hline hs, hspit]
  have e1 : ('"' :: (s ++ '"' :: rest)).take (1 + s.length + 1) = '"' :: (s ++ ['"']) := by
    rw [Nat.add_comm 1 s.length]
    simp [List.take_append_eq_append_take]
  have e2 : ('"' :: (s ++ '"' :: rest)).drop (1 + s.length + 1) = rest := by
    rw [Nat.add_comm 1 s.length]
    simp [List.drop_append_eq_append_drop]
  simp only [spit_result, hline, e1, e2]

theorem bang_lexer_peek_open (lexer : Bang_Lexer) (s : List Char)
    (hfull : lexer.peek_buffer_full = false) (hstart : lexer.line_start ≤ lexer.line.data)
    (hline : (bang_lexer_extract lexer).line.chars = '"' :: s) (hs : '"' ∉ s) :
    bang_lexer_peek lexer =
      .fatal 1
        { row := (bang_lexer_extract lexer).row,
          col := (bang_lexer_extract lexer).line.data -
            (bang_lexer_extract lexer).line_start + 1,
          file_path := (bang_lexer_extract lexer).file_path }
        ": ERROR: unclosed string literal" := by
  rw [bang_lexer_peek_eq_classify lexer '"' _ hfull hline,
    bang_lexer_classify_open _ s hline hs]
  simp [bang_lexer_fatal, bang_lexer_loc, lexer_start_extract lexer hstart]

/-- C12: string literals of the Structured Lexer.  Let the peek buffer be
empty, `ws` be whitespace and `s` contain no double quote.

The current line at the classification is the line of
`bang_lexer_extract lexer`, trimmed.  In a state with
`line_start <= line.data`: if that line is `" s " rest`, `bang_lexer_peek`
returns a string-literal token whose text is the whole slice `" s "`, both
quotes included, and advances the line by exactly that length, leaving
`rest`; if that line is `" s`, with no closing quote, `bang_lexer_peek`
takes the fatal unclosed-string-literal path with status 1.

The literal on the line the lexer is in (with `line_start <= line.data`): if
the rest of the line is `ws " s " rest`, the token is that slice and `rest`
is left; if it is `ws " s`, the call is fatal, whatever the later lines of
the buffer hold.

The literal on a line to be fetched: the rest of the line is the whitespace
`ws1` and the rest of the buffer is `ws " s " rest`, or `ws " s tail` with
`tail` empty or starting with a newline, where `s` holds no newline (`ws`
may hold blank lines).  The token is the slice `" s "` of the buffer and the
line left is `rest` up to its first newline; the unclosed literal is fatal
whatever `tail` holds behind its newline. -/
theorem lexer_string_literal (lexer : Bang_Lexer) (ws ws1 s rest tail : List Char)
    (hfull : lexer.peek_buffer_full = false)
    (hws : ∀ w ∈ ws, isspace w = true) (hs : '"' ∉ s) :
    (lexer.line_start ≤ lexer.line.data →
      (bang_lexer_extract lexer).line.chars = '"' :: (s ++ '"' :: rest) →
      bang_lexer_peek lexer =
        .token
          { kind := .LIT_STR,
            text := ⟨(bang_lexer_extract lexer).line.data, '"' :: (s ++ ['"'])⟩,
            loc := { row := (bang_lexer_extract lexer).row,
                     col := (bang_lexer_extract lexer).line.data -
                       (bang_lexer_extract lexer).line_start + 1,
                     file_path := (bang_lexer_extract lexer).file_path } }
          { bang_lexer_extract lexer with
            line := ⟨(bang_lexer_extract lexer).line.data + (1 + s.length + 1), rest⟩,
            peek_buffer :=
              { kind := .LIT_STR,
                text := ⟨(bang_lexer_extract lexer).line.data, '"' :: (s ++ ['"'])⟩,
                loc := { row := (bang_lexer_extract lexer).row,
                         col := (bang_lexer_extract lexer).line.data -
                           (bang_lexer_extract lexer).line_start + 1,
                         file_path := (bang_lexer_extract lexer).file_path } },
            peek_buffer_full := true }) ∧
    (lexer.line_start ≤ lexer.line.data →
      (bang_lexer_extract lexer).line.chars = '"' :: s →
      ∃ loc, bang_lexer_peek lexer = .fatal 1 loc ": ERROR: unclosed string literal") ∧
    (lexer.line_start ≤ lexer.line.data →
      lexer.line.chars = ws ++ '"' :: (s ++ '"' :: rest) →
      bang_lexer_peek lexer =
        .token
          { kind := .LIT_STR,
            text := ⟨lexer.line.data + ws.length, '"' :: (s ++ ['"'])⟩,
            loc := { row := lexer.row,
                     col := lexer.line.data + ws.length - lexer.line_start + 1,
                     file_path := lexer.file_path } }
          { lexer with
            line := ⟨lexer.line.data + ws.length + (1 + s.length + 1), rest⟩,
            peek_buffer :=
              { kind := .LIT_STR,
                text := ⟨lexer.line.data + ws.length, '"' :: (s ++ ['"'])⟩,
                loc := { row := lexer.row,
                         col := lexer.line.data + ws.length - lexer.line_start + 1,
                         file_path := lexer.file_path } },
            peek_buffer_full := true }) ∧
    (lexer.line_start ≤ lexer.line.data → lexer.line.chars = ws ++ '"' :: s →
      ∃ loc, bang_lexer_peek lexer = .fatal 1 loc ": ERROR: unclosed string literal") ∧
    (lexer.line.chars = ws1 → (∀ w ∈ ws1, isspace w = true) →
      lexer.content.chars = ws ++ '"' :: (s ++ '"' :: rest) → '\n' ∉ s →
      ∃ t lx, bang_lexer_peek lexer = .token t lx ∧ t.kind = .LIT_STR ∧
        t.text = ⟨lexer.content.data + ws.length, '"' :: (s ++ ['"'])⟩ ∧
        lx.line = ⟨lexer.content.data + ws.length + (1 + s.length + 1),
                    rest.takeWhile (fun x => x != '\n')⟩ ∧
        lx.peek_buffer = t ∧ lx.peek_buffer_full = true) ∧
    (lexer.line.chars = ws1 → (∀ w ∈ ws1, isspace w = true) →
      lexer.content.chars = ws ++ '"' :: (s ++ tail) → '\n' ∉ s →
      (∀ x, tail.head? = some x → x = '\n') →
      ∃ loc, bang_lexer_peek lexer = .fatal 1 loc ": ERROR: unclosed string literal") := by
  refine ⟨?_, ?_, ?_, ?_, ?_, ?_⟩
  · intro hstart hline
    exact bang_lexer_peek_closed lexer s rest hfull hstart hline hs
  · intro hstart hline
    exact ⟨_, bang_lexer_peek_open lexer s hfull hstart hline hs⟩
  · intro hstart hline
    have hext := bang_lexer_extract_here lexer ws '"' _ hline hws (by decide) (by decide)
    have h := bang_lexer_peek_closed lexer s rest hfull hstart (by rw [hext]) hs
    rw [h, hext]
  · intro hstart hline
    have hext := bang_lexer_extract_here lexer ws '"' _ hline hws (by decide) (by decide)
    exact ⟨_, bang_lexer_peek_open lexer s hfull hstart (by rw [hext]) hs⟩
  · intro hline hws1 hcontent hnl
    obtain ⟨h1, h2, h3, h4⟩ := bang_lexer_extract_below lexer ws1 ws '"' _ hline hws1
      hcontent hws (by decide) (by decide)
    rw [takeWhile_line_closed s rest hnl] at h1
    have hl : (bang_lexer_extract lexer).line.chars =
        '"' :: (s ++ '"' :: rest.takeWhile (fun x => x != '\n')) := by rw [h1]
    have hspit := bang_lexer_spit_ok (bang_lexer_extract lexer) .LIT_STR (1 + s.length + 1)
      (by rw [hl]; simp; omega) (h3.trans hfull) h2
    have e1 : ('"' :: (s ++ '"' :: rest.takeWhile (fun x => x != '\n'))).take
        (1 + s.length + 1) = '"' :: (s ++ ['"']) := by
      rw [Nat.add_comm 1 s.length]
      simp [List.take_append_eq_append_take]
    have e2 : ('"' :: (s ++ '"' :: rest.takeWhile (fun x => x != '\n'))).drop
        (1 + s.length + 1) = rest.takeWhile (fun x => x != '\n') := by
      rw [Nat.add_comm 1 s.length]
      simp [List.drop_append_eq_append_drop]
    refine ⟨(spit_result (bang_lexer_extract lexer) .LIT_STR (1 + s.length + 1)).1,
      (spit_result (bang_lexer_extract lexer) .LIT_STR (1 + s.length + 1)).2,
      ?_, rfl, ?_, ?_, rfl, rfl⟩
    · rw [bang_lexer_peek_eq_classify lexer '"' _ hfull hl,
        bang_lexer_classify_closed _ s _ hl hs]
      exact hspit
    · simp only [spit_result, h1, e1]
    · simp only [spit_result, h1, e2]
  · intro hline hws1 hcontent hnl htail
    obtain ⟨h1, h2, h3, h4⟩ := bang_lexer_extract_below lexer ws1 ws '"' _ hline hws1
      hcontent hws (by decide) (by decide)
    rw [takeWhile_line_open s tail hnl htail] at h1
    have hl : (bang_lexer_extract lexer).line.chars = '"' :: s := by rw [h1]
    rw [bang_lexer_peek_eq_classify lexer '"' _ hfull hl,
      bang_lexer_classify_open _ s hl hs]
    simp [bang_lexer_fatal, bang_lexer_loc, h2]

/-- Witness of C12, on lexers freshly constructed on a buffer.  On `"ab" c`
the first `peek` fetches the line and returns the literal `"ab"`, leaving
` c`.  On `"ab`, newline, `c"` the first `peek` is fatal although the next
line holds a double quote.  On `x "ab" c`, after `next` has returned `x`, the
literal is on the line the lexer is in: `peek` returns `"ab"` at column 3 and
leaves ` c`. -/
theorem lexer_string_literal_witness :
    (∃ t lx, bang_lexer_peek (bang_lexer_from_sv ⟨0, "\"ab\" c".toList⟩ "a.bang") =
        .token t lx ∧ t.kind = .LIT_STR ∧ t.text = ⟨0, ['"', 'a', 'b', '"']⟩ ∧
        lx.line = ⟨4, [' ', 'c']⟩ ∧ lx.peek_buffer = t ∧ lx.peek_buffer_full = true) ∧
    (∃ loc, bang_lexer_peek (bang_lexer_from_sv ⟨0, "\"ab\nc\"".toList⟩ "a.bang") =
        .fatal 1 loc ": ERROR: unclosed string literal") ∧
    (∃ lexer,
        bang_lexer_run [.next] (bang_lexer_from_sv ⟨0, "x \"ab\" c".toList⟩ "a.bang") =
          some lexer ∧
        bang_lexer_peek lexer =
          .token
            { kind := .LIT_STR, text := ⟨2, ['"', 'a', 'b', '"']⟩, loc := ⟨1, 3, "a.bang"⟩ }
            { lexer with
              line := ⟨6, [' ', 'c']⟩,
              peek_buffer :=
                { kind := .LIT_STR, text := ⟨2, ['"', 'a', 'b', '"']⟩,
                  loc := ⟨1, 3, "a.bang"⟩ },
              peek_buffer_full := true }) := by
  have hrun :
      bang_lexer_run [.next] (bang_lexer_from_sv ⟨0, "x \"ab\" c".toList⟩ "a.bang") =
        some { bang_lexer_from_sv ⟨8, []⟩ "a.bang" with
          line := ⟨1, " \"ab\" c".toList⟩, row := 1,
          peek_buffer := ⟨.NAME, ⟨0, ['x']⟩, ⟨1, 1, "a.bang"⟩⟩ } := by decide
  exact
    ⟨(lexer_string_literal (bang_lexer_from_sv ⟨0, "\"ab\" c".toList⟩ "a.bang")
        [] [] ['a', 'b'] [' ', 'c'] [] rfl (by simp) (by decide)).2.2.2.2.1
        rfl (by simp) rfl (by decide),
     (lexer_string_literal (bang_lexer_from_sv ⟨0, "\"ab\nc\"".toList⟩ "a.bang")
        [] [] ['a', 'b'] [] ['\n', 'c', '"'] rfl (by simp) (by decide)).2.2.2.2.2
        rfl (by simp) rfl (by decide) (by simp),
     ⟨_, hrun,
      (lexer_string_literal
        { bang_lexer_from_sv ⟨8, []⟩ "a.bang" with
          line := ⟨1, " \"ab\" c".toList⟩, row := 1,
          peek_buffer := ⟨.NAME, ⟨0, ['x']⟩, ⟨1, 1, "a.bang"⟩⟩ }
        [' '] [] ['a', 'b'] [' ', 'c'] [] rfl (by decide) (by decide)).2.2.1
        (by decide) rfl⟩⟩

/-! ## C17: the location of an unclosed string literal -/

theorem unknown_ne_unclosed (c : Char) :
    ": ERROR: unknown token starts with `" ++ String.singleton c ++ "`\n" ≠
      ": ERROR: unclosed string literal" := by
  intro h
  have h2 := congrArg String.length h
  simp [String.length_append] at h2
  revert h2
  decide

theorem takeWhile_append_cons_of_not (p : Char → Bool) (a b : List Char) (x : Char)
    (hx : p x = false) : (a ++ x :: b).takeWhile p = a.takeWhile p := by
  induction a with
  | nil => simp [List.takeWhile_cons, hx]
  | cons y ys ih =>
    by_cases hy : p y = true
    · simp [List.takeWhile_cons, hy, ih]
    · simp [List.takeWhile_cons, hy]

theorem count_newline_zero {l : List Char} (h : ∀ w ∈ l, (w != '\n') = true) :
    l.count '\n' = 0 := by
  rw [List.count_eq_zero]
  intro hmem
  simpa using h _ hmem

/-- The row and the start of the line that the skipping loop reaches over
blank lines: one row per newline of `ws` and one for the line fetched last,
which starts behind the last newline of `ws`. -/
theorem bang_lexer_skip_lines_row (fuel : Nat) (lexer : Bang_Lexer) (ws : List Char)
    (c : Char) (rest : List Char) (hline : lexer.line.chars = [])
    (hcontent : lexer.content.chars = ws ++ c :: rest)
    (hws : ∀ w ∈ ws, isspace w = true) (hc : isspace c = false) (hc2 : c ≠ '#')
    (hfuel : lexer.content.chars.length ≤ fuel) :
    (bang_lexer_skip_lines fuel lexer).row = lexer.row + ws.count '\n' + 1 ∧
      (bang_lexer_skip_lines fuel lexer).line_start +
          (ws.reverse.takeWhile (fun x => x != '\n')).length =
        lexer.content.data + ws.length := by
  induction fuel generalizing lexer ws with
  | zero =>
    rw [hcontent] at hfuel
    simp at hfuel
  | succ n ih =>
    have hne : lexer.content.chars ≠ [] := by
      rw [hcontent]
      simp
    rw [bang_lexer_skip_lines_succ n lexer hline hne]
    have hcn := not_newline_of_not_space hc
    have hsplit := List.takeWhile_append_dropWhile (fun x => x != '\n') ws
    have hw1 : ∀ w ∈ ws.takeWhile (fun x => x != '\n'), (w != '\n') = true := by
      intro w hw
      have hp := List.mem_takeWhile_imp hw
      exact hp
    have hw1s : ∀ w ∈ ws.takeWhile (fun x => x != '\n'), isspace w = true :=
      fun w hw => hws w ((List.takeWhile_prefix _).subset hw)
    cases hd : ws.dropWhile (fun x => x != '\n') with
    | nil =>
      rw [hd, List.append_nil] at hsplit
      rw [hsplit] at hw1
      obtain ⟨h1, h2, h3, h4⟩ := next_trimmed_line_last lexer ws c rest hcontent hws hc hw1
      have hstop := bang_lexer_skip_lines_stop n (next_trimmed_line lexer) c
        (rest.takeWhile (fun x => x != '\n'))
        (by rw [h1, List.takeWhile_cons, if_pos hcn]) hc2
      rw [hstop]
      have hrev : ws.reverse.takeWhile (fun x => x != '\n') = ws.reverse := by
        have := takeWhile_append_of_all
          (fun x hx => hw1 x (List.mem_reverse.mp hx)) ([] : List Char)
        simpa using this
      refine ⟨?_, ?_⟩
      · rw [count_newline_zero hw1]
        rfl
      · rw [h2, hrev, List.length_reverse]
    | cons x w2 =>
      have hx : x = '\n' := by
        have := dropWhile_head_not (fun x => x != '\n') ws x (by rw [hd]; rfl)
        simpa using this
      subst hx
      rw [hd] at hsplit
      have hw2s : ∀ w ∈ w2, isspace w = true := by
        intro w hw
        apply hws
        rw [← hsplit]
        exact List.mem_append_right _ (List.mem_cons_of_mem _ hw)
      have hcontent2 : lexer.content.chars =
          ws.takeWhile (fun x => x != '\n') ++ '\n' :: (w2 ++ c :: rest) := by
        rw [hcontent]
        nth_rewrite 1 [← hsplit]
        simp
      obtain ⟨h1, h2, h3, h4⟩ := next_trimmed_line_blank lexer _ w2 (c :: rest) hcontent2
        hw1s hw1
      have hlen : ws.length = (ws.takeWhile (fun x => x != '\n')).length + 1 + w2.length := by
        nth_rewrite 1 [← hsplit]
        simp
        omega
      have hfuel2 : (next_trimmed_line lexer).content.chars.length ≤ n := by
        rw [h2]
        rw [hcontent2] at hfuel
        simp at hfuel ⊢
        omega
      obtain ⟨k1, k2⟩ := ih (next_trimmed_line lexer) w2 h1 (by rw [h2]) hw2s hfuel2
      have hcount : ws.count '\n' = w2.count '\n' + 1 := by
        nth_rewrite 1 [← hsplit]
        rw [List.count_append, count_newline_zero hw1, List.count_cons_self]
        omega
      have hrev : ws.reverse.takeWhile (fun x => x != '\n') =
          w2.reverse.takeWhile (fun x => x != '\n') := by
        nth_rewrite 1 [← hsplit]
        rw [List.reverse_append, List.reverse_cons, List.append_assoc]
        exact takeWhile_append_cons_of_not _ _ _ _ (by decide)
      refine ⟨?_, ?_⟩
      · rw [k1, hcount]
        have hr : (next_trimmed_line lexer).row = lexer.row + 1 := rfl
        omega
      · rw [hrev, k2, h2, hlen]
        simp only
        omega

theorem bang_lexer_extract_row (lexer : Bang_Lexer) (ws1 ws : List Char) (c : Char)
    (rest : List Char) (hline : lexer.line.chars = ws1)
    (hws1 : ∀ w ∈ ws1, isspace w = true)
    (hcontent : lexer.content.chars = ws ++ c :: rest)
    (hws : ∀ w ∈ ws, isspace w = true) (hc : isspace c = false) (hc2 : c ≠ '#') :
    (bang_lexer_extract lexer).row = lexer.row + ws.count '\n' + 1 ∧
      (bang_lexer_extract lexer).line_start +
          (ws.reverse.takeWhile (fun x => x != '\n')).length =
        lexer.content.data + ws.length := by
  unfold bang_lexer_extract
  have htrim : (sv_trim_left lexer.line).chars = [] := by
    have := dropWhile_append_of_all hws1 []
    simp only [sv_trim_left, hline]
    simpa using this
  exact bang_lexer_skip_lines_row lexer.content.count
    { lexer with line := sv_trim_left lexer.line } ws c rest htrim hcontent hws hc hc2
    (Nat.le_refl _)

theorem bang_lexer_spit_ne_fatal {lexer : Bang_Lexer} {kind : Bang_Token_Kind} {n : Nat}
    {status : Nat} {loc : Bang_Loc} {msg : String}
    (h : bang_lexer_spit lexer kind n = .fatal status loc msg) : False := by
  rw [bang_lexer_spit_eq] at h
  split_ifs at h

theorem bang_lexer_fatal_eq {lexer : Bang_Lexer} {msg msg1 : String} {status : Nat}
    {loc : Bang_Loc} (h : bang_lexer_fatal lexer msg = .fatal status loc msg1) :
    status = 1 ∧ bang_lexer_loc lexer = some loc ∧ msg = msg1 := by
  unfold bang_lexer_fatal at h
  split at h
  · cases h
  · rename_i l hl
    cases h
    exact ⟨rfl, hl, rfl⟩

/-- The unclosed-literal diagnostic comes out of the branch of the double
quote only, when no double quote follows on the line. -/
theorem bang_lexer_classify_unclosed {lexer : Bang_Lexer} {c : Char} {rest : List Char}
    {status : Nat} {loc : Bang_Loc} (hline : lexer.line.chars = c :: rest)
    (h : bang_lexer_classify lexer c rest =
      .fatal status loc ": ERROR: unclosed string literal") :
    c = '"' ∧ '"' ∉ rest ∧ status = 1 ∧ bang_lexer_loc lexer = some loc := by
  unfold bang_lexer_classify at h
  split at h
  · exact (bang_lexer_spit_ne_fatal h).elim
  · simp only at h
    split_ifs at h with h1 h2 h3 h4
    · exact (bang_lexer_spit_ne_fatal h).elim
    · obtain ⟨k1, k2, _⟩ := bang_lexer_fatal_eq h
      refine ⟨h2, ?_, k1, k2⟩
      rw [scan_while_eq] at h3
      simp only [String_View.count, hline, List.length_cons] at h3
      have hlen : (rest.takeWhile (fun x => x != '"')).length = rest.length := by
        have := length_takeWhile_le (fun x => x != '"') rest
        omega
      have heq := (List.takeWhile_prefix (fun x => x != '"')).eq_of_length hlen
      intro hmem
      rw [← heq] at hmem
      have := List.mem_takeWhile_imp hmem
      simp at this
    · exact (bang_lexer_spit_ne_fatal h).elim
    · obtain ⟨_, _, k3⟩ := bang_lexer_fatal_eq h
      exact (unknown_ne_unclosed c k3).elim

/-- The location of a lexer whose views lie in the buffer and whose current
line starts with a double quote that no double quote follows on the line: the
row and the column of that double quote in the buffer. -/
theorem lexer_shape_quote {base : Nat} {buf : List Char} {lexer : Bang_Lexer}
    {rest : List Char} {loc : Bang_Loc} (hshape : Lexer_Shape base buf lexer)
    (hline : lexer.line.chars = '"' :: rest) (hrest : '"' ∉ rest)
    (hloc : bang_lexer_loc lexer = some loc) :
    ∃ k, buf.get? k = some '"' ∧
      '"' ∉ (buf.drop (k + 1)).takeWhile (fun x => x != '\n') ∧
      loc.row = row_of buf k ∧ loc.col = col_of buf k := by
  rcases hshape with ⟨_, h2, _, _⟩ | ⟨pre, mid, tail, h1, h2, h3, h4, h5, h6, h7, h8, h9⟩
  · rw [h2] at hline
    cases hline
  · have hbuf : buf = (pre ++ mid) ++ '"' :: (rest ++ tail) := by
      rw [h1, hline]
      simp
    have htake : buf.take (pre ++ mid).length = pre ++ mid := by
      rw [hbuf]
      exact List.take_left' rfl
    have hdrop : buf.drop ((pre ++ mid).length + 1) = rest ++ tail := by
      have hb2 : buf = (pre ++ mid ++ ['"']) ++ (rest ++ tail) := by
        rw [hbuf]
        simp
      rw [hb2]
      exact List.drop_left' (by simp; omega)
    have hrestnl : ∀ x ∈ rest, (x != '\n') = true := by
      intro x hx
      apply h4
      rw [hline]
      exact List.mem_cons_of_mem _ hx
    have htw : (rest ++ tail).takeWhile (fun x => x != '\n') = rest := by
      rw [takeWhile_append_of_all hrestnl]
      rcases h9 with ⟨ht, _⟩ | ht
      · rw [ht]
        simp
      · rw [ht]
        simp
    have hmidcount : mid.count '\n' = 0 := count_newline_zero h3
    have hle : lexer.line_start ≤ lexer.line.data := by
      rw [h6, h7]
      exact Nat.le_add_right _ _
    unfold bang_lexer_loc at hloc
    rw [if_pos hle] at hloc
    cases hloc
    refine ⟨(pre ++ mid).length, ?_, ?_, ?_, ?_⟩
    · rw [hbuf]
      exact get?_append_length _ _ _
    · rw [hdrop, htw]
      exact hrest
    · simp only [row_of]
      rw [htake, List.count_append, hmidcount, h5]
      rfl
    · simp only [col_of]
      rw [htake, List.reverse_append,
        takeWhile_append_of_all (fun x hx => h3 x (List.mem_reverse.mp hx)), h2, h7, h6]
      simp
      omega

/-- C17, as amended: the location of an unclosed string literal.  Let `ws`
be whitespace and `s` contain no double quote; the diagnostic is
`unclosed string literal`, with status 1.

The literal on the line the lexer is in: when the peek buffer is empty,
`line_start <= line.data` holds and the rest of the line is `ws " s`, the
diagnostic of `bang_lexer_peek` carries the row of the lexer and the column
of the opening quote, 1 plus the distance of the quote from the start of the
line.

The literal on a line to be fetched: when the peek buffer is empty, the rest
of the line is the whitespace `ws1` and the rest of the buffer is
`ws " s tail`, with no newline in `s` and `tail` empty or starting with a
newline, the diagnostic carries the row of the lexer plus one for every
newline of `ws` plus one, and the column 1 plus the number of characters of
`ws` behind its last newline: the row and the column of the opening quote.

In every state that a lexer freshly constructed on the buffer `buf` reaches
by `peek` / `next` calls: when `bang_lexer_peek` ends with the diagnostic,
the location is the row and the column in the buffer of a double quote that
no double quote follows on its line; the scan for the closing quote does not
move the location. -/
theorem unclosed_literal_location (lexer : Bang_Lexer) (ws ws1 s tail : List Char)
    (hws : ∀ w ∈ ws, isspace w = true) (hs : '"' ∉ s) :
    (lexer.peek_buffer_full = false → lexer.line_start ≤ lexer.line.data →
      lexer.line.chars = ws ++ '"' :: s →
      bang_lexer_peek lexer =
        .fatal 1
          { row := lexer.row, col := lexer.line.data + ws.length - lexer.line_start + 1,
            file_path := lexer.file_path }
          ": ERROR: unclosed string literal") ∧
    (lexer.peek_buffer_full = false → lexer.line.chars = ws1 →
      (∀ w ∈ ws1, isspace w = true) → lexer.content.chars = ws ++ '"' :: (s ++ tail) →
      '\n' ∉ s → (∀ x, tail.head? = some x → x = '\n') →
      bang_lexer_peek lexer =
        .fatal 1
          { row := lexer.row + ws.count '\n' + 1,
            col := (ws.reverse.takeWhile (fun x => x != '\n')).length + 1,
            file_path := lexer.file_path }
          ": ERROR: unclosed string literal") ∧
    (∀ (base : Nat) (buf : List Char) (file_path : String) (calls : List Lexer_Call)
        (status : Nat) (loc : Bang_Loc),
      bang_lexer_run calls (bang_lexer_from_sv ⟨base, buf⟩ file_path) = some lexer →
      bang_lexer_peek lexer = .fatal status loc ": ERROR: unclosed string literal" →
      status = 1 ∧
      ∃ k, buf.get? k = some '"' ∧
        '"' ∉ (buf.drop (k + 1)).takeWhile (fun x => x != '\n') ∧
        loc.row = row_of buf k ∧ loc.col = col_of buf k) := by
  refine ⟨?_, ?_, ?_⟩
  · intro hfull hstart hline
    have hext := bang_lexer_extract_here lexer ws '"' _ hline hws (by decide) (by decide)
    rw [bang_lexer_peek_eq_classify lexer '"' _ hfull (by rw [hext]), hext,
      bang_lexer_classify_open _ s rfl hs]
    have hle : lexer.line_start ≤ lexer.line.data + ws.length :=
      Nat.le_trans hstart (Nat.le_add_right _ _)
    simp [bang_lexer_fatal, bang_lexer_loc, hle]
  · intro hfull hline hws1 hcontent hnl htail
    obtain ⟨h1, h2, h3, h4⟩ := bang_lexer_extract_below lexer ws1 ws '"' _ hline hws1
      hcontent hws (by decide) (by decide)
    obtain ⟨r1, r2⟩ := bang_lexer_extract_row lexer ws1 ws '"' _ hline hws1
      hcontent hws (by decide) (by decide)
    rw [takeWhile_line_open s tail hnl htail] at h1
    have hl : (bang_lexer_extract lexer).line.chars = '"' :: s := by rw [h1]
    have hd : (bang_lexer_extract lexer).line.data = lexer.content.data + ws.length := by
      rw [h1]
    rw [bang_lexer_peek_eq_classify lexer '"' _ hfull hl,
      bang_lexer_classify_open _ s hl hs]
    have hcol : (bang_lexer_extract lexer).line.data -
        (bang_lexer_extract lexer).line_start + 1 =
        (ws.reverse.takeWhile (fun x => x != '\n')).length + 1 := by
      rw [hd]
      omega
    simp only [bang_lexer_fatal, bang_lexer_loc, if_pos h2, hcol, r1, h4]
  · intro base buf file_path calls status loc hrun hpeek
    have hfresh : Lexer_Inv base buf (bang_lexer_from_sv ⟨base, buf⟩ file_path) :=
      ⟨lexer_shape_fresh base buf file_path, fun hf => by cases hf⟩
    have hinv := lexer_inv_run calls hfresh hrun
    have hshape := (lexer_shape_extract hinv.1).1
    unfold bang_lexer_peek at hpeek
    split_ifs at hpeek with hf
    split at hpeek
    · cases hpeek
    · rename_i c rest hl
      obtain ⟨hc, hrest, hst, hloc⟩ := bang_lexer_classify_unclosed hl hpeek
      subst hc
      exact ⟨hst, lexer_shape_quote hshape hl hrest hloc⟩

/-- Witness of C17 as amended, on lexers freshly constructed on a buffer.
On `"ab` the first `peek` fetches the line and the diagnostic is at row 1,
column 1.  On `x`, newline, two spaces, `"ab`, after `next` has returned `x`,
`peek` fetches the second line and the diagnostic is at row 2, column 3, the
position of the double quote at offset 4 of the buffer.  On `x "ab`, after
`next` has returned `x`, the literal is on the line the lexer is in and the
diagnostic is at row 1, column 3. -/
theorem unclosed_literal_location_witness :
    bang_lexer_peek (bang_lexer_from_sv ⟨0, "\"ab".toList⟩ "a.bang") =
      .fatal 1 ⟨1, 1, "a.bang"⟩ ": ERROR: unclosed string literal" ∧
    (∃ lexer,
      bang_lexer_run [.next] (bang_lexer_from_sv ⟨0, "x\n  \"ab".toList⟩ "a.bang") =
        some lexer ∧
      bang_lexer_peek lexer = .fatal 1 ⟨2, 3, "a.bang"⟩ ": ERROR: unclosed string literal" ∧
      ∃ k, ("x\n  \"ab".toList).get? k = some '"' ∧
        '"' ∉ (("x\n  \"ab".toList).drop (k + 1)).takeWhile (fun x => x != '\n') ∧
        2 = row_of "x\n  \"ab".toList k ∧ 3 = col_of "x\n  \"ab".toList k) ∧
    (∃ lexer,
      bang_lexer_run [.next] (bang_lexer_from_sv ⟨0, "x \"ab".toList⟩ "a.bang") =
        some lexer ∧
      bang_lexer_peek lexer =
        .fatal 1 ⟨1, 3, "a.bang"⟩ ": ERROR: unclosed string literal") := by
  have hrun2 :
      bang_lexer_run [.next] (bang_lexer_from_sv ⟨0, "x\n  \"ab".toList⟩ "a.bang") =
        some { bang_lexer_from_sv ⟨2, "  \"ab".toList⟩ "a.bang" with
          line := ⟨1, []⟩, row := 1,
          peek_buffer := ⟨.NAME, ⟨0, ['x']⟩, ⟨1, 1, "a.bang"⟩⟩ } := by decide
  have hrun3 :
      bang_lexer_run [.next] (bang_lexer_from_sv ⟨0, "x \"ab".toList⟩ "a.bang") =
        some { bang_lexer_from_sv ⟨5, []⟩ "a.bang" with
          line := ⟨1, " \"ab".toList⟩, row := 1,
          peek_buffer := ⟨.NAME, ⟨0, ['x']⟩, ⟨1, 1, "a.bang"⟩⟩ } := by decide
  have h1 := (unclosed_literal_location (bang_lexer_from_sv ⟨0, "\"ab".toList⟩ "a.bang")
    [] [] ['a', 'b'] [] (by simp) (by decide)).2.1 rfl rfl (by simp) rfl (by decide)
    (by simp)
  have h2 := unclosed_literal_location
    { bang_lexer_from_sv ⟨2, "  \"ab".toList⟩ "a.bang" with
      line := ⟨1, []⟩, row := 1,
      peek_buffer := ⟨.NAME, ⟨0, ['x']⟩, ⟨1, 1, "a.bang"⟩⟩ }
    [' ', ' '] [] ['a', 'b'] [] (by decide) (by decide)
  have h2a := h2.2.1 rfl rfl (by simp) rfl (by decide) (by simp)
  have h2b := (h2.2.2 0 "x\n  \"ab".toList "a.bang" [.next] 1 ⟨2, 3, "a.bang"⟩ hrun2 h2a).2
  have h3 := (unclosed_literal_location
    { bang_lexer_from_sv ⟨5, []⟩ "a.bang" with
      line := ⟨1, " \"ab".toList⟩, row := 1,
      peek_buffer := ⟨.NAME, ⟨0, ['x']⟩, ⟨1, 1, "a.bang"⟩⟩ }
    [' '] [] ['a', 'b'] [] (by decide) (by decide)).1 rfl (by decide) rfl
  exact ⟨h1, ⟨_, hrun2, h2a, h2b⟩, ⟨_, hrun3, h3⟩⟩

/-- C17 as stated fails: the reported location is not the position at which
the scan ended.  On a lexer freshly constructed on `"ab` the first `peek`
ends with the unclosed-string-literal diagnostic at row 1, column 1; the scan
ended at the end of the line, which has column 4, and no end of a line of the
buffer has column 1. -/
theorem unclosed_literal_location_counterexample :
    ¬ (∀ (base : Nat) (buf : List Char) (file_path : String) (calls : List Lexer_Call)
        (lexer : Bang_Lexer) (status : Nat) (loc : Bang_Loc),
        bang_lexer_run calls (bang_lexer_from_sv ⟨base, buf⟩ file_path) = some lexer →
        bang_lexer_peek lexer = .fatal status loc ": ERROR: unclosed string literal" →
        ∃ k, (buf.get? k = none ∨ buf.get? k = some '\n') ∧
          loc.row = row_of buf k ∧ loc.col = col_of buf k) := by
  intro hall
  obtain ⟨k, hk, _, hcol⟩ := hall 0 ['"', 'a', 'b'] "a.bang" []
    (bang_lexer_from_sv ⟨0, ['"', 'a', 'b']⟩ "a.bang") 1 ⟨1, 1, "a.bang"⟩ rfl (by decide)
  match k, hk, hcol with
  | 0, hk, _ => simp at hk
  | 1, hk, _ => simp at hk
  | 2, hk, _ => simp at hk
  | n + 3, _, hcol => simp [col_of] at hcol

end BM
